import Mathlib

/-!
# jtfiles: manifest resolution, collection and emission

A shallow embedding of `bin/jtfiles.go` (package main of the JTFRAME file
collector) together with the properties of its specification.

Go strings are embedded as Lean strings (sequences of Unicode scalar values);
slices are lists.  A nil slice and an empty slice are both the empty list: the
program only ever tests `parsed == nil`, and `parsed` is appended to right after
it is allocated, so for `parsed` "nil" and "empty" coincide.

The process environment, the file system, `filepath.Rel` against the working
directory and `strings.ToLower` are supplied by a `Sys` record.  `log.Fatal`
is an `Abort` value; recursion is bounded by a fuel argument whose exhaustion is
the distinguished abort `Abort.outOfFuel`.
-/

namespace Jtfiles

/-! ## Go library functions -/

/-- Go's unicode.IsSpace: the Latin-1 white space and the White_Space property. -/
def isSpace (c : Char) : Bool :=
  let n := c.toNat
  n == 0x09 || n == 0x0A || n == 0x0B || n == 0x0C || n == 0x0D || n == 0x20 ||
  n == 0x85 || n == 0xA0 || n == 0x1680 || (0x2000 ≤ n && n ≤ 0x200A) ||
  n == 0x2028 || n == 0x2029 || n == 0x202F || n == 0x205F || n == 0x3000

/-- Go's strings.TrimSpace: leading and trailing white space removed. -/
def TrimSpace (s : String) : String :=
  ⟨((s.data.dropWhile isSpace).reverse.dropWhile isSpace).reverse⟩

/-- Suffix test on character lists. -/
def listHasSuffix : List Char → List Char → Bool
  | s, suffix => decide (suffix.length ≤ s.length ∧ s.drop (s.length - suffix.length) = suffix)

/-- Go's strings.HasSuffix. -/
def HasSuffix (s suffix : String) : Bool := listHasSuffix s.data suffix.data

/-- The path separator of filepath on Unix. -/
def Separator : Char := '/'

/-- Split a character list at every separator (strings.Split with "/"). -/
def splitSep : List Char → List (List Char)
  | [] => [[]]
  | c :: cs =>
    match splitSep cs with
    | [] => [[c]]
    | w :: ws => if c = Separator then [] :: w :: ws else (c :: w) :: ws

/-- One element of a path pushed on the element stack of Clean (the stack is
kept reversed: its head is the last element written).  Empty and "." elements
are dropped; ".." removes the last real element when there is one, is dropped
at the root of a rooted path and is kept otherwise. -/
def cleanStep (rooted : Bool) (stack : List (List Char)) (e : List Char) : List (List Char) :=
  if e = [] ∨ e = ['.'] then stack
  else if e = ['.', '.'] then
    match stack with
    | [] => if rooted then [] else [e]
    | top :: below => if top = ['.', '.'] then e :: top :: below else below
  else e :: stack

/-- Joining path elements with the separator. -/
def joinSep : List (List Char) → List Char
  | [] => []
  | [e] => e
  | e :: es => e ++ Separator :: joinSep es

/-- Go's filepath.Clean on character lists (Unix: no volume name): the
shortest equivalent path by lexical processing; the empty path becomes ".". -/
def cleanChars (path : List Char) : List Char :=
  if path = [] then ['.']
  else
    let rooted := path.head? = some Separator
    let stack := (splitSep path).foldl (cleanStep rooted) []
    let body := joinSep stack.reverse
    if rooted then Separator :: body
    else if body = [] then ['.'] else body

/-- Go's filepath.Clean. -/
def Clean (path : String) : String := ⟨cleanChars path.data⟩

/-- Go's filepath.Join: the elements from the first non-empty one on are joined
with the separator and the result is cleaned; all elements empty gives "". -/
def Join (elem : List String) : String :=
  match elem.dropWhile (fun e => e = "") with
  | [] => ""
  | es => Clean ⟨joinSep (es.map String.data)⟩

/-- The part of a path up to and including its last separator. -/
def dirPrefix (path : List Char) : List Char :=
  (path.reverse.dropWhile (fun c => c ≠ Separator)).reverse

/-- Go's filepath.Dir: all but the last element of the path, cleaned. -/
def Dir (path : String) : String := ⟨cleanChars (dirPrefix path.data)⟩

/-- Scan of filepath.Ext from the end of the path (the argument is the path
reversed, the accumulator what has been passed): the suffix starting at the
last dot of the final element, or nothing. -/
def extScan : List Char → List Char → List Char
  | [], _ => []
  | c :: rest, acc =>
    if c = Separator then []
    else if c = '.' then c :: acc
    else extScan rest (c :: acc)

/-- Go's filepath.Ext. -/
def Ext (path : String) : String := ⟨extScan path.data.reverse []⟩

/-- Go's string comparison on character lists: lexicographic by code point
(which is the byte order of the UTF-8 encodings). -/
def charsLe : List Char → List Char → Bool
  | [], _ => true
  | _ :: _, [] => false
  | a :: as, b :: bs =>
    if a.toNat < b.toNat then true
    else if b.toNat < a.toNat then false
    else charsLe as bs

/-- The order sort.Strings sorts by: `a <= b` on Go strings. -/
def strLe (a b : String) : Prop := charsLe a.data b.data = true

instance strLe.decidable : DecidableRel strLe := fun a b =>
  inferInstanceAs (Decidable (charsLe a.data b.data = true))

/-- Strict order on Go strings: `a < b`. -/
def strLt (a b : String) : Prop := strLe a b ∧ a ≠ b

instance strLt.decidable : DecidableRel strLt := fun a b =>
  inferInstanceAs (Decidable (strLe a b ∧ a ≠ b))

/-- Go's sort.Strings: the list in increasing order. -/
def sortStrings (all : List String) : List String := all.insertionSort strLe

/-! ## Data model -/

/-- The origin categories of a file group. -/
inductive Origin where
  | GAME
  | FRAME
  | MODULE
  | JTMODULE
  deriving DecidableEq, Repr

/-- One file group of a manifest: the key "from", the names "get" and the
conditional gate "unless". -/
structure FileList where
  From : String
  Get : List String
  Unless : String
  deriving DecidableEq, Repr

/-- One entry of "modules.jt": a named module and its conditional gate. -/
structure JTModule where
  Name : String
  Unless : String
  deriving DecidableEq, Repr

/-- The "modules" section of a manifest. -/
structure ModulesT where
  JT : List JTModule
  Other : List FileList
  deriving DecidableEq, Repr

/-- A manifest, and also the aggregate that parse_yaml fills. -/
structure JTFiles where
  Game : List FileList
  JTFrame : List FileList
  Modules : ModulesT
  Here : List String
  deriving DecidableEq, Repr

/-- The zero value of JTFiles: the aggregate main starts from. -/
def JTFiles.empty : JTFiles := ⟨[], [], ⟨[], []⟩, []⟩

/-- The command-line options the emitters read. -/
structure Args where
  Corename : String
  Rel : Bool
  SkipVHDL : Bool
  Format : String
  Target : String
  deriving DecidableEq, Repr

/-- What ioutil.ReadFile followed by yaml.Unmarshal gives for a path. -/
inductive FileContent where
  | unreadable
  | garbled
  | manifest (m : JTFiles)
  deriving DecidableEq, Repr

/-- The surroundings of a run: the process environment, the file system, and
the two library functions that are not reproduced here: filepath.Rel with the
working directory CWD as base (none when it reports an error) and
strings.ToLower. -/
structure Sys where
  environ : String → Option String
  canOpen : String → Bool
  readYaml : String → FileContent
  relCWD : String → Option String
  toLower : String → String

/-- The ways a run stops without returning: the calls of log.Fatal and
log.Fatalf of the program, and the exhaustion of the recursion budget of the
embedding. -/
inductive Abort where
  | cannotOpen (filename : String)
  | cannotParse (filename : String)
  | cannotRel (oldpath : String)
  | unsupported (ext file : String)
  | outOfFuel
  deriving DecidableEq, Repr

deriving instance DecidableEq for Except

/-- The variables parse_yaml updates: the aggregate `files` and the global
list `parsed` of the manifests read so far. -/
structure State where
  files : JTFiles
  parsed : List String
  deriving DecidableEq, Repr

/-- Go's os.LookupEnv: no variable has the empty name. -/
def LookupEnv (sys : Sys) (key : String) : Option String :=
  if key = "" then none else sys.environ key

/-- Go's os.Getenv: the value of the variable, empty when it is not set. -/
def Getenv (sys : Sys) (key : String) : String := (LookupEnv sys key).getD ""

/-! ## append_filelist -/

/-- The directory prefix of a nested manifest found in a group of the given
origin (the switch inside append_filelist). -/
def yaml_base (sys : Sys) (origin : Origin) (key : String) : String :=
  match origin with
  | .GAME => Getenv sys "CORES" ++ "/" ++ key ++ "/hdl/"
  | .FRAME => Getenv sys "JTFRAME" ++ "/hdl/" ++ key ++ "/"
  | _ => Getenv sys "MODULES" ++ "/"

/-- Body of the inner loop of append_filelist over the names of one group:
`acc` is (newfl.Get, other). -/
def append_get (sys : Sys) (origin : Origin) (key : String)
    (acc : List String × List String) (each : String) : List String × List String :=
  let each := TrimSpace each
  if HasSuffix each ".yaml" then (acc.1, acc.2 ++ [yaml_base sys origin key ++ each])
  else (acc.1 ++ [each], acc.2)

/-- The search loop of append_filelist: the names of newfl are appended to the
first group of dest with the same key; without such a group newfl is appended
to dest. -/
def merge_group (newfl : FileList) : List FileList → List FileList
  | [] => [newfl]
  | d :: ds =>
    if d.From = newfl.From then { d with Get := d.Get ++ newfl.Get } :: ds
    else d :: merge_group newfl ds

/-- The test at the head of the loop of append_filelist: the group names a
variable under "unless" and the environment has a variable of that name. -/
def gated (sys : Sys) (each : FileList) : Prop :=
  each.Unless ≠ "" ∧ (LookupEnv sys each.Unless).isSome = true

instance gated.decidable (sys : Sys) (each : FileList) : Decidable (gated sys each) :=
  inferInstanceAs (Decidable (each.Unless ≠ "" ∧ (LookupEnv sys each.Unless).isSome = true))

/-- Body of the outer loop of append_filelist: `acc` is (dest, other).  The
list newfl.Get starts as make([]string,2), two empty strings. -/
def append_group (sys : Sys) (origin : Origin)
    (acc : List FileList × List String) (each : FileList) : List FileList × List String :=
  if gated sys each then acc
  else
    let r := each.Get.foldl (append_get sys origin each.From) (["", ""], acc.2)
    let newfl : FileList := ⟨each.From, r.1, ""⟩
    if newfl.Get.length > 0 then (merge_group newfl acc.1, r.2) else (acc.1, r.2)

/-- The function append_filelist: returns the new dest and the new other. -/
def append_filelist (sys : Sys) (dest : List FileList) (src : List FileList)
    (other : List String) (origin : Origin) : List FileList × List String :=
  src.foldl (append_group sys origin) (dest, other)

/-! ## parse_yaml -/

/-- The function is_parsed, on the global list parsed. -/
def is_parsed (parsed : List String) (name : String) : Bool :=
  match parsed with
  | [] => false
  | k :: rest => if name = k then true else is_parsed rest name

/-- The candidate manifest of a module of "modules.jt". -/
def module_yaml (sys : Sys) (each : JTModule) : String :=
  Join [Getenv sys "MODULES", each.Name, "hdl", each.Name ++ ".yaml"]

/-- The state after `files.Modules.JT = append( files.Modules.JT, each )`. -/
def retain_module (st : State) (each : JTModule) : State :=
  { st with files := { st.files with
      Modules := { st.files.Modules with JT := st.files.Modules.JT ++ [each] } } }

/-- The state after `files.Here = append( files.Here, fullpath )`. -/
def add_here (st : State) (fullpath : String) : State :=
  { st with files := { st.files with Here := st.files.Here ++ [fullpath] } }

/-- The loop of parse_yaml over aux.Modules.JT; `recur` is parse_yaml. -/
def jt_loop (sys : Sys) (recur : String → State → Except Abort State) :
    List JTModule → State → Except Abort State
  | [], st => .ok st
  | each :: rest, st =>
    if sys.canOpen (module_yaml sys each) then
      match recur (module_yaml sys each) st with
      | .ok st1 => jt_loop sys recur rest st1
      | .error e => .error e
    else jt_loop sys recur rest (retain_module st each)

/-- The loop of parse_yaml over the queued nested manifests `other`. -/
def other_loop (recur : String → State → Except Abort State) :
    List String → State → Except Abort State
  | [], st => .ok st
  | each :: rest, st =>
    if is_parsed st.parsed each then other_loop recur rest st
    else
      match recur each st with
      | .ok st1 => other_loop recur rest st1
      | .error e => .error e

/-- The loop of parse_yaml over aux.Here; `dir` is the directory of the
manifest being parsed. -/
def here_loop (recur : String → State → Except Abort State) (dir : String) :
    List String → State → Except Abort State
  | [], st => .ok st
  | each :: rest, st =>
    if HasSuffix each ".yaml" ∧ is_parsed st.parsed each = false then
      match recur (Join [dir, each]) st with
      | .ok st1 => here_loop recur dir rest st1
      | .error e => .error e
    else here_loop recur dir rest (add_here st (Join [dir, each]))

/-- The aggregate after the three calls of append_filelist in parse_yaml, and
the nested manifests they queued. -/
def merge_groups (sys : Sys) (files aux : JTFiles) : JTFiles × List String :=
  let g := append_filelist sys files.Game aux.Game [] .GAME
  let f := append_filelist sys files.JTFrame aux.JTFrame g.2 .FRAME
  let m := append_filelist sys files.Modules.Other aux.Modules.Other f.2 .MODULE
  ({ files with Game := g.1, JTFrame := f.1, Modules := { files.Modules with Other := m.1 } }, m.2)

/-- The function parse_yaml.  Every call uses one unit of fuel; a nested call
gets what is left. -/
def parse_yaml (sys : Sys) : Nat → String → State → Except Abort State
  | 0, _, _ => .error .outOfFuel
  | fuel + 1, filename, st =>
    match sys.readYaml filename with
    | .unreadable =>
      if st.parsed = [] then .ok st else .error (.cannotOpen filename)
    | .garbled => .error (.cannotParse filename)
    | .manifest aux =>
      let r := merge_groups sys st.files aux
      let st1 : State := ⟨r.1, st.parsed ++ [filename]⟩
      match jt_loop sys (parse_yaml sys fuel) aux.Modules.JT st1 with
      | .error e => .error e
      | .ok st2 =>
        match other_loop (parse_yaml sys fuel) r.2 st2 with
        | .error e => .error e
        | .ok st3 => here_loop (parse_yaml sys fuel) (Dir filename) aux.Here st3

/-! ## collect_files -/

/-- The function make_path: the joined path, made relative to the working
directory when rel is set (fatal when that fails) and cleaned otherwise. -/
def make_path (sys : Sys) (path filename : String) (rel : Bool) : Except Abort String :=
  let oldpath := Join [path, filename]
  if rel then
    match sys.relCWD oldpath with
    | some item => .ok item
    | none => .error (.cannotRel oldpath)
  else .ok (Clean oldpath)

/-- The root directory of a group at flatten time (the switch inside
dump_filelist). -/
def origin_path (sys : Sys) (origin : Origin) (key : String) : String :=
  match origin with
  | .GAME => Join [Getenv sys "CORES", key, "hdl"]
  | .FRAME => Join [Getenv sys "JTFRAME", "hdl", key]
  | .MODULE => Join [Getenv sys "MODULES", key]
  | .JTMODULE => Getenv sys "JTROOT"

/-- The inner loop of dump_filelist over the names of one group. -/
def dump_names (sys : Sys) (path : String) (rel : Bool) :
    List String → List String → Except Abort (List String)
  | [], all => .ok all
  | each :: rest, all =>
    if each.length > 0 then
      match make_path sys path each rel with
      | .ok item => dump_names sys path rel rest (all ++ [item])
      | .error e => .error e
    else dump_names sys path rel rest all

/-- The function dump_filelist. -/
def dump_filelist (sys : Sys) (origin : Origin) (rel : Bool) :
    List FileList → List String → Except Abort (List String)
  | [], all => .ok all
  | each :: rest, all =>
    match dump_names sys (origin_path sys origin each.From) rel each.Get all with
    | .ok all1 => dump_filelist sys origin rel rest all1
    | .error e => .error e

/-- The function dump_jtmodules. -/
def dump_jtmodules (sys : Sys) (rel : Bool) :
    List JTModule → List String → Except Abort (List String)
  | [], all => .ok all
  | each :: rest, all =>
    if each.Name.length > 0 then
      let lower := sys.toLower each.Name
      match make_path sys (Getenv sys "MODULES") (Join [lower, "hdl", lower ++ ".yaml"]) rel with
      | .ok item => dump_jtmodules sys rel rest (all ++ [item])
      | .error e => .error e
    else dump_jtmodules sys rel rest all

/-- A "here" entry as collect_files adds it: made relative when rel is set,
the error of filepath.Rel being dropped (the entry is then empty). -/
def here_path (sys : Sys) (rel : Bool) (each : String) : String :=
  if rel then (sys.relCWD each).getD "" else each

/-- The part of collect_files before the sort: the paths of the three group
lists, of the retained modules and of the "here" entries, in that order. -/
def gather_files (sys : Sys) (files : JTFiles) (rel : Bool) : Except Abort (List String) :=
  match dump_filelist sys .GAME rel files.Game [] with
  | .error e => .error e
  | .ok a1 =>
    match dump_filelist sys .FRAME rel files.JTFrame a1 with
    | .error e => .error e
    | .ok a2 =>
      match dump_jtmodules sys rel files.Modules.JT a2 with
      | .error e => .error e
      | .ok a3 =>
        match dump_filelist sys .MODULE rel files.Modules.Other a3 with
        | .error e => .error e
        | .ok a4 => .ok (a4 ++ files.Here.map (here_path sys rel))

/-- Body of the loop of collect_files that removes duplicated files. -/
def uniq_step (uniq : List String) (each : String) : List String :=
  if uniq.length = 0 ∨ some each ≠ uniq.getLast? then uniq ++ [each] else uniq

/-- The end of collect_files: sort.Strings, then the removal of repeated
neighbours when the list is not empty. -/
def sort_uniq (all : List String) : List String :=
  let sorted := sortStrings all
  if sorted.length > 0 then sorted.foldl uniq_step [] else sorted

/-- The function collect_files. -/
def collect_files (sys : Sys) (files : JTFiles) (rel : Bool) : Except Abort (List String) :=
  match gather_files sys files rel with
  | .error e => .error e
  | .ok all => .ok (sort_uniq all)

/-! ## Emitters -/

/-- What an emitter leaves behind: the lines written to its output file, and
the fatal error that stopped it, if any. -/
structure Emitted where
  lines : List String
  fatal : Option Abort
  deriving DecidableEq, Repr

/-- The switch of dump_qip on the extension of an entry. -/
def qip_filetype (each : String) : Except Abort String :=
  let ext := Ext each
  if ext = ".sv" then .ok "SYSTEMVERILOG_FILE"
  else if ext = ".vhd" then .ok "VHDL_FILE"
  else if ext = ".v" then .ok "VERILOG_FILE"
  else if ext = ".qip" then .ok "QIP_FILE"
  else .error (.unsupported ext each)

/-- The line dump_qip prints for an entry of the given file type. -/
def qip_line (filetype each : String) (rel : Bool) : String :=
  let aux := "set_global_assignment -name " ++ filetype
  if rel then aux ++ "[file join $::quartus(qip_path) " ++ each ++ "]"
  else aux ++ " " ++ each

/-- The function dump_qip (the creation of game.qip is taken to succeed). -/
def dump_qip : List String → Bool → Emitted
  | [], _ => ⟨[], none⟩
  | each :: rest, rel =>
    match qip_filetype each with
    | .error e => ⟨[], some e⟩
    | .ok filetype =>
      let r := dump_qip rest rel
      ⟨qip_line filetype each rel :: r.lines, r.fatal⟩

/-- The switch of dump_sim on the extension of an entry: whether the entry is
written. -/
def sim_dump (each : String) (args : Args) : Except Abort Bool :=
  let ext := Ext each
  if ext = ".sv" then .ok true
  else if ext = ".vhd" then .ok (!args.SkipVHDL)
  else if ext = ".v" then .ok true
  else if ext = ".qip" then .ok false
  else .error (.unsupported ext each)

/-- The function dump_sim (the creation of game.f is taken to succeed). -/
def dump_sim : List String → Args → Emitted
  | [], _ => ⟨[], none⟩
  | each :: rest, args =>
    match sim_dump each args with
    | .error e => ⟨[], some e⟩
    | .ok dump =>
      let r := dump_sim rest args
      ⟨if dump then each :: r.lines else r.lines, r.fatal⟩

/-- The function get_filename, given that CORES is set and not empty. -/
def get_filename (sys : Sys) (args : Args) : String :=
  Getenv sys "CORES" ++ "/" ++ args.Corename ++ "/hdl/game.yaml"

/-! ## The flattened path set, in the words of the specification -/

/-- The specification's flattened paths of one origin category: for each group
its root joined with each non-empty file name, relativized when rel is set. -/
def IsGroupPath (sys : Sys) (origin : Origin) (rel : Bool) (fl : List FileList)
    (p : String) : Prop :=
  ∃ g ∈ fl, ∃ f ∈ g.Get, f ≠ "" ∧ make_path sys (origin_path sys origin g.From) f rel = .ok p

/-- The specification's synthesized path of a surviving module reference:
MODULES/lower(name)/hdl/lower(name).yaml. -/
def synth_path (sys : Sys) (each : JTModule) (rel : Bool) : Except Abort String :=
  make_path sys (Getenv sys "MODULES")
    (Join [sys.toLower each.Name, "hdl", sys.toLower each.Name ++ ".yaml"]) rel

/-- The specification's flattened path set of an aggregate: the paths of the
non-empty group file names, the synthesized paths of the retained module
references, and the "here" entries. -/
def IsFlatPath (sys : Sys) (files : JTFiles) (rel : Bool) (p : String) : Prop :=
  IsGroupPath sys .GAME rel files.Game p ∨
  IsGroupPath sys .FRAME rel files.JTFrame p ∨
  (∃ m ∈ files.Modules.JT, m.Name ≠ "" ∧ synth_path sys m rel = .ok p) ∨
  IsGroupPath sys .MODULE rel files.Modules.Other p ∨
  (∃ h ∈ files.Here, p = here_path sys rel h)

/-- The group list holds the file name f under the key k. -/
def Holds (fl : List FileList) (k f : String) : Prop :=
  ∃ d ∈ fl, d.From = k ∧ f ∈ d.Get

/-- The groups of a manifest (or of the aggregate) of one origin category. -/
def groups_of (origin : Origin) (m : JTFiles) : List FileList :=
  match origin with
  | .GAME => m.Game
  | .FRAME => m.JTFrame
  | .MODULE => m.Modules.Other
  | .JTMODULE => []

/-- The plain group names of the manifest m stand in the aggregate agg: every
name (trimmed, not ending in .yaml) of every group of m that is not gated
stands in agg under the same origin category and key. -/
def GroupsMerged (sys : Sys) (m agg : JTFiles) : Prop :=
  ∀ origin, ∀ g ∈ groups_of origin m, ¬ gated sys g → ∀ n ∈ g.Get,
    HasSuffix (TrimSpace n) ".yaml" = false → Holds (groups_of origin agg) g.From (TrimSpace n)

/-- The state s1 extends the state s: every file name held under a key is
still held under it, and the "here" list, the list of retained module
references and the list parsed have only been appended to. -/
def Extends (s s1 : State) : Prop :=
  (∀ origin k f, Holds (groups_of origin s.files) k f → Holds (groups_of origin s1.files) k f) ∧
  (∃ more, s1.files.Here = s.files.Here ++ more) ∧
  (∃ more, s1.files.Modules.JT = s.files.Modules.JT ++ more) ∧
  (∃ more, s1.parsed = s.parsed ++ more)

/-- The contents of the manifest m, read from the path r, are merged in the
state s:
* the plain names of its groups that are not gated stand in the aggregate;
* its "here" entries not ending in .yaml stand in the "here" list, joined to
  the directory of r;
* its "here" entries ending in .yaml, joined to the directory of r, have been
  parsed or stand in the "here" list;
* the nested manifests its groups name (entries ending in .yaml) have been
  parsed;
* of its "modules.jt" entries, those whose manifest can be opened have had it
  parsed, and the others are retained in the aggregate. -/
def Inlined (sys : Sys) (r : String) (m : JTFiles) (s : State) : Prop :=
  GroupsMerged sys m s.files ∧
  (∀ e ∈ m.Here, HasSuffix e ".yaml" = false → Join [Dir r, e] ∈ s.files.Here) ∧
  (∀ e ∈ m.Here, HasSuffix e ".yaml" = true →
    Join [Dir r, e] ∈ s.parsed ∨ Join [Dir r, e] ∈ s.files.Here) ∧
  (∀ origin, ∀ g ∈ groups_of origin m, ¬ gated sys g → ∀ e ∈ g.Get,
    HasSuffix (TrimSpace e) ".yaml" = true →
    yaml_base sys origin g.From ++ TrimSpace e ∈ s.parsed) ∧
  (∀ n ∈ m.Modules.JT,
    (sys.canOpen (module_yaml sys n) = true → module_yaml sys n ∈ s.parsed) ∧
    (sys.canOpen (module_yaml sys n) = false → n ∈ s.files.Modules.JT))

/-- Every manifest parsed since the list `old` has its contents merged in the
state s: with the clauses of `Inlined` on nested manifests and modules, the
contents of a manifest are merged together with those of every manifest it
leads to. -/
def InlinedSince (sys : Sys) (old : List String) (s : State) : Prop :=
  ∀ r ∈ s.parsed, r ∈ old ∨ ∀ m, sys.readYaml r = .manifest m → Inlined sys r m s

/-- The expanded entries of the manifest m, read from the path r, are among
the paths of the list l: the path made (relative when rel is set) for every
non-empty plain name of every group of m that is not gated, and the path of
every "here" entry of m that has not been parsed as a manifest. -/
def Expanded (sys : Sys) (rel : Bool) (r : String) (m : JTFiles) (parsed l : List String) :
    Prop :=
  (∀ origin, ∀ g ∈ groups_of origin m, ¬ gated sys g → ∀ n ∈ g.Get,
    HasSuffix (TrimSpace n) ".yaml" = false → TrimSpace n ≠ "" →
    ∃ p, make_path sys (origin_path sys origin g.From) (TrimSpace n) rel = .ok p ∧ p ∈ l) ∧
  (∀ e ∈ m.Here, HasSuffix e ".yaml" = false → here_path sys rel (Join [Dir r, e]) ∈ l) ∧
  (∀ e ∈ m.Here, HasSuffix e ".yaml" = true →
    Join [Dir r, e] ∈ parsed ∨ here_path sys rel (Join [Dir r, e]) ∈ l)

/-- The flattened path set of an aggregate without the paths synthesized from
the module references named `name` that are not in the list `old`. -/
def IsFlatPathBut (sys : Sys) (files : JTFiles) (rel : Bool) (name : String)
    (old : List JTModule) (p : String) : Prop :=
  IsGroupPath sys .GAME rel files.Game p ∨
  IsGroupPath sys .FRAME rel files.JTFrame p ∨
  (∃ m ∈ files.Modules.JT, (m.Name ≠ name ∨ m ∈ old) ∧ m.Name ≠ "" ∧
    synth_path sys m rel = .ok p) ∨
  IsGroupPath sys .MODULE rel files.Modules.Other p ∨
  (∃ h ∈ files.Here, p = here_path sys rel h)

/-- The extensions the emitters accept. -/
def Supported (ext : String) : Prop :=
  ext = ".sv" ∨ ext = ".vhd" ∨ ext = ".v" ∨ ext = ".qip"

instance Supported.decidable (ext : String) : Decidable (Supported ext) :=
  inferInstanceAs (Decidable (ext = ".sv" ∨ ext = ".vhd" ∨ ext = ".v" ∨ ext = ".qip"))

/-- The specification's category tag of a supported extension: SystemVerilog,
VHDL, Verilog, nested project. -/
def qip_tag (ext : String) : String :=
  if ext = ".sv" then "SYSTEMVERILOG_FILE"
  else if ext = ".vhd" then "VHDL_FILE"
  else if ext = ".v" then "VERILOG_FILE"
  else "QIP_FILE"

/-- The specification's inclusion rule of the simulation list: .sv and .v
always, .vhd unless VHDL is skipped, .qip never. -/
def sim_keeps (skip : Bool) (p : String) : Bool :=
  decide (Ext p = ".sv") || decide (Ext p = ".v") || (decide (Ext p = ".vhd") && !skip)

/-- The non-empty plain names the source groups with key k bring to the
aggregate: the trimmed names, not ending in .yaml and not empty, of the groups
of the source list that are not gated, in order. -/
def plain_names (sys : Sys) (src : List FileList) (k : String) : List String :=
  (src.filter (fun g => ¬ gated sys g ∧ g.From = k)).flatMap (fun g =>
    (g.Get.map TrimSpace).filter (fun n => HasSuffix n ".yaml" = false ∧ n ≠ ""))

/-- The names a group list stores under the key k, empty strings dropped. -/
def names_of (fl : List FileList) (k : String) : List String :=
  (fl.filter (fun d => d.From = k)).flatMap (fun d => d.Get.filter (fun n => n ≠ ""))

/-- A real element of a path: not empty, without separator, neither "." nor
"..". -/
def PlainElem (c : List Char) : Prop :=
  c ≠ [] ∧ Separator ∉ c ∧ c ≠ ['.'] ∧ c ≠ ['.', '.']

/-- The path p has c as its final element: p is c, or ends in a separator
followed by c. -/
def EndsIn (p c : List Char) : Prop := p = c ∨ ∃ q, p = q ++ Separator :: c

/-- The path Clean writes for an element stack (kept reversed): the elements
joined by separators, behind a separator when the path is rooted, and "."
when nothing is left of a path that is not rooted. -/
def renderPath (rooted : Bool) (stack : List (List Char)) : List Char :=
  if rooted then Separator :: joinSep stack.reverse
  else if joinSep stack.reverse = [] then ['.'] else joinSep stack.reverse

/-- The element stacks Clean builds: every element is not empty, has no
separator and is not "."; a ".." element only stands in a path that is not
rooted, on top of ".." elements only. -/
def StackOk (rooted : Bool) : List (List Char) → Prop
  | [] => True
  | x :: below =>
    (x ≠ [] ∧ Separator ∉ x ∧ x ≠ ['.']) ∧
    (x = ['.', '.'] → rooted = false ∧ ∀ y ∈ below, y = ['.', '.']) ∧
    StackOk rooted below

/-- What Join puts in front of an entry joined to the directory written for
an element stack. -/
def dirLead (rooted : Bool) (stack : List (List Char)) : List Char :=
  (if rooted then [Separator] else []) ++
    (if stack = [] then [] else joinSep stack.reverse ++ [Separator])

/-- The "here" list of the state is the list H0 followed by further entries
among which the entries of L stand in order. -/
def HereGrown (H0 L : List String) (s : State) : Prop :=
  ∃ more, s.files.Here = H0 ++ more ∧ L.Sublist more

/-- No two groups of the list have the same key. -/
def KeysUnique (fl : List FileList) : Prop := (fl.map (fun g => g.From)).Nodup

/-- The absolute paths of the groups of one origin category, in order. -/
def group_paths (sys : Sys) (origin : Origin) (fl : List FileList) : List String :=
  fl.flatMap (fun g =>
    (g.Get.filter (fun f => f ≠ "")).map (fun f => Clean (Join [origin_path sys origin g.From, f])))

/-- The absolute synthesized paths of the retained module references with a
name, in order. -/
def module_paths (sys : Sys) (mods : List JTModule) : List String :=
  (mods.filter (fun m => m.Name ≠ "")).map (fun m =>
    Clean (Join [Getenv sys "MODULES",
      Join [sys.toLower m.Name, "hdl", sys.toLower m.Name ++ ".yaml"]]))

/-- The flattened path list of an aggregate in absolute-path mode, before the
sort: groups of game, groups of jtframe, modules, groups of modules.other,
"here" entries. -/
def flat_paths (sys : Sys) (files : JTFiles) : List String :=
  group_paths sys .GAME files.Game ++ group_paths sys .FRAME files.JTFrame ++
    module_paths sys files.Modules.JT ++ group_paths sys .MODULE files.Modules.Other ++
    files.Here

/-! ## Concrete systems -/

/-- ASCII case folding, the value of strings.ToLower on ASCII names. -/
def asciiLower (s : String) : String := ⟨s.data.map Char.toLower⟩

/-- A system given by its environment variables and its manifest files (every
listed file opens and decodes; no other path can be opened or read). -/
def mkSys (env : List (String × String)) (fs : List (String × JTFiles)) : Sys where
  environ := fun k => env.lookup k
  canOpen := fun p => (fs.lookup p).isSome
  readYaml := fun p =>
    match fs.lookup p with
    | some m => .manifest m
    | none => .unreadable
  relCWD := fun _ => none
  toLower := asciiLower

/-- A manifest that only names modules under "modules.jt". -/
def jtManifest (names : List String) : JTFiles :=
  ⟨[], [], ⟨names.map (fun n => ⟨n, ""⟩), []⟩, []⟩

/-- A manifest that only lists "here" entries. -/
def hereManifest (entries : List String) : JTFiles := ⟨[], [], ⟨[], []⟩, entries⟩

/-- The state main starts from: empty aggregate, nothing parsed. -/
def State.init : State := ⟨JTFiles.empty, []⟩

/-- Two module manifests that name each other under "modules.jt". -/
def sysJTCycle : Sys :=
  mkSys [("MODULES", "/m")]
    [("/m/foo/hdl/foo.yaml", jtManifest ["bar"]), ("/m/bar/hdl/bar.yaml", jtManifest ["foo"])]

/-- Two manifests of one directory that name each other under "here". -/
def sysHereCycle : Sys :=
  mkSys [] [("/x/a.yaml", hereManifest ["b.yaml"]), ("/x/b.yaml", hereManifest ["a.yaml"])]

/-- A system with no environment variable and no file. -/
def sysBare : Sys := mkSys [] []

/-- A core whose manifest names the modules foo and bar, where the manifest
of bar names foo again and the manifest of foo lists one file. -/
def sysDiamond : Sys :=
  mkSys [("CORES", "/c"), ("MODULES", "/m")]
    [("/c/g/hdl/game.yaml", jtManifest ["foo", "bar"]),
     ("/m/foo/hdl/foo.yaml", ⟨[⟨"g", ["f.v"], ""⟩], [], ⟨[], []⟩, []⟩),
     ("/m/bar/hdl/bar.yaml", jtManifest ["foo"])]

/-- A core whose manifest names the module bar (no manifest file) and the
module foo (with a manifest file), both under `unless: NOMOD`, in an
environment where NOMOD is set. -/
def sysGatedModule : Sys :=
  mkSys [("CORES", "/c"), ("MODULES", "/m"), ("NOMOD", "1")]
    [("/c/g/hdl/game.yaml", ⟨[], [], ⟨[⟨"bar", "NOMOD"⟩, ⟨"foo", "NOMOD"⟩], []⟩, []⟩),
     ("/m/foo/hdl/foo.yaml", ⟨[⟨"g", ["f.v"], ""⟩], [], ⟨[], []⟩, []⟩)]

/-- The root manifest of the end-to-end scenario. -/
def e2eManifest : JTFiles :=
  ⟨[⟨"foo", ["x.sv", "y.vhd"], ""⟩], [], ⟨[⟨"bar", ""⟩], []⟩, []⟩

/-- The aggregate parse_yaml builds from the root manifest of the end-to-end
scenario. -/
def e2eAggregate : JTFiles :=
  ⟨[⟨"foo", ["", "", "x.sv", "y.vhd"], ""⟩], [], ⟨[⟨"bar", ""⟩], []⟩, []⟩

/-- The absolute path of a file of the game group foo. -/
def e2eGamePath (sys : Sys) (name : String) : String :=
  Clean (Join [origin_path sys .GAME "foo", name])

/-- The synthesized path of the manifest of the module bar. -/
def e2eBarPath (sys : Sys) : String :=
  Clean (Join [Getenv sys "MODULES", "bar/hdl/bar.yaml"])

/-- The end-to-end scenario: the root manifest lists x.sv and y.vhd under the
game key foo and names the module bar, which has no manifest file. -/
def sysE2E : Sys :=
  mkSys [("CORES", "/cores"), ("MODULES", "/modules")]
    [("/cores/foo/hdl/game.yaml", e2eManifest)]

/-- A core whose manifest names a module with the empty name, which has no
manifest file. -/
def sysNoName : Sys :=
  mkSys [("CORES", "/c"), ("MODULES", "/m")]
    [("/c/g/hdl/game.yaml", ⟨[], [], ⟨[⟨"", ""⟩], []⟩, []⟩)]

/-- The manifest of the module foo of sysInline: the files f.v and the nested
manifest deep.yaml under the game key g, the module sub, and the "here" entry
h.v. -/
def inlineFoo : JTFiles :=
  ⟨[⟨"g", ["f.v", "deep.yaml"], ""⟩], [], ⟨[⟨"sub", ""⟩], []⟩, ["h.v"]⟩

/-- The nested manifest deep.yaml of sysInline. -/
def inlineDeep : JTFiles := ⟨[⟨"g", ["deep.v"], ""⟩], [], ⟨[], []⟩, []⟩

/-- A core whose manifest names the modules foo and bar.  The module foo has
a manifest (inlineFoo), which leads to the nested manifest deep.yaml of the
core and to the module sub; the modules bar and sub have no manifest.  The
working directory is the root directory, for the five paths of the flattened
list. -/
def sysInline : Sys :=
  { mkSys [("CORES", "/c"), ("MODULES", "/m")]
      [("/c/g/hdl/game.yaml", jtManifest ["foo", "bar"]),
       ("/m/foo/hdl/foo.yaml", inlineFoo),
       ("/c/g/hdl/deep.yaml", inlineDeep)] with
    relCWD := fun p =>
      [("/c/g/hdl/f.v", "c/g/hdl/f.v"), ("/c/g/hdl/deep.v", "c/g/hdl/deep.v"),
       ("/m/foo/hdl/h.v", "m/foo/hdl/h.v"), ("/m/sub/hdl/sub.yaml", "m/sub/hdl/sub.yaml"),
       ("/m/bar/hdl/bar.yaml", "m/bar/hdl/bar.yaml")].lookup p }

/-- The state parse_yaml reaches on the manifest of the core of sysInline. -/
def inlineState : State :=
  ⟨⟨[⟨"g", ["", "", "f.v", "", "", "deep.v"], ""⟩], [], ⟨[⟨"sub", ""⟩, ⟨"bar", ""⟩], []⟩,
     ["/m/foo/hdl/h.v"]⟩,
   ["/c/g/hdl/game.yaml", "/m/foo/hdl/foo.yaml", "/c/g/hdl/deep.yaml"]⟩

/-- A core whose manifest names the modules foo and FOO, where only the
module foo has a manifest, which lists one file. -/
def sysSibling : Sys :=
  mkSys [("CORES", "/c"), ("MODULES", "/m")]
    [("/c/g/hdl/game.yaml", jtManifest ["foo", "FOO"]),
     ("/m/foo/hdl/foo.yaml", ⟨[⟨"g", ["f.v"], ""⟩], [], ⟨[], []⟩, []⟩)]

/-- Two manifests in the directories /a/b and /a/c that both list the "here"
entry ../x.v; the first one also names the second. -/
def sysTwoDirs : Sys :=
  mkSys []
    [("/a/b/m.yaml", hereManifest ["../c/m.yaml", "../x.v"]),
     ("/a/c/m.yaml", hereManifest ["../x.v"])]

/-! ## main -/

/-- The two top-level calls of parse_yaml in main: the manifest of the core,
then the manifest of the framework, on the same aggregate. -/
def main_parse (sys : Sys) (args : Args) (fuel : Nat) : Except Abort State :=
  match parse_yaml sys fuel (get_filename sys args) State.init with
  | .error e => .error e
  | .ok st => parse_yaml sys fuel (Getenv sys "JTFRAME" ++ "/hdl/jtframe.yaml") st

/-- The function main, once parse_args and the test of CORES in get_filename
have passed: the two calls of parse_yaml, collect_files, and the emitter the
format selects. -/
def main (sys : Sys) (args : Args) (fuel : Nat) : Except Abort Emitted :=
  match main_parse sys args fuel with
  | .error e => .error e
  | .ok st =>
    match collect_files sys st.files args.Rel with
    | .error e => .error e
    | .ok all => .ok (if args.Format = "qip" then dump_qip all args.Rel else dump_sim all args)

/-- The command line `-core g`. -/
def argsG : Args := ⟨"g", false, false, "qip", ""⟩

/-- A system where CORES and JTFRAME are set and no manifest exists. -/
def sysNoFiles : Sys := mkSys [("CORES", "/c"), ("JTFRAME", "/f")] []

/-- A system where the manifest of the core g exists and the manifest of the
framework does not. -/
def sysNoFrame : Sys :=
  mkSys [("CORES", "/c"), ("JTFRAME", "/f")]
    [("/c/g/hdl/game.yaml", ⟨[⟨"g", ["f.v"], ""⟩], [], ⟨[], []⟩, []⟩)]

/-! ## The string order and the sort-and-dedup step -/

theorem char_eq_of_toNat_eq {a b : Char} (h : a.toNat = b.toNat) : a = b := by
  rw [← Char.ofNat_toNat a, ← Char.ofNat_toNat b, h]

theorem charsLe_refl (a : List Char) : charsLe a a = true := by
  induction a with
  | nil => rfl
  | cons c cs ih => simp [charsLe, ih]

theorem charsLe_total (a b : List Char) : charsLe a b = true ∨ charsLe b a = true := by
  induction a generalizing b with
  | nil => exact Or.inl rfl
  | cons c cs ih =>
    cases b with
    | nil => exact Or.inr rfl
    | cons d ds =>
      rcases Nat.lt_trichotomy c.toNat d.toNat with h | h | h
      · left; simp [charsLe, h]
      · have h1 : ¬ c.toNat < d.toNat := by omega
        have h2 : ¬ d.toNat < c.toNat := by omega
        rcases ih ds with h3 | h3
        · left; simp [charsLe, h1, h2, h3]
        · right; simp [charsLe, h1, h2, h3]
      · right; simp [charsLe, h]

theorem charsLe_antisymm (a b : List Char) (h1 : charsLe a b = true) (h2 : charsLe b a = true) :
    a = b := by
  induction a generalizing b with
  | nil =>
    cases b with
    | nil => rfl
    | cons d ds => simp [charsLe] at h2
  | cons c cs ih =>
    cases b with
    | nil => simp [charsLe] at h1
    | cons d ds =>
      rcases Nat.lt_trichotomy c.toNat d.toNat with h | h | h
      · have h3 : ¬ d.toNat < c.toNat := by omega
        simp [charsLe, h, h3] at h2
      · have h3 : ¬ c.toNat < d.toNat := by omega
        have h4 : ¬ d.toNat < c.toNat := by omega
        simp only [charsLe, h3, h4, if_false] at h1 h2
        rw [char_eq_of_toNat_eq h, ih ds h1 h2]
      · have h3 : ¬ c.toNat < d.toNat := by omega
        simp [charsLe, h, h3] at h1

theorem charsLe_trans (a b c : List Char) (h1 : charsLe a b = true) (h2 : charsLe b c = true) :
    charsLe a c = true := by
  induction a generalizing b c with
  | nil => rfl
  | cons x xs ih =>
    cases b with
    | nil => simp [charsLe] at h1
    | cons y ys =>
      cases c with
      | nil => simp [charsLe] at h2
      | cons z zs =>
        by_cases hxy : x.toNat < y.toNat
        · by_cases hyz : y.toNat < z.toNat
          · have : x.toNat < z.toNat := by omega
            simp [charsLe, this]
          · by_cases hzy : z.toNat < y.toNat
            · simp [charsLe, hyz, hzy] at h2
            · have : x.toNat < z.toNat := by omega
              simp [charsLe, this]
        · by_cases hyx : y.toNat < x.toNat
          · simp [charsLe, hxy, hyx] at h1
          · simp only [charsLe, hxy, hyx, if_false] at h1
            by_cases hyz : y.toNat < z.toNat
            · have : x.toNat < z.toNat := by omega
              simp [charsLe, this]
            · by_cases hzy : z.toNat < y.toNat
              · simp [charsLe, hyz, hzy] at h2
              · simp only [charsLe, hyz, hzy, if_false] at h2
                have h3 : ¬ x.toNat < z.toNat := by omega
                have h4 : ¬ z.toNat < x.toNat := by omega
                simp only [charsLe, h3, h4, if_false]
                exact ih ys zs h1 h2

theorem strLe_refl (a : String) : strLe a a := charsLe_refl a.data

theorem strLe_total (a b : String) : strLe a b ∨ strLe b a := charsLe_total a.data b.data

theorem strLe_trans {a b c : String} (h1 : strLe a b) (h2 : strLe b c) : strLe a c :=
  charsLe_trans a.data b.data c.data h1 h2

theorem strLe_antisymm {a b : String} (h1 : strLe a b) (h2 : strLe b a) : a = b := by
  have h := charsLe_antisymm a.data b.data h1 h2
  cases a; cases b; simp_all

theorem strLt_irrefl (a : String) : ¬ strLt a a := fun h => h.2 rfl

theorem strLt_trans {a b c : String} (h1 : strLt a b) (h2 : strLt b c) : strLt a c := by
  refine ⟨strLe_trans h1.1 h2.1, ?_⟩
  intro h
  subst h
  exact h1.2 (strLe_antisymm h1.1 h2.1)

theorem sortStrings_sorted (all : List String) : (sortStrings all).Pairwise strLe := by
  haveI : IsTotal String strLe := ⟨strLe_total⟩
  haveI : IsTrans String strLe := ⟨fun _ _ _ => strLe_trans⟩
  exact List.sorted_insertionSort strLe all

theorem mem_sortStrings (all : List String) (p : String) : p ∈ sortStrings all ↔ p ∈ all :=
  List.mem_insertionSort strLe

/-- The dedup loop keeps a strictly increasing list strictly increasing and
adds exactly the elements of its input. -/
theorem uniq_fold_spec (l : List String) :
    ∀ acc : List String, acc.Pairwise strLt → l.Pairwise strLe →
      (∀ a ∈ acc, ∀ x ∈ l, strLe a x) →
      (l.foldl uniq_step acc).Pairwise strLt ∧
        ∀ p, p ∈ l.foldl uniq_step acc ↔ p ∈ acc ∨ p ∈ l := by
  induction l with
  | nil => intro acc hacc _ _; simp [hacc]
  | cons x rest ih =>
    intro acc hacc hl hle
    have hrest : rest.Pairwise strLe := (List.pairwise_cons.1 hl).2
    have hx : ∀ y ∈ rest, strLe x y := (List.pairwise_cons.1 hl).1
    rw [List.foldl_cons]
    by_cases hc : acc.length = 0 ∨ some x ≠ acc.getLast?
    · have hstep : uniq_step acc x = acc ++ [x] := by simp only [uniq_step, if_pos hc]
      have hnew : ∀ a ∈ acc, strLt a x := by
        intro a ha
        refine ⟨hle a ha x (List.mem_cons_self _ _), ?_⟩
        intro hax
        subst hax
        rcases List.eq_nil_or_concat acc with h0 | ⟨L, z, hz⟩
        · subst h0; simp at ha
        · rw [List.concat_eq_append] at hz
          subst hz
          rcases hc with hc | hc
          · simp at hc
          · rw [List.getLast?_concat] at hc
            have hza : z ≠ a := fun h => hc (by rw [h])
            rcases List.mem_append.1 ha with h | h
            · have hlt : strLt a z :=
                (List.pairwise_append.1 hacc).2.2 a h z (List.mem_singleton_self z)
              have hzle : strLe z a := hle z (by simp) a (List.mem_cons_self _ _)
              exact hza (strLe_antisymm hzle hlt.1)
            · exact hza (List.mem_singleton.1 h).symm
      rw [hstep]
      have hacc2 : (acc ++ [x]).Pairwise strLt := by
        rw [List.pairwise_append]
        refine ⟨hacc, List.pairwise_singleton _ _, ?_⟩
        intro a ha b hb
        rw [List.mem_singleton.1 hb]
        exact hnew a ha
      have hle2 : ∀ a ∈ acc ++ [x], ∀ y ∈ rest, strLe a y := by
        intro a ha y hy
        rcases List.mem_append.1 ha with h | h
        · exact hle a h y (List.mem_cons_of_mem _ hy)
        · rw [List.mem_singleton.1 h]; exact hx y hy
      obtain ⟨h1, h2⟩ := ih (acc ++ [x]) hacc2 hrest hle2
      refine ⟨h1, fun p => ?_⟩
      rw [h2 p]
      simp only [List.mem_append, List.mem_singleton, List.mem_cons]
      tauto
    · have hstep : uniq_step acc x = acc := by simp only [uniq_step, if_neg hc]
      rw [hstep]
      have hle2 : ∀ a ∈ acc, ∀ y ∈ rest, strLe a y :=
        fun a ha y hy => hle a ha y (List.mem_cons_of_mem _ hy)
      obtain ⟨h1, h2⟩ := ih acc hacc hrest hle2
      refine ⟨h1, fun p => ?_⟩
      rw [h2 p]
      have hxin : x ∈ acc := by
        have h3 : some x = acc.getLast? := by
          by_contra h4; exact hc (Or.inr h4)
        rcases List.eq_nil_or_concat acc with h0 | ⟨L, z, hz⟩
        · subst h0; simp at h3
        · rw [List.concat_eq_append] at hz
          subst hz
          rw [List.getLast?_concat] at h3
          simp only [Option.some.injEq] at h3
          simp [h3]
      simp only [List.mem_cons]
      constructor
      · tauto
      · rintro (h | h | h)
        · exact Or.inl h
        · exact Or.inl (h ▸ hxin)
        · exact Or.inr h

theorem sort_uniq_sorted (all : List String) : (sort_uniq all).Pairwise strLt := by
  unfold sort_uniq
  by_cases h : (sortStrings all).length > 0
  · simp only [if_pos h]
    exact (uniq_fold_spec (sortStrings all) [] List.Pairwise.nil (sortStrings_sorted all)
      (by simp)).1
  · simp only [if_neg h]
    have : sortStrings all = [] := List.length_eq_zero.1 (by omega)
    rw [this]; exact List.Pairwise.nil

theorem mem_sort_uniq (all : List String) (p : String) : p ∈ sort_uniq all ↔ p ∈ all := by
  unfold sort_uniq
  by_cases h : (sortStrings all).length > 0
  · simp only [if_pos h]
    rw [(uniq_fold_spec (sortStrings all) [] List.Pairwise.nil (sortStrings_sorted all)
      (by simp)).2 p]
    simp [mem_sortStrings]
  · simp only [if_neg h]
    exact mem_sortStrings all p

/-- Two strictly increasing lists with the same elements are equal. -/
theorem strict_sorted_ext {l1 l2 : List String} (h1 : l1.Pairwise strLt) (h2 : l2.Pairwise strLt)
    (h : ∀ p, p ∈ l1 ↔ p ∈ l2) : l1 = l2 := by
  haveI : IsIrrefl String strLt := ⟨strLt_irrefl⟩
  haveI : IsAntisymm String strLt :=
    ⟨fun a b hab hba => strLe_antisymm hab.1 hba.1⟩
  have n1 : l1.Nodup := List.Sorted.nodup h1
  have n2 : l2.Nodup := List.Sorted.nodup h2
  exact List.eq_of_perm_of_sorted ((List.perm_ext_iff_of_nodup n1 n2).2 h) h1 h2

theorem sort_uniq_ext {l1 l2 : List String} (h : ∀ p, p ∈ l1 ↔ p ∈ l2) :
    sort_uniq l1 = sort_uniq l2 :=
  strict_sorted_ext (sort_uniq_sorted l1) (sort_uniq_sorted l2)
    (fun p => by rw [mem_sort_uniq, mem_sort_uniq, h])

theorem sort_uniq_of_sorted {l : List String} (h : l.Pairwise strLt) : sort_uniq l = l :=
  strict_sorted_ext (sort_uniq_sorted l) h (mem_sort_uniq l)

/-! ## The flattening of collect_files -/

theorem str_length_pos (s : String) : s.length > 0 ↔ s ≠ "" := by
  cases s with
  | mk d =>
    cases d with
    | nil => simp [String.length]
    | cons c cs =>
      simp only [String.length, List.length_cons, gt_iff_lt, Nat.zero_lt_succ, true_iff]
      intro h
      have := congrArg String.data h
      simp at this

theorem make_path_abs (sys : Sys) (path filename : String) :
    make_path sys path filename false = .ok (Clean (Join [path, filename])) := rfl

theorem dump_names_abs (sys : Sys) (path : String) (names : List String) :
    ∀ all, dump_names sys path false names all =
      .ok (all ++ (names.filter (fun f => f ≠ "")).map (fun f => Clean (Join [path, f]))) := by
  induction names with
  | nil => intro all; simp [dump_names]
  | cons f rest ih =>
    intro all
    by_cases h : f.length > 0
    · have hne : f ≠ "" := (str_length_pos f).1 h
      simp [dump_names, h, make_path_abs, ih, hne]
    · have hne : f = "" := by
        by_contra h1; exact h ((str_length_pos f).2 h1)
      simp [dump_names, h, ih, hne]

theorem dump_filelist_abs (sys : Sys) (origin : Origin) (fl : List FileList) :
    ∀ all, dump_filelist sys origin false fl all = .ok (all ++ group_paths sys origin fl) := by
  induction fl with
  | nil => intro all; simp [dump_filelist, group_paths]
  | cons g rest ih =>
    intro all
    simp only [dump_filelist, dump_names_abs, ih]
    simp [group_paths, List.flatMap]

theorem dump_jtmodules_abs (sys : Sys) (mods : List JTModule) :
    ∀ all, dump_jtmodules sys false mods all = .ok (all ++ module_paths sys mods) := by
  induction mods with
  | nil => intro all; simp [dump_jtmodules, module_paths]
  | cons m rest ih =>
    intro all
    by_cases h : m.Name.length > 0
    · have hne : m.Name ≠ "" := (str_length_pos _).1 h
      simp only [dump_jtmodules, if_pos h, make_path_abs, ih]
      simp [module_paths, hne]
    · have hne : m.Name = "" := by
        by_contra h1; exact h ((str_length_pos _).2 h1)
      simp only [dump_jtmodules, if_neg h, ih]
      simp [module_paths, hne]

theorem gather_files_abs (sys : Sys) (files : JTFiles) :
    gather_files sys files false = .ok (flat_paths sys files) := by
  have hh : here_path sys false = id := rfl
  simp [gather_files, dump_filelist_abs, dump_jtmodules_abs, flat_paths, hh]

theorem collect_files_abs (sys : Sys) (files : JTFiles) :
    collect_files sys files false = .ok (sort_uniq (flat_paths sys files)) := by
  simp [collect_files, gather_files_abs]

theorem dump_names_mem (sys : Sys) (path : String) (rel : Bool) (names : List String) :
    ∀ all out, dump_names sys path rel names all = .ok out →
      ∀ p, p ∈ out ↔ p ∈ all ∨ ∃ f ∈ names, f ≠ "" ∧ make_path sys path f rel = .ok p := by
  induction names with
  | nil =>
    intro all out h p
    simp only [dump_names, Except.ok.injEq] at h
    subst h; simp
  | cons f rest ih =>
    intro all out h p
    by_cases hf : f.length > 0
    · have hne : f ≠ "" := (str_length_pos f).1 hf
      simp only [dump_names, if_pos hf] at h
      cases hm : make_path sys path f rel with
      | error e => rw [hm] at h; simp at h
      | ok item =>
        rw [hm] at h
        rw [ih _ _ h p]
        simp only [List.mem_append, List.mem_singleton, List.mem_cons, List.not_mem_nil, or_false]
        constructor
        · rintro ((h1 | h1) | ⟨g, hg, hg2⟩)
          · exact Or.inl h1
          · exact Or.inr ⟨f, Or.inl rfl, hne, by rw [hm, h1]⟩
          · exact Or.inr ⟨g, Or.inr hg, hg2⟩
        · rintro (h1 | ⟨g, hg | hg, hg2, hg3⟩)
          · exact Or.inl (Or.inl h1)
          · subst hg
            rw [hm] at hg3
            simp only [Except.ok.injEq] at hg3
            exact Or.inl (Or.inr hg3.symm)
          · exact Or.inr ⟨g, hg, hg2, hg3⟩
    · have hne : f = "" := by
        by_contra h1; exact hf ((str_length_pos f).2 h1)
      simp only [dump_names, if_neg hf] at h
      rw [ih _ _ h p]
      simp only [List.mem_cons]
      constructor
      · rintro (h1 | ⟨g, hg, hg2⟩)
        · exact Or.inl h1
        · exact Or.inr ⟨g, Or.inr hg, hg2⟩
      · rintro (h1 | ⟨g, hg | hg, hg2, hg3⟩)
        · exact Or.inl h1
        · subst hg; exact absurd hne hg2
        · exact Or.inr ⟨g, hg, hg2, hg3⟩

theorem dump_filelist_mem (sys : Sys) (origin : Origin) (rel : Bool) (fl : List FileList) :
    ∀ all out, dump_filelist sys origin rel fl all = .ok out →
      ∀ p, p ∈ out ↔ p ∈ all ∨ IsGroupPath sys origin rel fl p := by
  induction fl with
  | nil =>
    intro all out h p
    simp only [dump_filelist, Except.ok.injEq] at h
    subst h; simp [IsGroupPath]
  | cons g rest ih =>
    intro all out h p
    simp only [dump_filelist] at h
    cases hd : dump_names sys (origin_path sys origin g.From) rel g.Get all with
    | error e => rw [hd] at h; simp at h
    | ok all1 =>
      rw [hd] at h
      rw [ih _ _ h p, dump_names_mem sys _ rel g.Get all all1 hd p]
      simp only [IsGroupPath, List.mem_cons]
      constructor
      · rintro ((h1 | ⟨f, hf, hf2⟩) | ⟨g2, hg2, hrest⟩)
        · exact Or.inl h1
        · exact Or.inr ⟨g, Or.inl rfl, f, hf, hf2⟩
        · exact Or.inr ⟨g2, Or.inr hg2, hrest⟩
      · rintro (h1 | ⟨g2, hg2 | hg2, hrest⟩)
        · exact Or.inl (Or.inl h1)
        · subst hg2; exact Or.inl (Or.inr hrest)
        · exact Or.inr ⟨g2, hg2, hrest⟩

theorem dump_jtmodules_mem (sys : Sys) (rel : Bool) (mods : List JTModule) :
    ∀ all out, dump_jtmodules sys rel mods all = .ok out →
      ∀ p, p ∈ out ↔ p ∈ all ∨ ∃ m ∈ mods, m.Name ≠ "" ∧ synth_path sys m rel = .ok p := by
  induction mods with
  | nil =>
    intro all out h p
    simp only [dump_jtmodules, Except.ok.injEq] at h
    subst h; simp
  | cons m rest ih =>
    intro all out h p
    by_cases hf : m.Name.length > 0
    · have hne : m.Name ≠ "" := (str_length_pos _).1 hf
      simp only [dump_jtmodules, if_pos hf] at h
      cases hm : synth_path sys m rel with
      | error e =>
        unfold synth_path at hm
        rw [hm] at h; simp at h
      | ok item =>
        have hm2 := hm
        unfold synth_path at hm2
        rw [hm2] at h
        rw [ih _ _ h p]
        simp only [List.mem_append, List.mem_singleton, List.mem_cons, List.not_mem_nil, or_false]
        constructor
        · rintro ((h1 | h1) | ⟨g, hg, hg2⟩)
          · exact Or.inl h1
          · exact Or.inr ⟨m, Or.inl rfl, hne, by rw [hm, h1]⟩
          · exact Or.inr ⟨g, Or.inr hg, hg2⟩
        · rintro (h1 | ⟨g, hg | hg, hg2, hg3⟩)
          · exact Or.inl (Or.inl h1)
          · subst hg
            rw [hm] at hg3
            simp only [Except.ok.injEq] at hg3
            exact Or.inl (Or.inr hg3.symm)
          · exact Or.inr ⟨g, hg, hg2, hg3⟩
    · have hne : m.Name = "" := by
        by_contra h1; exact hf ((str_length_pos _).2 h1)
      simp only [dump_jtmodules, if_neg hf] at h
      rw [ih _ _ h p]
      simp only [List.mem_cons]
      constructor
      · rintro (h1 | ⟨g, hg, hg2⟩)
        · exact Or.inl h1
        · exact Or.inr ⟨g, Or.inr hg, hg2⟩
      · rintro (h1 | ⟨g, hg | hg, hg2, hg3⟩)
        · exact Or.inl h1
        · subst hg; exact absurd hne hg2
        · exact Or.inr ⟨g, hg, hg2, hg3⟩

theorem gather_files_mem (sys : Sys) (files : JTFiles) (rel : Bool) (all : List String)
    (h : gather_files sys files rel = .ok all) (p : String) :
    p ∈ all ↔ IsFlatPath sys files rel p := by
  unfold gather_files at h
  cases h1 : dump_filelist sys .GAME rel files.Game [] with
  | error e => simp only [h1] at h; simp at h
  | ok a1 =>
    simp only [h1] at h
    cases h2 : dump_filelist sys .FRAME rel files.JTFrame a1 with
    | error e => simp only [h2] at h; simp at h
    | ok a2 =>
      simp only [h2] at h
      cases h3 : dump_jtmodules sys rel files.Modules.JT a2 with
      | error e => simp only [h3] at h; simp at h
      | ok a3 =>
        simp only [h3] at h
        cases h4 : dump_filelist sys .MODULE rel files.Modules.Other a3 with
        | error e => simp only [h4] at h; simp at h
        | ok a4 =>
          simp only [h4] at h
          simp only [Except.ok.injEq] at h
          subst h
          have m1 := dump_filelist_mem sys .GAME rel files.Game [] a1 h1 p
          have m2 := dump_filelist_mem sys .FRAME rel files.JTFrame a1 a2 h2 p
          have m3 := dump_jtmodules_mem sys rel files.Modules.JT a2 a3 h3 p
          have m4 := dump_filelist_mem sys .MODULE rel files.Modules.Other a3 a4 h4 p
          simp only [List.not_mem_nil, false_or] at m1
          rw [List.mem_append, m4, m3, m2, m1]
          unfold IsFlatPath
          simp only [List.mem_map]
          constructor
          · rintro ((((h | h) | h) | h) | ⟨x, hx, rfl⟩)
            · exact Or.inl h
            · exact Or.inr (Or.inl h)
            · exact Or.inr (Or.inr (Or.inl h))
            · exact Or.inr (Or.inr (Or.inr (Or.inl h)))
            · exact Or.inr (Or.inr (Or.inr (Or.inr ⟨x, hx, rfl⟩)))
          · rintro (h | h | h | h | ⟨x, hx, rfl⟩)
            · exact Or.inl (Or.inl (Or.inl (Or.inl h)))
            · exact Or.inl (Or.inl (Or.inl (Or.inr h)))
            · exact Or.inl (Or.inl (Or.inr h))
            · exact Or.inl (Or.inr h)
            · exact Or.inr ⟨x, hx, rfl⟩

/-! ## The final element of a cleaned path -/

theorem splitSep_ne_nil (p : List Char) : ∃ w ws, splitSep p = w :: ws := by
  induction p with
  | nil => exact ⟨[], [], rfl⟩
  | cons c cs ih =>
    obtain ⟨w, ws, h⟩ := ih
    by_cases hc : c = Separator
    · exact ⟨[], w :: ws, by simp [splitSep, h, hc]⟩
    · exact ⟨c :: w, ws, by simp [splitSep, h, hc]⟩

theorem splitSep_no_sep (c : List Char) (h : Separator ∉ c) : splitSep c = [c] := by
  induction c with
  | nil => rfl
  | cons x xs ih =>
    have hx : x ≠ Separator := fun e => h (e ▸ List.mem_cons_self _ _)
    have hxs : Separator ∉ xs := fun e => h (List.mem_cons_of_mem _ e)
    simp [splitSep, ih hxs, hx]

theorem splitSep_append (a b : List Char) :
    splitSep (a ++ Separator :: b) = splitSep a ++ splitSep b := by
  induction a with
  | nil =>
    obtain ⟨w, ws, h⟩ := splitSep_ne_nil b
    simp [splitSep, h]
  | cons x xs ih =>
    obtain ⟨w, ws, h⟩ := splitSep_ne_nil xs
    by_cases hx : x = Separator
    · simp [splitSep, ih, h, hx]
    · simp [splitSep, ih, h, hx]

theorem cleanStep_plain (rooted : Bool) (stack : List (List Char)) (c : List Char)
    (h : PlainElem c) : cleanStep rooted stack c = c :: stack := by
  obtain ⟨h1, _, h3, h4⟩ := h
  simp [cleanStep, h1, h3, h4]

theorem joinSep_concat (ys : List (List Char)) (c : List Char) :
    EndsIn (joinSep (ys ++ [c])) c := by
  induction ys with
  | nil => exact Or.inl rfl
  | cons y rest ih =>
    cases hr : rest ++ [c] with
    | nil => simp at hr
    | cons z zs =>
      have e : joinSep ((y :: rest) ++ [c]) = y ++ Separator :: joinSep (rest ++ [c]) := by
        simp only [List.cons_append, hr, joinSep]
      rw [e]
      rcases ih with h | ⟨q, h⟩
      · exact Or.inr ⟨y, by rw [h]⟩
      · exact Or.inr ⟨y ++ Separator :: q, by rw [h]; simp⟩

theorem endsIn_ne_nil {p c : List Char} (hc : c ≠ []) (h : EndsIn p c) : p ≠ [] := by
  rcases h with h | ⟨q, h⟩
  · rw [h]; exact hc
  · rw [h]; simp

/-- Clean keeps the final element of a path when it is a real element. -/
theorem cleanChars_endsIn (p c : List Char) (hc : PlainElem c) (h : EndsIn p c) :
    EndsIn (cleanChars p) c := by
  have hp : p ≠ [] := endsIn_ne_nil hc.1 h
  have hsplit : ∃ xs, splitSep p = xs ++ [c] := by
    rcases h with h | ⟨q, h⟩
    · exact ⟨[], by rw [h, splitSep_no_sep c hc.2.1]; rfl⟩
    · exact ⟨splitSep q, by rw [h, splitSep_append, splitSep_no_sep c hc.2.1]⟩
  obtain ⟨xs, hxs⟩ := hsplit
  have hbody : ∀ r : Bool, EndsIn (joinSep ((splitSep p).foldl (cleanStep r) []).reverse) c := by
    intro r
    rw [hxs, List.foldl_append, List.foldl_cons, List.foldl_nil, cleanStep_plain _ _ _ hc,
      List.reverse_cons]
    exact joinSep_concat _ c
  unfold cleanChars
  simp only [if_neg hp]
  by_cases hr : p.head? = some Separator
  · simp only [hr, decide_True, if_true]
    have hb := hbody true
    simp only [hr, decide_True] at hb
    rcases hb with h1 | ⟨q, h1⟩
    · exact Or.inr ⟨[], by rw [h1]; rfl⟩
    · exact Or.inr ⟨Separator :: q, by rw [h1]; rfl⟩
  · simp only [hr, decide_False, if_false]
    have hb := hbody false
    simp only [hr, decide_False] at hb
    have hne := endsIn_ne_nil hc.1 hb
    simp only [if_neg hne]
    exact hb

theorem extScan_append_sep (a : List Char) :
    ∀ (acc b : List Char), Separator ∉ a →
      extScan (a ++ Separator :: b) acc = extScan a acc := by
  induction a with
  | nil => intro acc b _; simp [extScan]
  | cons x xs ih =>
    intro acc b h
    have hx : x ≠ Separator := fun e => h (e ▸ List.mem_cons_self _ _)
    have hxs : Separator ∉ xs := fun e => h (List.mem_cons_of_mem _ e)
    by_cases hd : x = '.'
    · simp [extScan, hx, hd]
    · simp [extScan, hx, hd, ih _ _ hxs]

/-- The extension of a path is that of its final element. -/
theorem extScan_endsIn (p c : List Char) (hc : Separator ∉ c) (h : EndsIn p c) :
    extScan p.reverse [] = extScan c.reverse [] := by
  rcases h with h | ⟨q, h⟩
  · rw [h]
  · rw [h, List.reverse_append, List.reverse_cons, List.append_assoc, List.singleton_append]
    exact extScan_append_sep _ _ _ (by simpa using hc)

theorem join_pair_endsIn (dir name : String) (c : List Char) (hc : PlainElem c)
    (h : EndsIn name.data c) : EndsIn (Join [dir, name]).data c := by
  have hname : name ≠ "" := by
    intro e
    rw [e] at h
    exact endsIn_ne_nil hc.1 h rfl
  by_cases hd : dir = ""
  · have e : Join [dir, name] = Clean ⟨joinSep [name.data]⟩ := by
      simp [Join, hd, List.dropWhile, hname]
    rw [e]
    exact cleanChars_endsIn _ c hc h
  · have e : Join [dir, name] = Clean ⟨joinSep [dir.data, name.data]⟩ := by
      simp [Join, hd, List.dropWhile]
    rw [e]
    apply cleanChars_endsIn _ c hc
    simp only [joinSep]
    rcases h with h | ⟨q, h⟩
    · exact Or.inr ⟨dir.data, by rw [h]⟩
    · exact Or.inr ⟨dir.data ++ Separator :: q, by rw [h]; simp⟩

/-- The extension of an absolute path made by make_path is the extension of
the final element of the file name. -/
theorem ext_clean_join (dir name : String) (c : List Char) (hc : PlainElem c)
    (h : EndsIn name.data c) :
    Ext (Clean (Join [dir, name])) = ⟨extScan c.reverse []⟩ := by
  have h1 := join_pair_endsIn dir name c hc h
  have h2 := cleanChars_endsIn _ c hc h1
  simp only [Ext, Clean]
  rw [extScan_endsIn _ c hc.2.1 h2]

/-! ## append_filelist -/

theorem append_filelist_nil (sys : Sys) (dest : List FileList) (other : List String)
    (origin : Origin) : append_filelist sys dest [] other origin = (dest, other) := rfl

theorem append_filelist_cons (sys : Sys) (dest : List FileList) (g : FileList)
    (src : List FileList) (other : List String) (origin : Origin) :
    append_filelist sys dest (g :: src) other origin =
      append_filelist sys (append_group sys origin (dest, other) g).1 src
        (append_group sys origin (dest, other) g).2 origin := rfl

theorem append_filelist_append (sys : Sys) (dest : List FileList) (src1 src2 : List FileList)
    (other : List String) (origin : Origin) :
    append_filelist sys dest (src1 ++ src2) other origin =
      append_filelist sys (append_filelist sys dest src1 other origin).1 src2
        (append_filelist sys dest src1 other origin).2 origin := by
  simp [append_filelist, List.foldl_append]

theorem append_group_gated (sys : Sys) (origin : Origin) (acc : List FileList × List String)
    (g : FileList) (h : gated sys g) : append_group sys origin acc g = acc := by
  simp [append_group, h]

/-- The names of a group split by the inner loop: the plain ones (trimmed) go
to the group, the ones ending in .yaml are queued behind their prefix. -/
theorem append_get_fold (sys : Sys) (origin : Origin) (key : String) (names : List String) :
    ∀ acc : List String × List String,
      names.foldl (append_get sys origin key) acc =
        (acc.1 ++ ((names.map TrimSpace).filter (fun n => HasSuffix n ".yaml" = false)),
         acc.2 ++ ((names.map TrimSpace).filter (fun n => HasSuffix n ".yaml" = true)).map
            (fun n => yaml_base sys origin key ++ n)) := by
  induction names with
  | nil => intro acc; simp
  | cons n rest ih =>
    intro acc
    rw [List.foldl_cons, ih]
    by_cases h : HasSuffix (TrimSpace n) ".yaml" = true
    · simp [append_get, h]
    · have h2 : HasSuffix (TrimSpace n) ".yaml" = false := by simpa using h
      simp [append_get, h2]

/-- The plain names of a group as append_filelist stores them. -/
theorem append_group_ungated (sys : Sys) (origin : Origin) (acc : List FileList × List String)
    (g : FileList) (h : ¬ gated sys g) :
    append_group sys origin acc g =
      (merge_group ⟨g.From,
          ["", ""] ++ (g.Get.map TrimSpace).filter (fun n => HasSuffix n ".yaml" = false), ""⟩ acc.1,
        acc.2 ++ ((g.Get.map TrimSpace).filter (fun n => HasSuffix n ".yaml" = true)).map
            (fun n => yaml_base sys origin g.From ++ n)) := by
  simp [append_group, h, append_get_fold]

theorem merge_group_keys (newfl : FileList) (dest : List FileList) :
    (merge_group newfl dest).map (fun g => g.From) =
      if newfl.From ∈ dest.map (fun g => g.From) then dest.map (fun g => g.From)
      else dest.map (fun g => g.From) ++ [newfl.From] := by
  induction dest with
  | nil => simp [merge_group]
  | cons d ds ih =>
    by_cases h : d.From = newfl.From
    · simp [merge_group, h]
    · have h2 : ¬ newfl.From = d.From := fun e => h e.symm
      simp only [merge_group, if_neg h, List.map_cons, ih, List.mem_cons, h2, false_or]
      split <;> simp

theorem merge_group_unique (newfl : FileList) (dest : List FileList) (h : KeysUnique dest) :
    KeysUnique (merge_group newfl dest) := by
  unfold KeysUnique at *
  rw [merge_group_keys]
  split
  · exact h
  · rename_i hn
    rw [List.nodup_append]
    refine ⟨h, List.nodup_singleton _, ?_⟩
    intro a ha hb
    rw [List.mem_singleton.1 hb] at ha
    exact hn ha

theorem merge_group_fresh (newfl : FileList) (dest : List FileList)
    (h : ∀ d ∈ dest, d.From ≠ newfl.From) : merge_group newfl dest = dest ++ [newfl] := by
  induction dest with
  | nil => rfl
  | cons d ds ih =>
    have hd : d.From ≠ newfl.From := h d (List.mem_cons_self _ _)
    simp only [merge_group, if_neg hd, List.cons_append]
    rw [ih (fun x hx => h x (List.mem_cons_of_mem _ hx))]

theorem merge_group_last (newfl : FileList) (dest : List FileList) (g : FileList)
    (hk : g.From = newfl.From) (h : ∀ d ∈ dest, d.From ≠ newfl.From) :
    merge_group newfl (dest ++ [g]) = dest ++ [{ g with Get := g.Get ++ newfl.Get }] := by
  induction dest with
  | nil => simp [merge_group, hk]
  | cons d ds ih =>
    have hd : d.From ≠ newfl.From := h d (List.mem_cons_self _ _)
    have e := ih (fun x hx => h x (List.mem_cons_of_mem _ hx))
    simp only [List.cons_append, merge_group, if_neg hd, List.append_eq, e]

theorem append_group_unique (sys : Sys) (origin : Origin) (acc : List FileList × List String)
    (g : FileList) (h : KeysUnique acc.1) : KeysUnique (append_group sys origin acc g).1 := by
  by_cases hg : gated sys g
  · rw [append_group_gated sys origin acc g hg]; exact h
  · rw [append_group_ungated sys origin acc g hg]
    exact merge_group_unique _ _ h

theorem append_filelist_unique (sys : Sys) (src : List FileList) :
    ∀ (dest : List FileList) (other : List String) (origin : Origin),
      KeysUnique dest → KeysUnique (append_filelist sys dest src other origin).1 := by
  induction src with
  | nil => intro dest other origin h; exact h
  | cons g rest ih =>
    intro dest other origin h
    rw [append_filelist_cons]
    exact ih _ _ _ (append_group_unique sys origin (dest, other) g h)

/-! ## Invariants of parse_yaml -/

theorem jt_loop_inv (sys : Sys) (recur : String → State → Except Abort State)
    (P : State → Prop)
    (hrec : ∀ p st st1, recur p st = .ok st1 → P st → P st1)
    (hkeep : ∀ st each, sys.canOpen (module_yaml sys each) = false → P st →
      P (retain_module st each)) :
    ∀ (l : List JTModule) (st st1 : State), jt_loop sys recur l st = .ok st1 → P st → P st1 := by
  intro l
  induction l with
  | nil =>
    intro st st1 h hP
    simp only [jt_loop, Except.ok.injEq] at h
    subst h; exact hP
  | cons each rest ih =>
    intro st st1 h hP
    by_cases ho : sys.canOpen (module_yaml sys each) = true
    · simp only [jt_loop, if_pos ho] at h
      cases hr : recur (module_yaml sys each) st with
      | error e => simp [hr] at h
      | ok s2 =>
        simp only [hr] at h
        exact ih s2 st1 h (hrec _ _ _ hr hP)
    · simp only [jt_loop, if_neg ho] at h
      exact ih _ st1 h (hkeep st each (by simpa using ho) hP)

theorem other_loop_inv (recur : String → State → Except Abort State) (P : State → Prop)
    (hrec : ∀ p st st1, recur p st = .ok st1 → P st → P st1) :
    ∀ (l : List String) (st st1 : State), other_loop recur l st = .ok st1 → P st → P st1 := by
  intro l
  induction l with
  | nil =>
    intro st st1 h hP
    simp only [other_loop, Except.ok.injEq] at h
    subst h; exact hP
  | cons each rest ih =>
    intro st st1 h hP
    by_cases ho : is_parsed st.parsed each = true
    · simp only [other_loop, if_pos ho] at h
      exact ih st st1 h hP
    · simp only [other_loop, if_neg ho] at h
      cases hr : recur each st with
      | error e => simp [hr] at h
      | ok s2 =>
        simp only [hr] at h
        exact ih s2 st1 h (hrec _ _ _ hr hP)

theorem here_loop_inv (recur : String → State → Except Abort State) (dir : String)
    (P : State → Prop)
    (hrec : ∀ p st st1, recur p st = .ok st1 → P st → P st1)
    (hhere : ∀ st p, P st → P (add_here st p)) :
    ∀ (l : List String) (st st1 : State), here_loop recur dir l st = .ok st1 → P st → P st1 := by
  intro l
  induction l with
  | nil =>
    intro st st1 h hP
    simp only [here_loop, Except.ok.injEq] at h
    subst h; exact hP
  | cons each rest ih =>
    intro st st1 h hP
    by_cases ho : HasSuffix each ".yaml" = true ∧ is_parsed st.parsed each = false
    · simp only [here_loop, if_pos ho] at h
      cases hr : recur (Join [dir, each]) st with
      | error e => simp [hr] at h
      | ok s2 =>
        simp only [hr] at h
        exact ih s2 st1 h (hrec _ _ _ hr hP)
    · simp only [here_loop, if_neg ho] at h
      exact ih _ st1 h (hhere st _ hP)

/-- What a successful call of parse_yaml on a manifest went through: the
merge of its groups, then the three loops. -/
theorem parse_yaml_manifest (sys : Sys) (fuel : Nat) (filename : String) (st st1 : State)
    (aux : JTFiles) (hread : sys.readYaml filename = .manifest aux)
    (h : parse_yaml sys (fuel + 1) filename st = .ok st1) :
    ∃ s2 s3,
      jt_loop sys (parse_yaml sys fuel) aux.Modules.JT
        ⟨(merge_groups sys st.files aux).1, st.parsed ++ [filename]⟩ = .ok s2 ∧
      other_loop (parse_yaml sys fuel) (merge_groups sys st.files aux).2 s2 = .ok s3 ∧
      here_loop (parse_yaml sys fuel) (Dir filename) aux.Here s3 = .ok st1 := by
  rw [parse_yaml, hread] at h
  simp only at h
  cases h2 : jt_loop sys (parse_yaml sys fuel) aux.Modules.JT
      ⟨(merge_groups sys st.files aux).1, st.parsed ++ [filename]⟩ with
  | error e => simp [h2] at h
  | ok s2 =>
    simp only [h2] at h
    cases h3 : other_loop (parse_yaml sys fuel) (merge_groups sys st.files aux).2 s2 with
    | error e => simp [h3] at h
    | ok s3 =>
      simp only [h3] at h
      exact ⟨s2, s3, rfl, h3, h⟩

/-- Invariance principle: a property of the state kept by the merge of a
manifest's groups, by the retention of a module that cannot be opened and by
the addition of a "here" path is kept by every successful call of parse_yaml. -/
theorem parse_yaml_inv (sys : Sys) (P : State → Prop)
    (hmerge : ∀ st aux filename, sys.readYaml filename = .manifest aux → P st →
      P ⟨(merge_groups sys st.files aux).1, st.parsed ++ [filename]⟩)
    (hkeep : ∀ st each, sys.canOpen (module_yaml sys each) = false → P st →
      P (retain_module st each))
    (hhere : ∀ st p, P st → P (add_here st p)) :
    ∀ (fuel : Nat) (filename : String) (st st1 : State),
      parse_yaml sys fuel filename st = .ok st1 → P st → P st1 := by
  intro fuel
  induction fuel with
  | zero => intro filename st st1 h _; simp [parse_yaml] at h
  | succ n ih =>
    intro filename st st1 h hP
    cases hread : sys.readYaml filename with
    | unreadable =>
      rw [parse_yaml, hread] at h
      by_cases hp : st.parsed = []
      · simp only [if_pos hp, Except.ok.injEq] at h
        subst h; exact hP
      · simp [if_neg hp] at h
    | garbled =>
      rw [parse_yaml, hread] at h
      simp at h
    | manifest aux =>
      obtain ⟨s2, s3, h2, h3, h4⟩ := parse_yaml_manifest sys n filename st st1 aux hread h
      have p1 := hmerge st aux filename hread hP
      have p2 := jt_loop_inv sys _ P (fun p s s1 => ih p s s1) hkeep _ _ _ h2 p1
      have p3 := other_loop_inv _ P (fun p s s1 => ih p s s1) _ _ _ h3 p2
      exact here_loop_inv _ _ P (fun p s s1 => ih p s s1) hhere _ _ _ h4 p3

theorem merge_groups_unique (sys : Sys) (files aux : JTFiles)
    (h : KeysUnique files.Game ∧ KeysUnique files.JTFrame ∧ KeysUnique files.Modules.Other) :
    KeysUnique (merge_groups sys files aux).1.Game ∧
      KeysUnique (merge_groups sys files aux).1.JTFrame ∧
      KeysUnique (merge_groups sys files aux).1.Modules.Other :=
  ⟨append_filelist_unique sys _ _ _ _ h.1, append_filelist_unique sys _ _ _ _ h.2.1,
    append_filelist_unique sys _ _ _ _ h.2.2⟩

/-! ## What parse_yaml merges stays merged -/

theorem merge_group_holds_mono (newfl : FileList) (dest : List FileList) (k f : String)
    (h : Holds dest k f) : Holds (merge_group newfl dest) k f := by
  induction dest with
  | nil => obtain ⟨d, hd, _⟩ := h; simp at hd
  | cons d ds ih =>
    obtain ⟨x, hx, hk, hf⟩ := h
    by_cases hd : d.From = newfl.From
    · simp only [merge_group, if_pos hd]
      rcases List.mem_cons.1 hx with rfl | hx2
      · exact ⟨_, List.mem_cons_self _ _, hk, List.mem_append_left _ hf⟩
      · exact ⟨x, List.mem_cons_of_mem _ hx2, hk, hf⟩
    · simp only [merge_group, if_neg hd]
      rcases List.mem_cons.1 hx with rfl | hx2
      · exact ⟨x, List.mem_cons_self _ _, hk, hf⟩
      · obtain ⟨y, hy, hyk, hyf⟩ := ih ⟨x, hx2, hk, hf⟩
        exact ⟨y, List.mem_cons_of_mem _ hy, hyk, hyf⟩

theorem merge_group_holds_new (newfl : FileList) (dest : List FileList) (f : String)
    (h : f ∈ newfl.Get) : Holds (merge_group newfl dest) newfl.From f := by
  induction dest with
  | nil => exact ⟨newfl, List.mem_singleton_self _, rfl, h⟩
  | cons d ds ih =>
    by_cases hd : d.From = newfl.From
    · simp only [merge_group, if_pos hd]
      exact ⟨_, List.mem_cons_self _ _, hd, List.mem_append_right _ h⟩
    · simp only [merge_group, if_neg hd]
      obtain ⟨y, hy, hyk, hyf⟩ := ih
      exact ⟨y, List.mem_cons_of_mem _ hy, hyk, hyf⟩

theorem append_group_holds_mono (sys : Sys) (origin : Origin)
    (acc : List FileList × List String) (g : FileList) (k f : String) (h : Holds acc.1 k f) :
    Holds (append_group sys origin acc g).1 k f := by
  by_cases hg : gated sys g
  · rw [append_group_gated sys origin acc g hg]; exact h
  · rw [append_group_ungated sys origin acc g hg]
    exact merge_group_holds_mono _ _ k f h

theorem append_filelist_holds_mono (sys : Sys) (src : List FileList) :
    ∀ (dest : List FileList) (other : List String) (origin : Origin) (k f : String),
      Holds dest k f → Holds (append_filelist sys dest src other origin).1 k f := by
  induction src with
  | nil => intro dest other origin k f h; exact h
  | cons g rest ih =>
    intro dest other origin k f h
    rw [append_filelist_cons]
    exact ih _ _ _ k f (append_group_holds_mono sys origin (dest, other) g k f h)

theorem append_filelist_holds_new (sys : Sys) (src : List FileList) :
    ∀ (dest : List FileList) (other : List String) (origin : Origin) (g : FileList) (n : String),
      g ∈ src → ¬ gated sys g → n ∈ g.Get → HasSuffix (TrimSpace n) ".yaml" = false →
      Holds (append_filelist sys dest src other origin).1 g.From (TrimSpace n) := by
  induction src with
  | nil => intro dest other origin g n hg; simp at hg
  | cons x rest ih =>
    intro dest other origin g n hg hgate hn hs
    rw [append_filelist_cons]
    rcases List.mem_cons.1 hg with rfl | hg2
    · apply append_filelist_holds_mono
      rw [append_group_ungated sys origin (dest, other) g hgate]
      apply merge_group_holds_new
      simp only [List.cons_append, List.nil_append, List.mem_cons, List.mem_filter, List.mem_map]
      exact Or.inr (Or.inr ⟨⟨n, hn, rfl⟩, by simpa using hs⟩)
    · exact ih _ _ _ g n hg2 hgate hn hs

theorem merge_groups_holds_mono (sys : Sys) (files aux : JTFiles) (origin : Origin)
    (k f : String) (h : Holds (groups_of origin files) k f) :
    Holds (groups_of origin (merge_groups sys files aux).1) k f := by
  cases origin with
  | GAME => exact append_filelist_holds_mono sys _ _ _ _ k f h
  | FRAME => exact append_filelist_holds_mono sys _ _ _ _ k f h
  | MODULE => exact append_filelist_holds_mono sys _ _ _ _ k f h
  | JTMODULE => exact h

theorem merge_groups_merged (sys : Sys) (files aux : JTFiles) :
    GroupsMerged sys aux (merge_groups sys files aux).1 := by
  intro origin g hg hgate n hn hs
  cases origin with
  | GAME => exact append_filelist_holds_new sys _ _ _ _ g n hg hgate hn hs
  | FRAME => exact append_filelist_holds_new sys _ _ _ _ g n hg hgate hn hs
  | MODULE => exact append_filelist_holds_new sys _ _ _ _ g n hg hgate hn hs
  | JTMODULE => simp [groups_of] at hg

/-- Every successful call of parse_yaml keeps the module references the
aggregate retains. -/
theorem parse_yaml_retained_mono (sys : Sys) (each : JTModule) :
    ∀ (fuel : Nat) (filename : String) (st st1 : State),
      parse_yaml sys fuel filename st = .ok st1 →
      each ∈ st.files.Modules.JT → each ∈ st1.files.Modules.JT :=
  parse_yaml_inv sys (fun st => each ∈ st.files.Modules.JT)
    (fun _ _ _ _ h => h)
    (fun _ _ _ h => List.mem_append_left _ h)
    (fun _ _ h => h)

/-- The loop over "modules.jt" reaches every entry: a property that holds
after the call on the manifest of `each`, and is kept by every call and by
every retention, holds after the loop, when `each` is in the list and its
manifest can be opened. -/
theorem jt_loop_visits (sys : Sys) (recur : String → State → Except Abort State)
    (each : JTModule) (Q : State → Prop)
    (hopen : sys.canOpen (module_yaml sys each) = true)
    (hcall : ∀ s s1, recur (module_yaml sys each) s = .ok s1 → Q s1)
    (hrec : ∀ p s s1, recur p s = .ok s1 → Q s → Q s1)
    (hkeep : ∀ s r, Q s → Q (retain_module s r)) :
    ∀ (l : List JTModule) (st st1 : State), each ∈ l →
      jt_loop sys recur l st = .ok st1 → Q st1 := by
  intro l
  induction l with
  | nil => intro st st1 hin; simp at hin
  | cons x rest ih =>
    intro st st1 hin h
    rcases List.mem_cons.1 hin with rfl | hin2
    · simp only [jt_loop, if_pos hopen] at h
      cases hr : recur (module_yaml sys each) st with
      | error e => simp [hr] at h
      | ok s2 =>
        simp only [hr] at h
        exact jt_loop_inv sys recur Q hrec (fun s r _ hq => hkeep s r hq) rest s2 st1 h
          (hcall st s2 hr)
    · by_cases ho : sys.canOpen (module_yaml sys x) = true
      · simp only [jt_loop, if_pos ho] at h
        cases hr : recur (module_yaml sys x) st with
        | error e => simp [hr] at h
        | ok s2 =>
          simp only [hr] at h
          exact ih s2 st1 hin2 h
      · simp only [jt_loop, if_neg ho] at h
        exact ih _ st1 hin2 h

/-- The loop over "modules.jt" retains every entry whose manifest cannot be
opened. -/
theorem jt_loop_retains (sys : Sys) (recur : String → State → Except Abort State)
    (each : JTModule) (hopen : sys.canOpen (module_yaml sys each) = false)
    (hrec : ∀ p s s1, recur p s = .ok s1 →
      each ∈ s.files.Modules.JT → each ∈ s1.files.Modules.JT) :
    ∀ (l : List JTModule) (st st1 : State), each ∈ l →
      jt_loop sys recur l st = .ok st1 → each ∈ st1.files.Modules.JT := by
  intro l
  induction l with
  | nil => intro st st1 hin; simp at hin
  | cons x rest ih =>
    intro st st1 hin h
    rcases List.mem_cons.1 hin with rfl | hin2
    · have ho : ¬ sys.canOpen (module_yaml sys each) = true := by simp [hopen]
      simp only [jt_loop, if_neg ho] at h
      exact jt_loop_inv sys recur (fun s => each ∈ s.files.Modules.JT) hrec
        (fun s r _ hq => List.mem_append_left _ hq) rest _ st1 h
        (List.mem_append_right _ (List.mem_singleton_self _))
    · by_cases ho : sys.canOpen (module_yaml sys x) = true
      · simp only [jt_loop, if_pos ho] at h
        cases hr : recur (module_yaml sys x) st with
        | error e => simp [hr] at h
        | ok s2 =>
          simp only [hr] at h
          exact ih s2 st1 hin2 h
      · simp only [jt_loop, if_neg ho] at h
        exact ih _ st1 hin2 h

theorem mem_group_paths (sys : Sys) (origin : Origin) (fl : List FileList) (k f : String)
    (h : Holds fl k f) (hf : f ≠ "") :
    Clean (Join [origin_path sys origin k, f]) ∈ group_paths sys origin fl := by
  obtain ⟨d, hd, hk, hfd⟩ := h
  simp only [group_paths, List.mem_flatMap, List.mem_map, List.mem_filter]
  exact ⟨d, hd, f, ⟨hfd, by simpa using hf⟩, by rw [hk]⟩

theorem holds_flat_paths (sys : Sys) (files : JTFiles) (origin : Origin) (k f : String)
    (h : Holds (groups_of origin files) k f) (hf : f ≠ "") :
    Clean (Join [origin_path sys origin k, f]) ∈ flat_paths sys files := by
  unfold flat_paths
  simp only [List.mem_append]
  cases origin with
  | GAME => exact Or.inl (Or.inl (Or.inl (Or.inl (mem_group_paths sys _ _ k f h hf))))
  | FRAME => exact Or.inl (Or.inl (Or.inl (Or.inr (mem_group_paths sys _ _ k f h hf))))
  | MODULE => exact Or.inl (Or.inr (mem_group_paths sys _ _ k f h hf))
  | JTMODULE => obtain ⟨d, hd, _⟩ := h; simp [groups_of] at hd

theorem retained_flat_paths (sys : Sys) (files : JTFiles) (each : JTModule)
    (h : each ∈ files.Modules.JT) (hn : each.Name ≠ "") :
    Clean (Join [Getenv sys "MODULES",
      Join [sys.toLower each.Name, "hdl", sys.toLower each.Name ++ ".yaml"]]) ∈
      flat_paths sys files := by
  unfold flat_paths
  simp only [List.mem_append]
  refine Or.inl (Or.inl (Or.inr ?_))
  simp only [module_paths, List.mem_map, List.mem_filter]
  exact ⟨each, ⟨h, by simpa using hn⟩, rfl⟩

/-- Every module reference a successful call of parse_yaml adds to the
aggregate names a module whose manifest cannot be opened. -/
theorem parse_yaml_retained_closed (sys : Sys) (name : String) (st0 : State)
    (hopen : sys.canOpen (module_yaml sys ⟨name, ""⟩) = true) :
    ∀ (fuel : Nat) (filename : String) (st st1 : State),
      parse_yaml sys fuel filename st = .ok st1 →
      (∀ r ∈ st.files.Modules.JT, r.Name = name → r ∈ st0.files.Modules.JT) →
      (∀ r ∈ st1.files.Modules.JT, r.Name = name → r ∈ st0.files.Modules.JT) :=
  parse_yaml_inv sys
    (fun st => ∀ r ∈ st.files.Modules.JT, r.Name = name → r ∈ st0.files.Modules.JT)
    (fun _ _ _ _ h => h)
    (fun st x hx h r hr hn => by
      rcases List.mem_append.1 hr with h1 | h1
      · exact h r h1 hn
      · rw [List.mem_singleton.1 h1] at hn
        have e : module_yaml sys x = module_yaml sys ⟨name, ""⟩ := by
          simp only [module_yaml, hn]
        rw [e, hopen] at hx
        simp at hx)
    (fun _ _ h => h)

/-! ## Cycles of module references and of "here" references -/

theorem jt_cycle_diverges (fuel : Nat) :
    ∀ st : State,
      parse_yaml sysJTCycle fuel "/m/foo/hdl/foo.yaml" st = .error .outOfFuel ∧
      parse_yaml sysJTCycle fuel "/m/bar/hdl/bar.yaml" st = .error .outOfFuel := by
  induction fuel with
  | zero => intro st; exact ⟨rfl, rfl⟩
  | succ n ih =>
    intro st
    have hA : sysJTCycle.readYaml "/m/foo/hdl/foo.yaml" = .manifest (jtManifest ["bar"]) := by
      decide
    have hB : sysJTCycle.readYaml "/m/bar/hdl/bar.yaml" = .manifest (jtManifest ["foo"]) := by
      decide
    have oA : sysJTCycle.canOpen "/m/foo/hdl/foo.yaml" = true := by decide
    have oB : sysJTCycle.canOpen "/m/bar/hdl/bar.yaml" = true := by decide
    have pA : module_yaml sysJTCycle ⟨"foo", ""⟩ = "/m/foo/hdl/foo.yaml" := by decide
    have pB : module_yaml sysJTCycle ⟨"bar", ""⟩ = "/m/bar/hdl/bar.yaml" := by decide
    constructor
    · rw [parse_yaml, hA]
      simp only [jtManifest, List.map, jt_loop, oB, pB, (ih _).2, if_true]
    · rw [parse_yaml, hB]
      simp only [jtManifest, List.map, jt_loop, oA, pA, (ih _).1, if_true]

theorem is_parsed_relative (l : List String)
    (h : ∀ q ∈ l, q = "/x/a.yaml" ∨ q = "/x/b.yaml") :
    is_parsed l "a.yaml" = false ∧ is_parsed l "b.yaml" = false := by
  induction l with
  | nil => exact ⟨rfl, rfl⟩
  | cons q l ihl =>
    have hq := h q (List.mem_cons_self _ _)
    have hl := ihl (fun r hr => h r (List.mem_cons_of_mem _ hr))
    rcases hq with rfl | rfl
    · exact ⟨by rw [is_parsed, if_neg (by decide)]; exact hl.1,
             by rw [is_parsed, if_neg (by decide)]; exact hl.2⟩
    · exact ⟨by rw [is_parsed, if_neg (by decide)]; exact hl.1,
             by rw [is_parsed, if_neg (by decide)]; exact hl.2⟩

theorem here_cycle_diverges (fuel : Nat) :
    ∀ st : State, (∀ q ∈ st.parsed, q = "/x/a.yaml" ∨ q = "/x/b.yaml") →
      parse_yaml sysHereCycle fuel "/x/a.yaml" st = .error .outOfFuel ∧
      parse_yaml sysHereCycle fuel "/x/b.yaml" st = .error .outOfFuel := by
  induction fuel with
  | zero => intro st _; exact ⟨rfl, rfl⟩
  | succ n ih =>
    intro st hst
    have hA : sysHereCycle.readYaml "/x/a.yaml" = .manifest (hereManifest ["b.yaml"]) := by
      decide
    have hB : sysHereCycle.readYaml "/x/b.yaml" = .manifest (hereManifest ["a.yaml"]) := by
      decide
    have pA : Join [Dir "/x/b.yaml", "a.yaml"] = "/x/a.yaml" := by decide
    have pB : Join [Dir "/x/a.yaml", "b.yaml"] = "/x/b.yaml" := by decide
    have sA : HasSuffix "a.yaml" ".yaml" = true := by decide
    have sB : HasSuffix "b.yaml" ".yaml" = true := by decide
    have hstA : ∀ q ∈ st.parsed ++ ["/x/a.yaml"], q = "/x/a.yaml" ∨ q = "/x/b.yaml" := by
      intro q hq
      rcases List.mem_append.1 hq with h | h
      · exact hst q h
      · exact Or.inl (List.mem_singleton.1 h)
    have hstB : ∀ q ∈ st.parsed ++ ["/x/b.yaml"], q = "/x/a.yaml" ∨ q = "/x/b.yaml" := by
      intro q hq
      rcases List.mem_append.1 hq with h | h
      · exact hst q h
      · exact Or.inr (List.mem_singleton.1 h)
    have ihA := fun fs => (ih ⟨fs, st.parsed ++ ["/x/a.yaml"]⟩ hstA).2
    have ihB := fun fs => (ih ⟨fs, st.parsed ++ ["/x/b.yaml"]⟩ hstB).1
    constructor
    · rw [parse_yaml, hA]
      simp only [hereManifest, jt_loop, merge_groups, append_filelist, List.foldl, other_loop,
        here_loop, sB, (is_parsed_relative _ hstA).2, pB, ihA, and_self, if_true]
    · rw [parse_yaml, hB]
      simp only [hereManifest, jt_loop, merge_groups, append_filelist, List.foldl, other_loop,
        here_loop, sA, (is_parsed_relative _ hstB).1, pA, ihB, and_self, if_true]

/-! ## The emitter on the end-to-end scenario -/

theorem plainElem_x_sv : PlainElem "x.sv".data := by
  refine ⟨by decide, by decide, by decide, by decide⟩

theorem plainElem_y_vhd : PlainElem "y.vhd".data := by
  refine ⟨by decide, by decide, by decide, by decide⟩

theorem plainElem_bar_yaml : PlainElem "bar.yaml".data := by
  refine ⟨by decide, by decide, by decide, by decide⟩

theorem ext_e2e_x (sys : Sys) : Ext (e2eGamePath sys "x.sv") = ".sv" := by
  unfold e2eGamePath
  rw [ext_clean_join _ "x.sv" "x.sv".data plainElem_x_sv (Or.inl rfl)]
  decide

theorem ext_e2e_y (sys : Sys) : Ext (e2eGamePath sys "y.vhd") = ".vhd" := by
  unfold e2eGamePath
  rw [ext_clean_join _ "y.vhd" "y.vhd".data plainElem_y_vhd (Or.inl rfl)]
  decide

theorem ext_e2e_bar (sys : Sys) : Ext (e2eBarPath sys) = ".yaml" := by
  unfold e2eBarPath
  rw [ext_clean_join _ "bar/hdl/bar.yaml" "bar.yaml".data plainElem_bar_yaml
    (Or.inr ⟨"bar/hdl".data, by decide⟩)]
  decide

theorem qip_filetype_x (sys : Sys) :
    qip_filetype (e2eGamePath sys "x.sv") = .ok "SYSTEMVERILOG_FILE" := by
  simp [qip_filetype, ext_e2e_x]

theorem qip_filetype_y (sys : Sys) :
    qip_filetype (e2eGamePath sys "y.vhd") = .ok "VHDL_FILE" := by
  have h : ¬ (".vhd" : String) = ".sv" := by decide
  simp [qip_filetype, ext_e2e_y, h]

theorem qip_filetype_bar (sys : Sys) :
    qip_filetype (e2eBarPath sys) = .error (.unsupported ".yaml" (e2eBarPath sys)) := by
  have h1 : ¬ (".yaml" : String) = ".sv" := by decide
  have h2 : ¬ (".yaml" : String) = ".vhd" := by decide
  have h3 : ¬ (".yaml" : String) = ".v" := by decide
  have h4 : ¬ (".yaml" : String) = ".qip" := by decide
  simp [qip_filetype, ext_e2e_bar, h1, h2, h3, h4]

/-- On a list of the three paths of the scenario that contains the path of
bar, dump_qip stops with the unsupported-extension error of that path, and
every line it has written is the line of x.sv or the line of y.vhd. -/
theorem dump_qip_e2e (sys : Sys) (rel : Bool) (l : List String)
    (hl : ∀ p ∈ l, p = e2eGamePath sys "x.sv" ∨ p = e2eGamePath sys "y.vhd" ∨
      p = e2eBarPath sys)
    (hb : e2eBarPath sys ∈ l) :
    (dump_qip l rel).fatal = some (.unsupported ".yaml" (e2eBarPath sys)) ∧
    ∀ line ∈ (dump_qip l rel).lines,
      line = qip_line "SYSTEMVERILOG_FILE" (e2eGamePath sys "x.sv") rel ∨
      line = qip_line "VHDL_FILE" (e2eGamePath sys "y.vhd") rel := by
  induction l with
  | nil => simp at hb
  | cons p rest ih =>
    rcases hl p (List.mem_cons_self _ _) with hp | hp | hp
    · have hb2 : e2eBarPath sys ∈ rest := by
        rcases List.mem_cons.1 hb with h | h
        · exfalso
          have e1 := ext_e2e_bar sys
          rw [h, hp, ext_e2e_x] at e1
          exact absurd e1 (by decide)
        · exact h
      obtain ⟨i1, i2⟩ := ih (fun q hq => hl q (List.mem_cons_of_mem _ hq)) hb2
      subst hp
      simp only [dump_qip, qip_filetype_x]
      refine ⟨i1, ?_⟩
      intro line hline
      rcases List.mem_cons.1 hline with h | h
      · exact Or.inl h
      · exact i2 line h
    · have hb2 : e2eBarPath sys ∈ rest := by
        rcases List.mem_cons.1 hb with h | h
        · exfalso
          have e1 := ext_e2e_bar sys
          rw [h, hp, ext_e2e_y] at e1
          exact absurd e1 (by decide)
        · exact h
      obtain ⟨i1, i2⟩ := ih (fun q hq => hl q (List.mem_cons_of_mem _ hq)) hb2
      subst hp
      simp only [dump_qip, qip_filetype_y]
      refine ⟨i1, ?_⟩
      intro line hline
      rcases List.mem_cons.1 hline with h | h
      · exact Or.inr h
      · exact i2 line h
    · subst hp
      simp [dump_qip, qip_filetype_bar]

theorem e2e_paths_distinct (sys : Sys) :
    [e2eGamePath sys "x.sv", e2eGamePath sys "y.vhd", e2eBarPath sys].Nodup := by
  have hxy : e2eGamePath sys "x.sv" ≠ e2eGamePath sys "y.vhd" := by
    intro h
    have e1 := ext_e2e_x sys
    rw [h, ext_e2e_y] at e1
    exact absurd e1 (by decide)
  have hxb : e2eGamePath sys "x.sv" ≠ e2eBarPath sys := by
    intro h
    have e1 := ext_e2e_x sys
    rw [h, ext_e2e_bar] at e1
    exact absurd e1 (by decide)
  have hyb : e2eGamePath sys "y.vhd" ≠ e2eBarPath sys := by
    intro h
    have e1 := ext_e2e_y sys
    rw [h, ext_e2e_bar] at e1
    exact absurd e1 (by decide)
  simp [hxy, hxb, hyb]

theorem e2e_flat_paths (sys : Sys) (hlow : sys.toLower "bar" = "bar") :
    flat_paths sys e2eAggregate =
      [e2eGamePath sys "x.sv", e2eGamePath sys "y.vhd", e2eBarPath sys] := by
  have hj : Join ["bar", "hdl", "bar.yaml"] = "bar/hdl/bar.yaml" := by decide
  have h1 : ¬ ("x.sv" : String) = "" := by decide
  have h2 : ¬ ("y.vhd" : String) = "" := by decide
  have h3 : ¬ ("bar" : String) = "" := by decide
  simp [flat_paths, e2eAggregate, group_paths, module_paths, e2eGamePath, e2eBarPath, hlow, hj,
    h1, h2, h3]

theorem e2e_parse (sys : Sys) (fuel : Nat) (root : String)
    (hroot : sys.readYaml root = .manifest e2eManifest)
    (hbar : sys.canOpen (module_yaml sys ⟨"bar", ""⟩) = false) :
    parse_yaml sys (fuel + 1) root State.init = .ok ⟨e2eAggregate, [root]⟩ := by
  have hx : TrimSpace "x.sv" = "x.sv" := by decide
  have hy : TrimSpace "y.vhd" = "y.vhd" := by decide
  have sx : HasSuffix "x.sv" ".yaml" = false := by decide
  have sy : HasSuffix "y.vhd" ".yaml" = false := by decide
  have hg : ¬ gated sys ⟨"foo", ["x.sv", "y.vhd"], ""⟩ := fun h => h.1 rfl
  have hm : merge_groups sys JTFiles.empty e2eManifest =
      (⟨[⟨"foo", ["", "", "x.sv", "y.vhd"], ""⟩], [], ⟨[], []⟩, []⟩, []) := by
    simp only [merge_groups, e2eManifest, JTFiles.empty, append_filelist_cons,
      append_filelist_nil, append_group_ungated sys _ _ _ hg]
    simp [hx, hy, sx, sy, merge_group]
  have ho : ¬ sys.canOpen (module_yaml sys ⟨"bar", ""⟩) = true := by simp [hbar]
  rw [parse_yaml, hroot]
  simp only [State.init, hm]
  simp [e2eManifest, jt_loop, ho, other_loop, here_loop, retain_module, e2eAggregate]

/-- An aborted dump_qip has written fewer lines than the list has entries. -/
theorem dump_qip_lines_lt (rel : Bool) (l : List String)
    (h : (dump_qip l rel).fatal ≠ none) : (dump_qip l rel).lines.length < l.length := by
  induction l with
  | nil => simp [dump_qip] at h
  | cons p rest ih =>
    cases hp : qip_filetype p with
    | error e => simp [dump_qip, hp]
    | ok t =>
      simp only [dump_qip, hp] at h ⊢
      simp only [List.length_cons]
      exact Nat.succ_lt_succ (ih h)

/-! ## The two emitters -/

theorem qip_filetype_supported (p : String) (h : Supported (Ext p)) :
    qip_filetype p = .ok (qip_tag (Ext p)) := by
  have n1 : ¬ (".vhd" : String) = ".sv" := by decide
  have n2 : ¬ (".v" : String) = ".sv" := by decide
  have n3 : ¬ (".v" : String) = ".vhd" := by decide
  have n4 : ¬ (".qip" : String) = ".sv" := by decide
  have n5 : ¬ (".qip" : String) = ".vhd" := by decide
  have n6 : ¬ (".qip" : String) = ".v" := by decide
  rcases h with h | h | h | h <;> simp [qip_filetype, qip_tag, h, n1, n2, n3, n4, n5, n6]

theorem qip_filetype_unsupported (p : String) (h : ¬ Supported (Ext p)) :
    qip_filetype p = .error (.unsupported (Ext p) p) := by
  have h1 : ¬ Ext p = ".sv" := fun e => h (Or.inl e)
  have h2 : ¬ Ext p = ".vhd" := fun e => h (Or.inr (Or.inl e))
  have h3 : ¬ Ext p = ".v" := fun e => h (Or.inr (Or.inr (Or.inl e)))
  have h4 : ¬ Ext p = ".qip" := fun e => h (Or.inr (Or.inr (Or.inr e)))
  simp [qip_filetype, h1, h2, h3, h4]

theorem sim_dump_supported (p : String) (args : Args) (h : Supported (Ext p)) :
    sim_dump p args = .ok (sim_keeps args.SkipVHDL p) := by
  have n1 : ¬ (".vhd" : String) = ".sv" := by decide
  have n2 : ¬ (".v" : String) = ".sv" := by decide
  have n3 : ¬ (".v" : String) = ".vhd" := by decide
  have n4 : ¬ (".qip" : String) = ".sv" := by decide
  have n5 : ¬ (".qip" : String) = ".vhd" := by decide
  have n6 : ¬ (".qip" : String) = ".v" := by decide
  have n7 : ¬ (".vhd" : String) = ".v" := by decide
  rcases h with h | h | h | h <;>
    simp [sim_dump, sim_keeps, h, n1, n2, n3, n4, n5, n6, n7]

theorem sim_dump_unsupported (p : String) (args : Args) (h : ¬ Supported (Ext p)) :
    sim_dump p args = .error (.unsupported (Ext p) p) := by
  have h1 : ¬ Ext p = ".sv" := fun e => h (Or.inl e)
  have h2 : ¬ Ext p = ".vhd" := fun e => h (Or.inr (Or.inl e))
  have h3 : ¬ Ext p = ".v" := fun e => h (Or.inr (Or.inr (Or.inl e)))
  have h4 : ¬ Ext p = ".qip" := fun e => h (Or.inr (Or.inr (Or.inr e)))
  simp [sim_dump, h1, h2, h3, h4]

theorem dump_qip_supported (rel : Bool) (l : List String) (h : ∀ p ∈ l, Supported (Ext p)) :
    dump_qip l rel = ⟨l.map (fun p => qip_line (qip_tag (Ext p)) p rel), none⟩ := by
  induction l with
  | nil => rfl
  | cons p rest ih =>
    have hp := qip_filetype_supported p (h p (List.mem_cons_self _ _))
    have hr := ih (fun q hq => h q (List.mem_cons_of_mem _ hq))
    simp only [dump_qip, hp, hr, List.map_cons]

theorem dump_sim_supported (args : Args) (l : List String) (h : ∀ p ∈ l, Supported (Ext p)) :
    dump_sim l args = ⟨l.filter (sim_keeps args.SkipVHDL), none⟩ := by
  induction l with
  | nil => rfl
  | cons p rest ih =>
    have hp := sim_dump_supported p args (h p (List.mem_cons_self _ _))
    have hr := ih (fun q hq => h q (List.mem_cons_of_mem _ hq))
    simp only [dump_sim, hp, hr, List.filter_cons]

/-- The two emitters stop at the same entry with the same error. -/
theorem emitters_same_fatal (rel : Bool) (args : Args) (l : List String) :
    (dump_qip l rel).fatal = (dump_sim l args).fatal := by
  induction l with
  | nil => rfl
  | cons p rest ih =>
    by_cases hp : Supported (Ext p)
    · simp only [dump_qip, dump_sim, qip_filetype_supported p hp, sim_dump_supported p args hp]
      exact ih
    · simp only [dump_qip, dump_sim, qip_filetype_unsupported p hp,
        sim_dump_unsupported p args hp]

/-- The error of dump_qip is the unsupported extension of an entry of the
list, and there is one exactly when some entry is not supported. -/
theorem dump_qip_fatal_iff (rel : Bool) (l : List String) :
    ((dump_qip l rel).fatal ≠ none ↔ ∃ p ∈ l, ¬ Supported (Ext p)) ∧
    ∀ e, (dump_qip l rel).fatal = some e →
      ∃ p ∈ l, ¬ Supported (Ext p) ∧ e = .unsupported (Ext p) p := by
  induction l with
  | nil => simp [dump_qip]
  | cons p rest ih =>
    by_cases hp : Supported (Ext p)
    · simp only [dump_qip, qip_filetype_supported p hp]
      constructor
      · rw [ih.1]
        constructor
        · rintro ⟨q, hq, hqs⟩
          exact ⟨q, List.mem_cons_of_mem _ hq, hqs⟩
        · rintro ⟨q, hq, hqs⟩
          rcases List.mem_cons.1 hq with rfl | hq2
          · exact absurd hp hqs
          · exact ⟨q, hq2, hqs⟩
      · intro e he
        obtain ⟨q, hq, hqs, hqe⟩ := ih.2 e he
        exact ⟨q, List.mem_cons_of_mem _ hq, hqs, hqe⟩
    · simp only [dump_qip, qip_filetype_unsupported p hp]
      constructor
      · constructor
        · intro _
          exact ⟨p, List.mem_cons_self _ _, hp⟩
        · intro _
          simp
      · intro e he
        simp only [Option.some.injEq] at he
        exact ⟨p, List.mem_cons_self _ _, hp, he.symm⟩

/-! ## Unreadable manifests -/

theorem parse_yaml_unreadable (sys : Sys) (fuel : Nat) (p : String) (st : State)
    (h : sys.readYaml p = .unreadable) :
    parse_yaml sys (fuel + 1) p st =
      if st.parsed = [] then .ok st else .error (.cannotOpen p) := by
  rw [parse_yaml, h]

/-- The list parsed only grows. -/
theorem parse_yaml_parsed_grows (sys : Sys) :
    ∀ (fuel : Nat) (filename : String) (st st1 : State),
      parse_yaml sys fuel filename st = .ok st1 → st.parsed ≠ [] → st1.parsed ≠ [] :=
  parse_yaml_inv sys (fun st => st.parsed ≠ [])
    (fun _ _ _ _ _ => by simp)
    (fun _ _ _ h => h)
    (fun _ _ h => h)

theorem parse_yaml_read_nonempty (sys : Sys) (fuel : Nat) (p : String) (st st1 : State)
    (hne : sys.readYaml p ≠ .unreadable) (h : parse_yaml sys fuel p st = .ok st1) :
    st1.parsed ≠ [] := by
  cases fuel with
  | zero => simp [parse_yaml] at h
  | succ n =>
    cases hread : sys.readYaml p with
    | unreadable => exact absurd hread hne
    | garbled =>
      rw [parse_yaml, hread] at h
      simp at h
    | manifest aux =>
      obtain ⟨s2, s3, h2, h3, h4⟩ := parse_yaml_manifest sys n p st st1 aux hread h
      have hrec : ∀ q s s1, parse_yaml sys n q s = .ok s1 → s.parsed ≠ [] → s1.parsed ≠ [] :=
        parse_yaml_parsed_grows sys n
      have q2 := jt_loop_inv sys _ (fun s => s.parsed ≠ []) hrec (fun _ _ _ hq => hq) _ _ _ h2
        (by simp)
      have q3 := other_loop_inv _ (fun s => s.parsed ≠ []) hrec _ _ _ h3 q2
      exact here_loop_inv _ _ (fun s => s.parsed ≠ []) hrec (fun _ _ hq => hq) _ _ _ h4 q3

/-- The loop over "modules.jt" fails when the manifest of one of its entries
opens but cannot be read, once a manifest has been read. -/
theorem jt_loop_unreadable (sys : Sys) (fuel : Nat) (each : JTModule)
    (hopen : sys.canOpen (module_yaml sys each) = true)
    (hread : sys.readYaml (module_yaml sys each) = .unreadable) :
    ∀ (l : List JTModule) (st st1 : State), each ∈ l → st.parsed ≠ [] →
      jt_loop sys (parse_yaml sys fuel) l st ≠ .ok st1 := by
  intro l
  induction l with
  | nil => intro st st1 hin; simp at hin
  | cons x rest ih =>
    intro st st1 hin hne h
    have hcall : ∀ s s1, s.parsed ≠ [] →
        parse_yaml sys fuel (module_yaml sys each) s ≠ .ok s1 := by
      intro s s1 hs hc
      cases fuel with
      | zero => simp [parse_yaml] at hc
      | succ n =>
        rw [parse_yaml_unreadable sys n _ s hread, if_neg hs] at hc
        simp at hc
    rcases List.mem_cons.1 hin with rfl | hin2
    · simp only [jt_loop, if_pos hopen] at h
      cases hr : parse_yaml sys fuel (module_yaml sys each) st with
      | error e => simp [hr] at h
      | ok s2 => exact hcall st s2 hne hr
    · by_cases ho : sys.canOpen (module_yaml sys x) = true
      · simp only [jt_loop, if_pos ho] at h
        cases hr : parse_yaml sys fuel (module_yaml sys x) st with
        | error e => simp [hr] at h
        | ok s2 =>
          simp only [hr] at h
          exact ih s2 st1 hin2 (parse_yaml_parsed_grows sys fuel _ st s2 hr hne) h
      · simp only [jt_loop, if_neg ho] at h
        exact ih (retain_module st x) st1 hin2 hne h

/-! ## The extension of a path -/

theorem extScan_to_dot (a : List Char) :
    ∀ (acc rest : List Char), (∀ c ∈ a, c ≠ Separator ∧ c ≠ '.') →
      extScan (a ++ '.' :: rest) acc = '.' :: (a.reverse ++ acc) := by
  induction a with
  | nil =>
    intro acc rest _
    have h : ¬ ('.' : Char) = Separator := by decide
    simp [extScan, h]
  | cons x xs ih =>
    intro acc rest h
    have hx := h x (List.mem_cons_self _ _)
    have hxs : ∀ c ∈ xs, c ≠ Separator ∧ c ≠ '.' := fun c hc => h c (List.mem_cons_of_mem _ hc)
    simp [extScan, hx.1, hx.2, ih _ _ hxs]

/-- The extension is the suffix from the last dot of the final element. -/
theorem ext_last_dot (stem suf : List Char) (h1 : Separator ∉ suf) (h2 : '.' ∉ suf) :
    Ext ⟨stem ++ '.' :: suf⟩ = ⟨'.' :: suf⟩ := by
  have h : ∀ c ∈ suf.reverse, c ≠ Separator ∧ c ≠ '.' := by
    intro c hc
    rw [List.mem_reverse] at hc
    exact ⟨fun e => h1 (e ▸ hc), fun e => h2 (e ▸ hc)⟩
  simp only [Ext, List.reverse_append, List.reverse_cons, List.append_assoc,
    List.singleton_append]
  rw [extScan_to_dot _ _ _ h]
  simp

/-- A final element without dot has no extension. -/
theorem ext_no_dot (q c : List Char) (h1 : Separator ∉ c) (h2 : '.' ∉ c) :
    Ext ⟨c⟩ = "" ∧ Ext ⟨q ++ Separator :: c⟩ = "" := by
  have hscan : ∀ (a acc : List Char), (∀ x ∈ a, x ≠ Separator ∧ x ≠ '.') →
      extScan a acc = [] := by
    intro a
    induction a with
    | nil => intro acc _; rfl
    | cons x xs ih =>
      intro acc h
      have hx := h x (List.mem_cons_self _ _)
      simp [extScan, hx.1, hx.2, ih _ (fun y hy => h y (List.mem_cons_of_mem _ hy))]
  have h : ∀ x ∈ c.reverse, x ≠ Separator ∧ x ≠ '.' := by
    intro x hx
    rw [List.mem_reverse] at hx
    exact ⟨fun e => h1 (e ▸ hx), fun e => h2 (e ▸ hx)⟩
  constructor
  · simp only [Ext]
    rw [hscan _ _ h]
  · simp only [Ext, List.reverse_append, List.reverse_cons, List.append_assoc,
      List.singleton_append]
    rw [extScan_append_sep _ _ _ (by simpa using h1), hscan _ _ h]

/-! ## Nested manifests queued by append_filelist, and the stored names -/

theorem append_group_other_mono (sys : Sys) (origin : Origin)
    (acc : List FileList × List String) (g : FileList) (x : String) (h : x ∈ acc.2) :
    x ∈ (append_group sys origin acc g).2 := by
  by_cases hg : gated sys g
  · rw [append_group_gated sys origin acc g hg]; exact h
  · rw [append_group_ungated sys origin acc g hg]
    exact List.mem_append_left _ h

theorem append_filelist_other_mono (sys : Sys) (src : List FileList) :
    ∀ (dest : List FileList) (other : List String) (origin : Origin) (x : String),
      x ∈ other → x ∈ (append_filelist sys dest src other origin).2 := by
  induction src with
  | nil => intro dest other origin x h; exact h
  | cons g rest ih =>
    intro dest other origin x h
    rw [append_filelist_cons]
    exact ih _ _ _ x (append_group_other_mono sys origin (dest, other) g x h)

theorem append_filelist_queues (sys : Sys) (src : List FileList) :
    ∀ (dest : List FileList) (other : List String) (origin : Origin) (g : FileList) (e : String),
      g ∈ src → ¬ gated sys g → e ∈ g.Get → HasSuffix (TrimSpace e) ".yaml" = true →
      yaml_base sys origin g.From ++ TrimSpace e ∈
        (append_filelist sys dest src other origin).2 := by
  induction src with
  | nil => intro dest other origin g e hg; simp at hg
  | cons x rest ih =>
    intro dest other origin g e hg hgate he hs
    rw [append_filelist_cons]
    rcases List.mem_cons.1 hg with rfl | hg2
    · apply append_filelist_other_mono
      rw [append_group_ungated sys origin (dest, other) g hgate]
      apply List.mem_append_right
      simp only [List.mem_map, List.mem_filter]
      exact ⟨TrimSpace e, ⟨⟨e, he, rfl⟩, by simpa using hs⟩, rfl⟩
    · exact ih _ _ _ g e hg2 hgate he hs

/-- No group of the list holds a name ending in .yaml. -/
theorem merge_group_no_yaml (newfl : FileList) (dest : List FileList)
    (hn : ∀ n ∈ newfl.Get, HasSuffix n ".yaml" = false)
    (hd : ∀ d ∈ dest, ∀ n ∈ d.Get, HasSuffix n ".yaml" = false) :
    ∀ d ∈ merge_group newfl dest, ∀ n ∈ d.Get, HasSuffix n ".yaml" = false := by
  induction dest with
  | nil =>
    intro d hdm n hnm
    rw [merge_group, List.mem_singleton] at hdm
    subst hdm
    exact hn n hnm
  | cons x xs ih =>
    intro d hdm n hnm
    by_cases hx : x.From = newfl.From
    · simp only [merge_group, if_pos hx] at hdm
      rcases List.mem_cons.1 hdm with rfl | h2
      · rcases List.mem_append.1 hnm with h3 | h3
        · exact hd x (List.mem_cons_self _ _) n h3
        · exact hn n h3
      · exact hd d (List.mem_cons_of_mem _ h2) n hnm
    · simp only [merge_group, if_neg hx] at hdm
      rcases List.mem_cons.1 hdm with rfl | h2
      · exact hd d (List.mem_cons_self _ _) n hnm
      · exact ih (fun y hy => hd y (List.mem_cons_of_mem _ hy)) d h2 n hnm

theorem append_filelist_no_yaml (sys : Sys) (src : List FileList) :
    ∀ (dest : List FileList) (other : List String) (origin : Origin),
      (∀ d ∈ dest, ∀ n ∈ d.Get, HasSuffix n ".yaml" = false) →
      ∀ d ∈ (append_filelist sys dest src other origin).1, ∀ n ∈ d.Get,
        HasSuffix n ".yaml" = false := by
  induction src with
  | nil => intro dest other origin h; exact h
  | cons g rest ih =>
    intro dest other origin h
    rw [append_filelist_cons]
    apply ih
    by_cases hg : gated sys g
    · rw [append_group_gated sys origin (dest, other) g hg]; exact h
    · rw [append_group_ungated sys origin (dest, other) g hg]
      apply merge_group_no_yaml _ _ _ h
      intro n hn
      simp only [List.cons_append, List.nil_append, List.mem_cons, List.mem_filter] at hn
      have h0 : HasSuffix "" ".yaml" = false := by decide
      rcases hn with rfl | rfl | ⟨_, h3⟩
      · exact h0
      · exact h0
      · simpa using h3

theorem names_of_nil (k : String) : names_of [] k = [] := rfl

theorem names_of_cons (d : FileList) (ds : List FileList) (k : String) :
    names_of (d :: ds) k =
      (if d.From = k then d.Get.filter (fun n => n ≠ "") else []) ++ names_of ds k := by
  by_cases h : d.From = k
  · simp [names_of, h]
  · simp [names_of, h]

theorem names_of_absent (ds : List FileList) (k : String)
    (h : k ∉ ds.map (fun g => g.From)) : names_of ds k = [] := by
  induction ds with
  | nil => rfl
  | cons d rest ih =>
    have h1 : d.From ≠ k := fun e => h (by simp [e])
    have h2 : k ∉ rest.map (fun g => g.From) := fun e => h (by simp [e])
    rw [names_of_cons, if_neg h1, ih h2]; rfl

/-- The names stored under a key after one merge. -/
theorem merge_group_names (newfl : FileList) (dest : List FileList) (k : String)
    (hu : KeysUnique dest) :
    names_of (merge_group newfl dest) k =
      names_of dest k ++ (if newfl.From = k then newfl.Get.filter (fun n => n ≠ "") else []) := by
  induction dest with
  | nil => simp [merge_group, names_of_cons, names_of_nil]
  | cons d ds ih =>
    have hu2 : KeysUnique ds := (List.nodup_cons.1 hu).2
    have hd : d.From ∉ ds.map (fun g => g.From) := (List.nodup_cons.1 hu).1
    by_cases hx : d.From = newfl.From
    · simp only [merge_group, if_pos hx]
      by_cases hk : d.From = k
      · have hk2 : newfl.From = k := hx ▸ hk
        have ha : names_of ds k = [] := names_of_absent ds k (hk ▸ hd)
        simp [names_of_cons, hk, hk2, ha, List.filter_append]
      · have hk2 : ¬ newfl.From = k := fun e => hk (hx.trans e)
        simp [names_of_cons, hk, hk2]
    · simp only [merge_group, if_neg hx]
      rw [names_of_cons, names_of_cons, ih hu2, List.append_assoc]

theorem plain_names_cons (sys : Sys) (g : FileList) (rest : List FileList) (k : String) :
    plain_names sys (g :: rest) k =
      (if ¬ gated sys g ∧ g.From = k then
        (g.Get.map TrimSpace).filter (fun n => HasSuffix n ".yaml" = false ∧ n ≠ "")
       else []) ++ plain_names sys rest k := by
  by_cases h : ¬ gated sys g ∧ g.From = k
  · simp only [plain_names, if_pos h]
    rw [List.filter_cons_of_pos (by simpa using h)]
    simp
  · simp only [plain_names, if_neg h]
    rw [List.filter_cons_of_neg (by simpa using h)]
    simp

/-- The names stored under a key after append_filelist. -/
theorem append_filelist_names (sys : Sys) (src : List FileList) :
    ∀ (dest : List FileList) (other : List String) (origin : Origin) (k : String),
      KeysUnique dest →
      names_of (append_filelist sys dest src other origin).1 k =
        names_of dest k ++ plain_names sys src k := by
  induction src with
  | nil => intro dest other origin k _; simp [append_filelist_nil, plain_names]
  | cons g rest ih =>
    intro dest other origin k hu
    rw [append_filelist_cons, ih _ _ _ k (append_group_unique sys origin (dest, other) g hu),
      plain_names_cons]
    by_cases hg : gated sys g
    · rw [append_group_gated sys origin (dest, other) g hg]
      simp [hg]
    · rw [append_group_ungated sys origin (dest, other) g hg, merge_group_names _ _ k hu]
      by_cases hk : g.From = k
      · simp [hg, hk, List.filter_filter, List.append_assoc]
        congr 1
        funext n
        exact Bool.and_comm _ _
      · simp [hg, hk]

/-- An ungated source group gets a group of its key, with or without plain
names. -/
theorem append_filelist_key (sys : Sys) (src : List FileList) :
    ∀ (dest : List FileList) (other : List String) (origin : Origin) (g : FileList),
      g ∈ src → ¬ gated sys g →
      g.From ∈ (append_filelist sys dest src other origin).1.map (fun d => d.From) := by
  have hmono : ∀ (rest : List FileList) (dest : List FileList) (other : List String)
      (origin : Origin) (k : String), k ∈ dest.map (fun d => d.From) →
      k ∈ (append_filelist sys dest rest other origin).1.map (fun d => d.From) := by
    intro rest
    induction rest with
    | nil => intro dest other origin k h; exact h
    | cons x xs ih =>
      intro dest other origin k h
      rw [append_filelist_cons]
      apply ih
      by_cases hx : gated sys x
      · rw [append_group_gated sys origin (dest, other) x hx]; exact h
      · rw [append_group_ungated sys origin (dest, other) x hx, merge_group_keys]
        split
        · exact h
        · exact List.mem_append_left _ h
  induction src with
  | nil => intro dest other origin g hg; simp at hg
  | cons x rest ih =>
    intro dest other origin g hg hgate
    rw [append_filelist_cons]
    rcases List.mem_cons.1 hg with rfl | hg2
    · apply hmono
      rw [append_group_ungated sys origin (dest, other) g hgate, merge_group_keys]
      split
      · assumption
      · exact List.mem_append_right _ (List.mem_singleton_self _)
    · exact ih _ _ _ g hg2 hgate

theorem names_of_unique (fl : List FileList) (d : FileList) (hu : KeysUnique fl)
    (hd : d ∈ fl) : names_of fl d.From = d.Get.filter (fun n => n ≠ "") := by
  induction fl with
  | nil => simp at hd
  | cons x xs ih =>
    have hu2 : KeysUnique xs := (List.nodup_cons.1 hu).2
    have hx : x.From ∉ xs.map (fun g => g.From) := (List.nodup_cons.1 hu).1
    rcases List.mem_cons.1 hd with rfl | h2
    · rw [names_of_cons, if_pos rfl, names_of_absent xs _ hx, List.append_nil]
    · have hne : x.From ≠ d.From := by
        intro e
        exact hx (e ▸ List.mem_map_of_mem (fun g => g.From) h2)
      rw [names_of_cons, if_neg hne, ih hu2 h2]; rfl

/-! ## The extension of a synthesized module path -/

theorem last_elem_decomp (s : List Char) :
    ∃ tail, Separator ∉ tail ∧ (s = tail ∨ ∃ q, s = q ++ Separator :: tail) := by
  induction s with
  | nil => exact ⟨[], by simp, Or.inl rfl⟩
  | cons x xs ih =>
    obtain ⟨tail, ht, h⟩ := ih
    rcases h with h | ⟨q, h⟩
    · by_cases hx : x = Separator
      · exact ⟨tail, ht, Or.inr ⟨[], by rw [h, hx]; rfl⟩⟩
      · refine ⟨x :: tail, ?_, Or.inl (by rw [h])⟩
        intro hm
        rcases List.mem_cons.1 hm with h1 | h1
        · exact hx h1.symm
        · exact ht h1
    · exact ⟨tail, ht, Or.inr ⟨x :: q, by rw [h]; rfl⟩⟩

theorem endsIn_trans {p z c : List Char} (h1 : EndsIn p z) (h2 : EndsIn z c) : EndsIn p c := by
  rcases h1 with h1 | ⟨q, h1⟩
  · rw [h1]; exact h2
  · rcases h2 with h2 | ⟨r, h2⟩
    · exact Or.inr ⟨q, by rw [h1, h2]⟩
    · exact Or.inr ⟨q ++ Separator :: r, by rw [h1, h2]; simp⟩

theorem dropWhile_concat {α : Type} (p : α → Bool) (l : List α) (x : α) (hx : p x = false) :
    (l ++ [x]).dropWhile p = l.dropWhile p ++ [x] := by
  induction l with
  | nil => simp [List.dropWhile, hx]
  | cons y ys ih =>
    by_cases hy : p y = true
    · simp [List.dropWhile, hy, ih]
    · simp [List.dropWhile, hy]

/-- Join keeps the final element of its last argument when it is a real
element. -/
theorem join_endsIn (elems : List String) (x : String) (c : List Char) (hc : PlainElem c)
    (h : EndsIn x.data c) : EndsIn (Join (elems ++ [x])).data c := by
  have hx : x ≠ "" := by
    intro e
    rw [e] at h
    exact endsIn_ne_nil hc.1 h rfl
  have hd : (elems ++ [x]).dropWhile (fun e => decide (e = "")) =
      elems.dropWhile (fun e => decide (e = "")) ++ [x] :=
    dropWhile_concat _ elems x (by simpa using hx)
  have hj : Join (elems ++ [x]) =
      Clean ⟨joinSep ((elems.dropWhile (fun e => decide (e = "")) ++ [x]).map String.data)⟩ := by
    unfold Join
    rw [hd]
    cases hrest : elems.dropWhile (fun e => decide (e = "")) with
    | nil => rfl
    | cons y ys => rfl
  rw [hj]
  apply cleanChars_endsIn _ c hc
  rw [List.map_append, List.map_singleton]
  exact endsIn_trans (joinSep_concat _ _) h

theorem yaml_elem (tail : List Char) (ht : Separator ∉ tail) :
    PlainElem (tail ++ ".yaml".data) ∧
    extScan (tail ++ ".yaml".data).reverse [] = ".yaml".data := by
  have hy : Separator ∉ ".yaml".data := by decide
  refine ⟨⟨by simp, ?_, ?_, ?_⟩, ?_⟩
  · intro hm
    rcases List.mem_append.1 hm with h | h
    · exact ht h
    · exact hy h
  · intro h
    have := congrArg List.length h
    simp at this
  · intro h
    have := congrArg List.length h
    simp at this
  · have e : (tail ++ ".yaml".data).reverse = "yaml".data.reverse ++ '.' :: tail.reverse := by
      have : ".yaml".data = '.' :: "yaml".data := rfl
      rw [this]
      simp
    rw [e, extScan_to_dot _ _ _ (by decide)]
    rfl

/-- The synthesized path of a module has the extension .yaml, whatever the
lowered name and the value of MODULES are. -/
theorem ext_synth (dir nm : String) :
    Ext (Clean (Join [dir, Join [nm, "hdl", nm ++ ".yaml"]])) = ".yaml" := by
  obtain ⟨tail, ht, hdec⟩ := last_elem_decomp nm.data
  obtain ⟨hplain, hext⟩ := yaml_elem tail ht
  have hlast : EndsIn (nm ++ ".yaml").data (tail ++ ".yaml".data) := by
    rw [String.data_append]
    rcases hdec with h | ⟨q, h⟩
    · exact Or.inl (by rw [h])
    · exact Or.inr ⟨q, by rw [h]; simp⟩
  have hinner : EndsIn (Join [nm, "hdl", nm ++ ".yaml"]).data (tail ++ ".yaml".data) :=
    join_endsIn [nm, "hdl"] (nm ++ ".yaml") _ hplain hlast
  rw [ext_clean_join dir _ _ hplain hinner, hext]

/-- The joined path make_path relativizes for a module has the extension
.yaml too. -/
theorem ext_synth_join (dir nm : String) :
    Ext (Join [dir, Join [nm, "hdl", nm ++ ".yaml"]]) = ".yaml" := by
  obtain ⟨tail, ht, hdec⟩ := last_elem_decomp nm.data
  obtain ⟨hplain, hext⟩ := yaml_elem tail ht
  have hlast : EndsIn (nm ++ ".yaml").data (tail ++ ".yaml".data) := by
    rw [String.data_append]
    rcases hdec with h | ⟨q, h⟩
    · exact Or.inl (by rw [h])
    · exact Or.inr ⟨q, by rw [h]; simp⟩
  have hinner : EndsIn (Join [nm, "hdl", nm ++ ".yaml"]).data (tail ++ ".yaml".data) :=
    join_endsIn [nm, "hdl"] (nm ++ ".yaml") _ hplain hlast
  have houter := join_pair_endsIn dir _ _ hplain hinner
  simp only [Ext]
  rw [extScan_endsIn _ _ hplain.2.1 houter, hext]

/-- An entry with the extension .yaml makes both emitters stop with an
unsupported-extension error. -/
theorem yaml_entry_aborts (l : List String) (p : String) (hp : p ∈ l)
    (he : Ext p = ".yaml") :
    (∀ rel, ∃ ext file, (dump_qip l rel).fatal = some (.unsupported ext file)) ∧
    (∀ args, ∃ ext file, (dump_sim l args).fatal = some (.unsupported ext file)) := by
  have hns : ¬ Supported (Ext p) := by
    rw [he]; decide
  have hq : ∀ rel, ∃ ext file, (dump_qip l rel).fatal = some (.unsupported ext file) := by
    intro rel
    have h1 := (dump_qip_fatal_iff rel l).1.2 ⟨p, hp, hns⟩
    cases hf : (dump_qip l rel).fatal with
    | none => exact absurd hf h1
    | some e =>
      obtain ⟨q, _, _, hqe⟩ := (dump_qip_fatal_iff rel l).2 e hf
      exact ⟨Ext q, q, by rw [hqe]⟩
  refine ⟨hq, ?_⟩
  intro args
  obtain ⟨ext, file, h⟩ := hq false
  exact ⟨ext, file, by rw [← emitters_same_fatal false args l]; exact h⟩

/-- A successful dump_jtmodules has made the path of every named module. -/
theorem dump_jtmodules_made (sys : Sys) (rel : Bool) (m : JTModule) (hn : m.Name ≠ "") :
    ∀ (mods : List JTModule) (all out : List String), m ∈ mods →
      dump_jtmodules sys rel mods all = .ok out → ∃ p, synth_path sys m rel = .ok p := by
  intro mods
  induction mods with
  | nil => intro all out hin; simp at hin
  | cons x rest ih =>
    intro all out hin h
    by_cases hx : x.Name.length > 0
    · simp only [dump_jtmodules, if_pos hx] at h
      cases hs : synth_path sys x rel with
      | error e =>
        unfold synth_path at hs
        simp [hs] at h
      | ok item =>
        rcases List.mem_cons.1 hin with rfl | hin2
        · exact ⟨item, hs⟩
        · have hs2 := hs
          unfold synth_path at hs2
          simp only [hs2] at h
          exact ih _ out hin2 h
    · simp only [dump_jtmodules, if_neg hx] at h
      rcases List.mem_cons.1 hin with rfl | hin2
      · exact absurd ((str_length_pos _).2 hn) hx
      · exact ih _ out hin2 h

/-! ## Joining an entry to a cleaned directory -/

theorem cleanChars_render (p : List Char) (hp : p ≠ []) :
    cleanChars p = renderPath (decide (p.head? = some Separator))
      ((splitSep p).foldl (cleanStep (decide (p.head? = some Separator))) []) := by
  unfold cleanChars renderPath
  simp only [if_neg hp]
  by_cases hr : p.head? = some Separator
  · simp [hr]
  · simp [hr]

theorem splitSep_elems (p : List Char) : ∀ w ∈ splitSep p, Separator ∉ w := by
  induction p with
  | nil => intro w hw; simp [splitSep] at hw; subst hw; simp
  | cons c cs ih =>
    obtain ⟨v, vs, hv⟩ := splitSep_ne_nil cs
    intro w hw
    by_cases hc : c = Separator
    · simp only [splitSep, hv, if_pos hc, List.mem_cons] at hw
      rcases hw with rfl | hw
      · simp
      · exact ih w (by rw [hv]; exact List.mem_cons.2 hw)
    · simp only [splitSep, hv, if_neg hc, List.mem_cons] at hw
      rcases hw with rfl | hw
      · intro hm
        rcases List.mem_cons.1 hm with h | h
        · exact hc h.symm
        · exact ih v (by rw [hv]; exact List.mem_cons_self _ _) h
      · exact ih w (by rw [hv]; exact List.mem_cons_of_mem _ hw)

theorem cleanStep_ok (rooted : Bool) (stack : List (List Char)) (e : List Char)
    (hs : StackOk rooted stack) (he : Separator ∉ e) : StackOk rooted (cleanStep rooted stack e) := by
  unfold cleanStep
  by_cases h1 : e = [] ∨ e = ['.']
  · simp only [if_pos h1]; exact hs
  · simp only [if_neg h1]
    have hne : e ≠ [] := fun h => h1 (Or.inl h)
    have hnd : e ≠ ['.'] := fun h => h1 (Or.inr h)
    by_cases h2 : e = ['.', '.']
    · simp only [if_pos h2]
      cases stack with
      | nil =>
        cases rooted with
        | true => simp [StackOk]
        | false =>
          subst h2
          simp [StackOk]
          decide
      | cons top below =>
        by_cases h3 : top = ['.', '.']
        · simp only [if_pos h3]
          obtain ⟨ht, hdd, hb⟩ := hs
          obtain ⟨hr, hall⟩ := hdd h3
          refine ⟨⟨hne, he, hnd⟩, ?_, ⟨ht, hdd, hb⟩⟩
          intro _
          refine ⟨hr, ?_⟩
          intro y hy
          rcases List.mem_cons.1 hy with rfl | hy2
          · exact h3
          · exact hall y hy2
        · simp only [if_neg h3]
          exact hs.2.2
    · simp only [if_neg h2]
      exact ⟨⟨hne, he, hnd⟩, fun h => absurd h h2, hs⟩

theorem foldl_clean_ok (rooted : Bool) (xs : List (List Char)) :
    ∀ stack, StackOk rooted stack → (∀ w ∈ xs, Separator ∉ w) →
      StackOk rooted (xs.foldl (cleanStep rooted) stack) := by
  induction xs with
  | nil => intro stack hs _; exact hs
  | cons x rest ih =>
    intro stack hs hx
    rw [List.foldl_cons]
    exact ih _ (cleanStep_ok rooted stack x hs (hx x (List.mem_cons_self _ _)))
      (fun w hw => hx w (List.mem_cons_of_mem _ hw))

/-- Folding the elements of a stack of Clean again gives the stack back. -/
theorem refold (rooted : Bool) (stack : List (List Char)) (hs : StackOk rooted stack) :
    stack.reverse.foldl (cleanStep rooted) [] = stack := by
  induction stack with
  | nil => rfl
  | cons x below ih =>
    obtain ⟨⟨hne, _, hnd⟩, hdd, hb⟩ := hs
    rw [List.reverse_cons, List.foldl_append, List.foldl_cons, List.foldl_nil, ih hb]
    unfold cleanStep
    have h1 : ¬ (x = [] ∨ x = ['.']) := fun h => h.elim hne hnd
    simp only [if_neg h1]
    by_cases h2 : x = ['.', '.']
    · simp only [if_pos h2]
      obtain ⟨hr, hall⟩ := hdd h2
      cases below with
      | nil => simp [hr, h2]
      | cons top b =>
        have ht : top = ['.', '.'] := hall top (List.mem_cons_self _ _)
        simp [ht, h2]
    · simp only [if_neg h2]

theorem foldl_plain (rooted : Bool) (es : List (List Char)) :
    ∀ stack, (∀ w ∈ es, PlainElem w) →
      es.foldl (cleanStep rooted) stack = es.reverse ++ stack := by
  induction es with
  | nil => intro stack _; rfl
  | cons e rest ih =>
    intro stack h
    rw [List.foldl_cons, cleanStep_plain _ _ _ (h e (List.mem_cons_self _ _)),
      ih _ (fun w hw => h w (List.mem_cons_of_mem _ hw))]
    simp

theorem joinSep_cons_cons (y z : List Char) (zs : List (List Char)) :
    joinSep (y :: z :: zs) = y ++ Separator :: joinSep (z :: zs) := rfl

theorem splitSep_joinSep (ys : List (List Char)) (hne : ys ≠ [])
    (h : ∀ w ∈ ys, Separator ∉ w) : splitSep (joinSep ys) = ys := by
  induction ys with
  | nil => exact absurd rfl hne
  | cons y rest ih =>
    cases rest with
    | nil => exact splitSep_no_sep y (h y (List.mem_cons_self _ _))
    | cons z zs =>
      rw [joinSep_cons_cons, splitSep_append, splitSep_no_sep y (h y (List.mem_cons_self _ _)),
        ih (by simp) (fun w hw => h w (List.mem_cons_of_mem _ hw))]
      rfl

theorem joinSep_splitSep (p : List Char) : joinSep (splitSep p) = p := by
  induction p with
  | nil => rfl
  | cons c cs ih =>
    obtain ⟨v, vs, hv⟩ := splitSep_ne_nil cs
    rw [hv] at ih
    by_cases hc : c = Separator
    · simp only [splitSep, hv, if_pos hc]
      rw [joinSep_cons_cons, ih, hc]; rfl
    · simp only [splitSep, hv, if_neg hc]
      cases vs with
      | nil =>
        simp only [joinSep] at ih ⊢
        rw [ih]
      | cons u us =>
        rw [joinSep_cons_cons] at ih ⊢
        rw [← ih]; rfl

theorem joinSep_append (a b : List (List Char)) (ha : a ≠ []) (hb : b ≠ []) :
    joinSep (a ++ b) = joinSep a ++ Separator :: joinSep b := by
  induction a with
  | nil => exact absurd rfl ha
  | cons y rest ih =>
    cases rest with
    | nil =>
      cases b with
      | nil => exact absurd rfl hb
      | cons z zs => rfl
    | cons u us =>
      have e : (y :: u :: us) ++ b = y :: ((u :: us) ++ b) := rfl
      rw [e]
      cases hub : (u :: us) ++ b with
      | nil => simp at hub
      | cons v vs =>
        rw [joinSep_cons_cons, ← hub, ih (by simp), joinSep_cons_cons]
        simp

theorem joinSep_ne_nil (ys : List (List Char)) (hne : ys ≠ []) (h : ∀ w ∈ ys, w ≠ []) :
    joinSep ys ≠ [] := by
  cases ys with
  | nil => exact absurd rfl hne
  | cons y rest =>
    have hy : y ≠ [] := h y (List.mem_cons_self _ _)
    cases rest with
    | nil => exact hy
    | cons z zs =>
      rw [joinSep_cons_cons]
      simp [hy]

theorem joinSep_head (ys : List (List Char)) (hne : ys ≠ [])
    (h : ∀ w ∈ ys, w ≠ [] ∧ Separator ∉ w) : (joinSep ys).head? ≠ some Separator := by
  cases ys with
  | nil => exact absurd rfl hne
  | cons y rest =>
    obtain ⟨hy, hs⟩ := h y (List.mem_cons_self _ _)
    cases y with
    | nil => exact absurd rfl hy
    | cons c cs =>
      have hc : c ≠ Separator := fun e => hs (e ▸ List.mem_cons_self _ _)
      cases rest with
      | nil => simp [joinSep, hc]
      | cons z zs =>
        rw [joinSep_cons_cons]
        simp [hc]

theorem stackOk_elems (rooted : Bool) (stack : List (List Char)) (hs : StackOk rooted stack) :
    ∀ w ∈ stack, w ≠ [] ∧ Separator ∉ w := by
  induction stack with
  | nil => intro w hw; simp at hw
  | cons x below ih =>
    intro w hw
    rcases List.mem_cons.1 hw with rfl | h
    · exact ⟨hs.1.1, hs.1.2.1⟩
    · exact ih hs.2.2 w h

theorem render_rooted (rooted : Bool) (stack : List (List Char)) (hs : StackOk rooted stack) :
    decide ((renderPath rooted stack).head? = some Separator) = rooted := by
  have hel := stackOk_elems rooted stack hs
  cases rooted with
  | true => simp [renderPath]
  | false =>
    have hgoal : (renderPath false stack).head? ≠ some Separator := by
      unfold renderPath
      simp only [Bool.false_eq_true, if_false]
      by_cases hb : joinSep stack.reverse = []
      · simp only [if_pos hb]
        decide
      · simp only [if_neg hb]
        have hne : stack.reverse ≠ [] := by
          intro e
          rw [e] at hb
          exact hb rfl
        exact joinSep_head _ hne (fun w hw => hel w (List.mem_reverse.1 hw))
    simpa using hgoal

theorem render_ne_nil (rooted : Bool) (stack : List (List Char)) : renderPath rooted stack ≠ [] := by
  unfold renderPath
  cases rooted with
  | true => simp
  | false =>
    simp only [Bool.false_eq_true, if_false]
    by_cases hb : joinSep stack.reverse = []
    · simp [hb]
    · simp [hb]

/-- The element stack of a path written by Clean is the stack it was written
from. -/
theorem stack_render (rooted : Bool) (stack : List (List Char)) (hs : StackOk rooted stack) :
    (splitSep (renderPath rooted stack)).foldl (cleanStep rooted) [] = stack := by
  have hel := stackOk_elems rooted stack hs
  have hsep : ∀ w ∈ stack.reverse, Separator ∉ w := fun w hw => (hel w (List.mem_reverse.1 hw)).2
  have hnil : ∀ w ∈ stack.reverse, w ≠ [] := fun w hw => (hel w (List.mem_reverse.1 hw)).1
  cases stack with
  | nil =>
    cases rooted with
    | true => decide
    | false => decide
  | cons x below =>
    have hne : (x :: below).reverse ≠ [] := by simp
    have hb : joinSep (x :: below).reverse ≠ [] := joinSep_ne_nil _ hne hnil
    have hsplit := splitSep_joinSep _ hne hsep
    cases rooted with
    | true =>
      have e : renderPath true (x :: below) = [] ++ Separator :: joinSep (x :: below).reverse := by
        simp [renderPath]
      rw [e, splitSep_append, hsplit]
      have e2 : splitSep [] = [[]] := rfl
      rw [e2, List.singleton_append, List.foldl_cons]
      have e3 : cleanStep true [] [] = [] := by simp [cleanStep]
      rw [e3]
      exact refold true _ hs
    | false =>
      have e : renderPath false (x :: below) = joinSep (x :: below).reverse := by
        simp only [renderPath, Bool.false_eq_true, if_false, if_neg hb]
      rw [e, hsplit]
      exact refold false _ hs

/-- Clean of an entry of real elements joined to a cleaned directory: what
the directory leads with, then the entry. -/
theorem clean_join_dir (rooted : Bool) (stack : List (List Char)) (es : List (List Char))
    (hs : StackOk rooted stack) (hne : es ≠ []) (hes : ∀ w ∈ es, PlainElem w) :
    cleanChars (renderPath rooted stack ++ Separator :: joinSep es) =
      dirLead rooted stack ++ joinSep es := by
  have hel := stackOk_elems rooted stack hs
  have hp : renderPath rooted stack ++ Separator :: joinSep es ≠ [] := by simp
  have hhead : decide ((renderPath rooted stack ++ Separator :: joinSep es).head? =
      some Separator) = rooted := by
    have h0 := render_rooted rooted stack hs
    have h1 := render_ne_nil rooted stack
    cases hrp : renderPath rooted stack with
    | nil => exact absurd hrp h1
    | cons c cs =>
      rw [hrp] at h0
      simpa using h0
  have hsplit : splitSep (joinSep es) = es :=
    splitSep_joinSep es hne (fun w hw => (hes w hw).2.1)
  rw [cleanChars_render _ hp, hhead, splitSep_append, List.foldl_append,
    stack_render rooted stack hs, hsplit, foldl_plain rooted es stack hes]
  have hesne : joinSep es ≠ [] := joinSep_ne_nil es hne (fun w hw => (hes w hw).1)
  unfold renderPath dirLead
  rw [List.reverse_append, List.reverse_reverse]
  cases stack with
  | nil =>
    cases rooted with
    | true => simp
    | false => simp [hesne]
  | cons x below =>
    have hr : (x :: below).reverse ≠ [] := by simp
    rw [joinSep_append _ _ hr hne]
    cases rooted with
    | true => simp
    | false => simp

/-- The directory is determined by what it leads an entry with. -/
theorem render_of_lead (rooted : Bool) (stack : List (List Char)) (hs : StackOk rooted stack) :
    renderPath rooted stack =
      if dirLead rooted stack = [] then ['.']
      else if dirLead rooted stack = [Separator] then [Separator]
      else (dirLead rooted stack).dropLast := by
  have hel := stackOk_elems rooted stack hs
  cases stack with
  | nil =>
    cases rooted with
    | true => decide
    | false => decide
  | cons x below =>
    have hne : (x :: below).reverse ≠ [] := by simp
    have hb : joinSep (x :: below).reverse ≠ [] :=
      joinSep_ne_nil _ hne (fun w hw => (hel w (List.mem_reverse.1 hw)).1)
    cases rooted with
    | true =>
      have e1 : dirLead true (x :: below) =
          (Separator :: joinSep (x :: below).reverse) ++ [Separator] := by
        simp [dirLead]
      have e2 : renderPath true (x :: below) = Separator :: joinSep (x :: below).reverse := by
        simp [renderPath]
      rw [e1, e2, List.dropLast_concat]
      have n1 : (Separator :: joinSep (x :: below).reverse) ++ [Separator] ≠ [] := by simp
      have n2 : (Separator :: joinSep (x :: below).reverse) ++ [Separator] ≠ [Separator] := by
        intro h
        have := congrArg List.length h
        simp at this
      rw [if_neg n1, if_neg n2]
    | false =>
      have e1 : dirLead false (x :: below) = joinSep (x :: below).reverse ++ [Separator] := by
        simp [dirLead]
      have e2 : renderPath false (x :: below) = joinSep (x :: below).reverse := by
        simp only [renderPath, Bool.false_eq_true, if_false, if_neg hb]
      rw [e1, e2, List.dropLast_concat]
      have n1 : joinSep (x :: below).reverse ++ [Separator] ≠ [] := by simp
      have n2 : joinSep (x :: below).reverse ++ [Separator] ≠ [Separator] := by
        intro h
        have := congrArg List.length h
        simp at this
        exact hb (by rw [List.reverse_cons]; exact this)
      rw [if_neg n1, if_neg n2]

/-- Every directory Dir returns is a path written by Clean. -/
theorem dir_form (p : String) :
    ∃ rooted stack, StackOk rooted stack ∧ (Dir p).data = renderPath rooted stack := by
  by_cases hx : dirPrefix p.data = []
  · refine ⟨false, [], trivial, ?_⟩
    simp only [Dir, hx]
    rfl
  · refine ⟨_, _, ?_, cleanChars_render _ hx⟩
    exact foldl_clean_ok _ _ [] trivial (splitSep_elems _)

/-- An entry made of real elements joined to two directories gives the same
path only when the directories are the same. -/
theorem here_join_injective (p1 p2 e : String) (he : ∀ w ∈ splitSep e.data, PlainElem w)
    (h : Join [Dir p1, e] = Join [Dir p2, e]) : Dir p1 = Dir p2 := by
  obtain ⟨r1, s1, ok1, hd1⟩ := dir_form p1
  obtain ⟨r2, s2, ok2, hd2⟩ := dir_form p2
  obtain ⟨v, vs, hv⟩ := splitSep_ne_nil e.data
  have hes : splitSep e.data ≠ [] := by rw [hv]; simp
  have hjoin : ∀ (p : String) (r : Bool) (s : List (List Char)), StackOk r s →
      (Dir p).data = renderPath r s →
      (Join [Dir p, e]).data = dirLead r s ++ joinSep (splitSep e.data) := by
    intro p r s ok hd
    have hne : Dir p ≠ "" := by
      intro h0
      have h1 := congrArg String.data h0
      rw [hd] at h1
      exact render_ne_nil r s h1
    have e1 : Join [Dir p, e] = Clean ⟨joinSep [(Dir p).data, e.data]⟩ := by
      simp [Join, hne, List.dropWhile]
    rw [e1]
    simp only [Clean, joinSep]
    rw [hd]
    have e2 : e.data = joinSep (splitSep e.data) := (joinSep_splitSep e.data).symm
    rw [e2, splitSep_joinSep _ hes (splitSep_elems _)]
    exact clean_join_dir r s _ ok hes he
  have h1 := hjoin p1 r1 s1 ok1 hd1
  have h2 := hjoin p2 r2 s2 ok2 hd2
  rw [h, h2] at h1
  have hlead : dirLead r1 s1 = dirLead r2 s2 := (List.append_cancel_right h1).symm
  have hdata : (Dir p1).data = (Dir p2).data := by
    rw [hd1, hd2, render_of_lead r1 s1 ok1, render_of_lead r2 s2 ok2, hlead]
  cases hA : Dir p1 with
  | mk a =>
    cases hB : Dir p2 with
    | mk b =>
      rw [hA, hB] at hdata
      simp only at hdata
      rw [hdata]

/-! ## The "here" entries -/

theorem hereGrown_add (H0 L : List String) (s : State) (x : String) (h : HereGrown H0 L s) :
    HereGrown H0 L (add_here s x) := by
  obtain ⟨more, h1, h2⟩ := h
  refine ⟨more ++ [x], ?_, h2.trans (List.sublist_append_left _ _)⟩
  simp only [add_here, h1, List.append_assoc]

theorem hereGrown_add_last (H0 L : List String) (s : State) (x : String)
    (h : HereGrown H0 L s) : HereGrown H0 (L ++ [x]) (add_here s x) := by
  obtain ⟨more, h1, h2⟩ := h
  refine ⟨more ++ [x], ?_, List.Sublist.append h2 (List.Sublist.refl _)⟩
  simp only [add_here, h1, List.append_assoc]

/-- Every successful call of parse_yaml only appends to the "here" list. -/
theorem parse_yaml_hereGrown (sys : Sys) (H0 L : List String) :
    ∀ (fuel : Nat) (filename : String) (st st1 : State),
      parse_yaml sys fuel filename st = .ok st1 → HereGrown H0 L st → HereGrown H0 L st1 :=
  parse_yaml_inv sys (HereGrown H0 L)
    (fun _ _ _ _ h => h)
    (fun _ _ _ h => h)
    (fun s x h => hereGrown_add H0 L s x h)

/-- The loop over the "here" entries appends the joined paths of the entries
not ending in .yaml, in declaration order. -/
theorem here_loop_order (recur : String → State → Except Abort State) (dir : String)
    (H0 : List String)
    (hrec : ∀ L q s s1, recur q s = .ok s1 → HereGrown H0 L s → HereGrown H0 L s1) :
    ∀ (entries : List String) (L : List String) (st st1 : State),
      HereGrown H0 L st → here_loop recur dir entries st = .ok st1 →
      HereGrown H0 (L ++ (entries.filter (fun e => HasSuffix e ".yaml" = false)).map
        (fun e => Join [dir, e])) st1 := by
  intro entries
  induction entries with
  | nil =>
    intro L st st1 hg h
    simp only [here_loop, Except.ok.injEq] at h
    subst h
    simpa using hg
  | cons e rest ih =>
    intro L st st1 hg h
    by_cases hy : HasSuffix e ".yaml" = true
    · have hf : (e :: rest).filter (fun e => HasSuffix e ".yaml" = false) =
          rest.filter (fun e => HasSuffix e ".yaml" = false) := by
        rw [List.filter_cons_of_neg (by simp [hy])]
      rw [hf]
      by_cases hp : is_parsed st.parsed e = false
      · simp only [here_loop, if_pos (And.intro hy hp)] at h
        cases hr : recur (Join [dir, e]) st with
        | error x => simp [hr] at h
        | ok s2 =>
          simp only [hr] at h
          exact ih L s2 st1 (hrec L _ st s2 hr hg) h
      · have hc : ¬ (HasSuffix e ".yaml" = true ∧ is_parsed st.parsed e = false) :=
          fun c => hp c.2
        simp only [here_loop, if_neg hc] at h
        exact ih L _ st1 (hereGrown_add H0 L st _ hg) h
    · have hn : HasSuffix e ".yaml" = false := by simpa using hy
      have hf : (e :: rest).filter (fun e => HasSuffix e ".yaml" = false) =
          e :: rest.filter (fun e => HasSuffix e ".yaml" = false) := by
        rw [List.filter_cons_of_pos (by simp [hn])]
      have hc : ¬ (HasSuffix e ".yaml" = true ∧ is_parsed st.parsed e = false) :=
        fun c => hy c.1
      simp only [here_loop, if_neg hc] at h
      have h3 := ih (L ++ [Join [dir, e]]) _ st1 (hereGrown_add_last H0 L st _ hg) h
      rw [hf, List.map_cons]
      simpa [List.append_assoc] using h3

theorem here_flat_paths (sys : Sys) (files : JTFiles) (x : String) (h : x ∈ files.Here) :
    x ∈ flat_paths sys files := by
  unfold flat_paths
  exact List.mem_append_right _ h

/-! ## What a call of parse_yaml merges: groups, "here" entries, nested manifests -/

theorem is_parsed_mem (l : List String) (x : String) : is_parsed l x = true ↔ x ∈ l := by
  induction l with
  | nil => simp [is_parsed]
  | cons k rest ih =>
    by_cases h : x = k
    · simp [is_parsed, h]
    · simp [is_parsed, h, ih]

theorem extends_refl (s : State) : Extends s s :=
  ⟨fun _ _ _ h => h, ⟨[], by simp⟩, ⟨[], by simp⟩, ⟨[], by simp⟩⟩

theorem extends_trans {a b c : State} (h1 : Extends a b) (h2 : Extends b c) : Extends a c := by
  obtain ⟨g1, ⟨x1, hx1⟩, ⟨y1, hy1⟩, ⟨z1, hz1⟩⟩ := h1
  obtain ⟨g2, ⟨x2, hx2⟩, ⟨y2, hy2⟩, ⟨z2, hz2⟩⟩ := h2
  refine ⟨fun o k f h => g2 o k f (g1 o k f h), ⟨x1 ++ x2, ?_⟩, ⟨y1 ++ y2, ?_⟩, ⟨z1 ++ z2, ?_⟩⟩
  · rw [hx2, hx1, List.append_assoc]
  · rw [hy2, hy1, List.append_assoc]
  · rw [hz2, hz1, List.append_assoc]

theorem extends_merge (sys : Sys) (s : State) (aux : JTFiles) (filename : String) :
    Extends s ⟨(merge_groups sys s.files aux).1, s.parsed ++ [filename]⟩ :=
  ⟨fun o k f h => merge_groups_holds_mono sys s.files aux o k f h,
    ⟨[], by simp [merge_groups]⟩, ⟨[], by simp [merge_groups]⟩, ⟨[filename], rfl⟩⟩

theorem extends_retain (s : State) (each : JTModule) : Extends s (retain_module s each) :=
  ⟨fun o k f h => by cases o <;> exact h, ⟨[], by simp [retain_module]⟩, ⟨[each], rfl⟩,
    ⟨[], by simp [retain_module]⟩⟩

theorem extends_add_here (s : State) (p : String) : Extends s (add_here s p) :=
  ⟨fun o k f h => by cases o <;> exact h, ⟨[p], rfl⟩, ⟨[], by simp [add_here]⟩,
    ⟨[], by simp [add_here]⟩⟩

theorem extends_parsed_mem {s s1 : State} (h : Extends s s1) {x : String} (hx : x ∈ s.parsed) :
    x ∈ s1.parsed := by
  obtain ⟨more, hm⟩ := h.2.2.2
  rw [hm]; exact List.mem_append_left _ hx

theorem extends_here_mem {s s1 : State} (h : Extends s s1) {x : String}
    (hx : x ∈ s.files.Here) : x ∈ s1.files.Here := by
  obtain ⟨more, hm⟩ := h.2.1
  rw [hm]; exact List.mem_append_left _ hx

theorem extends_retained_mem {s s1 : State} (h : Extends s s1) {x : JTModule}
    (hx : x ∈ s.files.Modules.JT) : x ∈ s1.files.Modules.JT := by
  obtain ⟨more, hm⟩ := h.2.2.1
  rw [hm]; exact List.mem_append_left _ hx

theorem extends_parsed_ne {s s1 : State} (h : Extends s s1) (hne : s.parsed ≠ []) :
    s1.parsed ≠ [] := by
  obtain ⟨more, hm⟩ := h.2.2.2
  rw [hm]
  intro h0
  exact hne (List.append_eq_nil.1 h0).1

/-- What is merged stays merged when the state is extended. -/
theorem inlined_mono (sys : Sys) (r : String) (m : JTFiles) {s s1 : State} (h : Extends s s1)
    (hi : Inlined sys r m s) : Inlined sys r m s1 := by
  obtain ⟨i1, i2, i3, i4, i5⟩ := hi
  refine ⟨?_, ?_, ?_, ?_, ?_⟩
  · intro o g hg hgate n hn hs
    exact h.1 o _ _ (i1 o g hg hgate n hn hs)
  · intro e he hs
    exact extends_here_mem h (i2 e he hs)
  · intro e he hs
    rcases i3 e he hs with h1 | h1
    · exact Or.inl (extends_parsed_mem h h1)
    · exact Or.inr (extends_here_mem h h1)
  · intro o g hg hgate e he hs
    exact extends_parsed_mem h (i4 o g hg hgate e he hs)
  · intro n hn
    exact ⟨fun ho => extends_parsed_mem h ((i5 n hn).1 ho),
      fun ho => extends_retained_mem h ((i5 n hn).2 ho)⟩

/-- Every successful call of parse_yaml extends the state. -/
theorem parse_yaml_extends (sys : Sys) (fuel : Nat) (filename : String) (st st1 : State)
    (h : parse_yaml sys fuel filename st = .ok st1) : Extends st st1 :=
  parse_yaml_inv sys (fun s => Extends st s)
    (fun s aux f _ hs => extends_trans hs (extends_merge sys s aux f))
    (fun s each _ hs => extends_trans hs (extends_retain s each))
    (fun s p hs => extends_trans hs (extends_add_here s p))
    fuel filename st st1 h (extends_refl st)

theorem jt_loop_extends (sys : Sys) (recur : String → State → Except Abort State)
    (hext : ∀ q a b, recur q a = .ok b → Extends a b) (l : List JTModule) (s s1 : State)
    (h : jt_loop sys recur l s = .ok s1) : Extends s s1 :=
  jt_loop_inv sys recur (fun x => Extends s x)
    (fun q a b hq ha => extends_trans ha (hext q a b hq))
    (fun a each _ ha => extends_trans ha (extends_retain a each)) l s s1 h (extends_refl s)

theorem other_loop_extends (recur : String → State → Except Abort State)
    (hext : ∀ q a b, recur q a = .ok b → Extends a b) (l : List String) (s s1 : State)
    (h : other_loop recur l s = .ok s1) : Extends s s1 :=
  other_loop_inv recur (fun x => Extends s x)
    (fun q a b hq ha => extends_trans ha (hext q a b hq)) l s s1 h (extends_refl s)

theorem here_loop_extends (recur : String → State → Except Abort State) (dir : String)
    (hext : ∀ q a b, recur q a = .ok b → Extends a b) (l : List String) (s s1 : State)
    (h : here_loop recur dir l s = .ok s1) : Extends s s1 :=
  here_loop_inv recur dir (fun x => Extends s x)
    (fun q a b hq ha => extends_trans ha (hext q a b hq))
    (fun a p ha => extends_trans ha (extends_add_here a p)) l s s1 h (extends_refl s)

/-- Once a manifest has been read, a successful call of parse_yaml on a path
leaves the path in the list parsed. -/
theorem parse_yaml_enters (sys : Sys) (fuel : Nat) (q : String) (s s1 : State)
    (h : parse_yaml sys fuel q s = .ok s1) (hne : s.parsed ≠ []) : q ∈ s1.parsed := by
  cases fuel with
  | zero => simp [parse_yaml] at h
  | succ n =>
    cases hread : sys.readYaml q with
    | unreadable =>
      rw [parse_yaml_unreadable sys n q s hread, if_neg hne] at h
      simp at h
    | garbled =>
      rw [parse_yaml, hread] at h
      simp at h
    | manifest aux =>
      obtain ⟨s2, s3, h2, h3, h4⟩ := parse_yaml_manifest sys n q s s1 aux hread h
      have e2 := jt_loop_extends sys _ (parse_yaml_extends sys n) _ _ _ h2
      have e3 := other_loop_extends _ (parse_yaml_extends sys n) _ _ _ h3
      have e4 := here_loop_extends _ _ (parse_yaml_extends sys n) _ _ _ h4
      exact extends_parsed_mem (extends_trans e2 (extends_trans e3 e4))
        (List.mem_append_right _ (List.mem_singleton_self _))

/-- The loop over "modules.jt" has the manifest of every entry parsed when it
can be opened, and retains the entry otherwise. -/
theorem jt_loop_all (sys : Sys) (recur : String → State → Except Abort State)
    (hext : ∀ q a b, recur q a = .ok b → Extends a b)
    (hent : ∀ q a b, recur q a = .ok b → a.parsed ≠ [] → q ∈ b.parsed) :
    ∀ (l : List JTModule) (s s1 : State), s.parsed ≠ [] → jt_loop sys recur l s = .ok s1 →
      ∀ n ∈ l,
        (sys.canOpen (module_yaml sys n) = true → module_yaml sys n ∈ s1.parsed) ∧
        (sys.canOpen (module_yaml sys n) = false → n ∈ s1.files.Modules.JT) := by
  intro l
  induction l with
  | nil => intro s s1 _ _ n hn; simp at hn
  | cons x rest ih =>
    intro s s1 hne h n hn
    by_cases ho : sys.canOpen (module_yaml sys x) = true
    · simp only [jt_loop, if_pos ho] at h
      cases hr : recur (module_yaml sys x) s with
      | error e => simp [hr] at h
      | ok s2 =>
        simp only [hr] at h
        rcases List.mem_cons.1 hn with rfl | hn2
        · refine ⟨fun _ => ?_, fun hc => ?_⟩
          · exact extends_parsed_mem (jt_loop_extends sys recur hext rest s2 s1 h)
              (hent _ _ _ hr hne)
          · rw [hc] at ho; simp at ho
        · exact ih s2 s1 (extends_parsed_ne (hext _ _ _ hr) hne) h n hn2
    · simp only [jt_loop, if_neg ho] at h
      rcases List.mem_cons.1 hn with rfl | hn2
      · refine ⟨fun hc => absurd hc ho, fun _ => ?_⟩
        exact extends_retained_mem (jt_loop_extends sys recur hext rest _ s1 h)
          (List.mem_append_right _ (List.mem_singleton_self _))
      · exact ih (retain_module s x) s1 hne h n hn2

/-- The loop over the queued nested manifests leaves every one of them in the
list parsed. -/
theorem other_loop_all (recur : String → State → Except Abort State)
    (hext : ∀ q a b, recur q a = .ok b → Extends a b)
    (hent : ∀ q a b, recur q a = .ok b → a.parsed ≠ [] → q ∈ b.parsed) :
    ∀ (l : List String) (s s1 : State), s.parsed ≠ [] → other_loop recur l s = .ok s1 →
      ∀ r ∈ l, r ∈ s1.parsed := by
  intro l
  induction l with
  | nil => intro s s1 _ _ r hr; simp at hr
  | cons x rest ih =>
    intro s s1 hne h r hr
    by_cases ho : is_parsed s.parsed x = true
    · simp only [other_loop, if_pos ho] at h
      rcases List.mem_cons.1 hr with rfl | hr2
      · exact extends_parsed_mem (other_loop_extends recur hext rest s s1 h)
          ((is_parsed_mem _ _).1 ho)
      · exact ih s s1 hne h r hr2
    · simp only [other_loop, if_neg ho] at h
      cases hc : recur x s with
      | error e => simp [hc] at h
      | ok s2 =>
        simp only [hc] at h
        rcases List.mem_cons.1 hr with rfl | hr2
        · exact extends_parsed_mem (other_loop_extends recur hext rest s2 s1 h)
            (hent _ _ _ hc hne)
        · exact ih s2 s1 (extends_parsed_ne (hext _ _ _ hc) hne) h r hr2

/-- The loop over the "here" entries puts every entry not ending in .yaml in
the "here" list, joined to the directory; an entry ending in .yaml is parsed
as a manifest or put in the "here" list. -/
theorem here_loop_all (recur : String → State → Except Abort State) (dir : String)
    (hext : ∀ q a b, recur q a = .ok b → Extends a b)
    (hent : ∀ q a b, recur q a = .ok b → a.parsed ≠ [] → q ∈ b.parsed) :
    ∀ (l : List String) (s s1 : State), s.parsed ≠ [] → here_loop recur dir l s = .ok s1 →
      ∀ e ∈ l,
        (HasSuffix e ".yaml" = false → Join [dir, e] ∈ s1.files.Here) ∧
        (HasSuffix e ".yaml" = true →
          Join [dir, e] ∈ s1.parsed ∨ Join [dir, e] ∈ s1.files.Here) := by
  intro l
  induction l with
  | nil => intro s s1 _ _ e he; simp at he
  | cons x rest ih =>
    intro s s1 hne h e he
    by_cases ho : HasSuffix x ".yaml" = true ∧ is_parsed s.parsed x = false
    · simp only [here_loop, if_pos ho] at h
      cases hc : recur (Join [dir, x]) s with
      | error err => simp [hc] at h
      | ok s2 =>
        simp only [hc] at h
        rcases List.mem_cons.1 he with rfl | he2
        · refine ⟨fun hs => ?_, fun _ => Or.inl ?_⟩
          · rw [ho.1] at hs; simp at hs
          · exact extends_parsed_mem (here_loop_extends recur dir hext rest s2 s1 h)
              (hent _ _ _ hc hne)
        · exact ih s2 s1 (extends_parsed_ne (hext _ _ _ hc) hne) h e he2
    · simp only [here_loop, if_neg ho] at h
      rcases List.mem_cons.1 he with rfl | he2
      · have hin : Join [dir, e] ∈ s1.files.Here :=
          extends_here_mem (here_loop_extends recur dir hext rest _ s1 h)
            (List.mem_append_right _ (List.mem_singleton_self _))
        exact ⟨fun _ => hin, fun _ => Or.inr hin⟩
      · exact ih (add_here s (Join [dir, x])) s1 hne h e he2

/-- The three calls of append_filelist queue every nested manifest named by a
group that is not gated. -/
theorem merge_groups_queues (sys : Sys) (files aux : JTFiles) (origin : Origin) (g : FileList)
    (e : String) (hg : g ∈ groups_of origin aux) (hgate : ¬ gated sys g) (he : e ∈ g.Get)
    (hs : HasSuffix (TrimSpace e) ".yaml" = true) :
    yaml_base sys origin g.From ++ TrimSpace e ∈ (merge_groups sys files aux).2 := by
  cases origin with
  | GAME =>
    exact append_filelist_other_mono sys _ _ _ _ _
      (append_filelist_other_mono sys _ _ _ _ _
        (append_filelist_queues sys aux.Game files.Game [] .GAME g e hg hgate he hs))
  | FRAME =>
    exact append_filelist_other_mono sys _ _ _ _ _
      (append_filelist_queues sys aux.JTFrame files.JTFrame _ .FRAME g e hg hgate he hs)
  | MODULE =>
    exact append_filelist_queues sys aux.Modules.Other files.Modules.Other _ .MODULE g e hg
      hgate he hs
  | JTMODULE => simp [groups_of] at hg

/-- A successful call of parse_yaml on a manifest leaves its path in the list
parsed and merges its contents: group names, "here" entries, nested manifests
and modules. -/
theorem parse_yaml_inlines (sys : Sys) (fuel : Nat) (p : String) (st st1 : State)
    (aux : JTFiles) (hread : sys.readYaml p = .manifest aux)
    (h : parse_yaml sys fuel p st = .ok st1) : p ∈ st1.parsed ∧ Inlined sys p aux st1 := by
  cases fuel with
  | zero => simp [parse_yaml] at h
  | succ n =>
    obtain ⟨s2, s3, h2, h3, h4⟩ := parse_yaml_manifest sys n p st st1 aux hread h
    have hext := parse_yaml_extends sys n
    have hent := parse_yaml_enters sys n
    have e2 := jt_loop_extends sys _ hext _ _ _ h2
    have e3 := other_loop_extends _ hext _ _ _ h3
    have e4 := here_loop_extends _ _ hext _ _ _ h4
    have n1 : (State.mk (merge_groups sys st.files aux).1 (st.parsed ++ [p])).parsed ≠ [] := by
      simp
    have n2 := extends_parsed_ne e2 n1
    have n3 := extends_parsed_ne e3 n2
    have a2 := jt_loop_all sys _ hext hent _ _ _ n1 h2
    have a3 := other_loop_all _ hext hent _ _ _ n2 h3
    have a4 := here_loop_all _ (Dir p) hext hent _ _ _ n3 h4
    refine ⟨extends_parsed_mem (extends_trans e2 (extends_trans e3 e4))
      (List.mem_append_right _ (List.mem_singleton_self _)), ?_, ?_, ?_, ?_, ?_⟩
    · intro o g hg hgate x hx hs
      exact (extends_trans e2 (extends_trans e3 e4)).1 o _ _
        (merge_groups_merged sys st.files aux o g hg hgate x hx hs)
    · intro e he hs
      exact (a4 e he).1 hs
    · intro e he hs
      exact (a4 e he).2 hs
    · intro o g hg hgate e he hs
      exact extends_parsed_mem e4
        (a3 _ (merge_groups_queues sys st.files aux o g e hg hgate he hs))
    · intro m hm
      exact ⟨fun ho => extends_parsed_mem (extends_trans e3 e4) ((a2 m hm).1 ho),
        fun ho => extends_retained_mem (extends_trans e3 e4) ((a2 m hm).2 ho)⟩

theorem inlinedSince_step (sys : Sys) (old : List String) {a b : State} (hab : Extends a b)
    (ha : InlinedSince sys old a) (hb : InlinedSince sys a.parsed b) :
    InlinedSince sys old b := by
  intro r hr
  rcases hb r hr with h1 | h1
  · rcases ha r h1 with h2 | h2
    · exact Or.inl h2
    · exact Or.inr (fun m hm => inlined_mono sys r m hab (h2 m hm))
  · exact Or.inr h1

theorem inlinedSince_same (sys : Sys) (old : List String) {a b : State} (hab : Extends a b)
    (hp : b.parsed = a.parsed) (ha : InlinedSince sys old a) : InlinedSince sys old b := by
  intro r hr
  rw [hp] at hr
  rcases ha r hr with h2 | h2
  · exact Or.inl h2
  · exact Or.inr (fun m hm => inlined_mono sys r m hab (h2 m hm))

/-- After a successful call of parse_yaml every manifest parsed by the call,
at any depth, has its contents merged. -/
theorem parse_yaml_closure (sys : Sys) :
    ∀ (fuel : Nat) (p : String) (st st1 : State),
      parse_yaml sys fuel p st = .ok st1 → InlinedSince sys st.parsed st1 := by
  intro fuel
  induction fuel with
  | zero => intro p st st1 h; simp [parse_yaml] at h
  | succ n ih =>
    intro p st st1 h
    cases hread : sys.readYaml p with
    | unreadable =>
      rw [parse_yaml_unreadable sys n p st hread] at h
      by_cases hp : st.parsed = []
      · simp only [if_pos hp, Except.ok.injEq] at h
        subst h
        exact fun r hr => Or.inl hr
      · simp [if_neg hp] at h
    | garbled =>
      rw [parse_yaml, hread] at h
      simp at h
    | manifest aux =>
      obtain ⟨s2, s3, h2, h3, h4⟩ := parse_yaml_manifest sys n p st st1 aux hread h
      have hrec : ∀ q a b, parse_yaml sys n q a = .ok b →
          InlinedSince sys (st.parsed ++ [p]) a → InlinedSince sys (st.parsed ++ [p]) b :=
        fun q a b hq ha =>
          inlinedSince_step sys _ (parse_yaml_extends sys n q a b hq) ha (ih q a b hq)
      have c1 : InlinedSince sys (st.parsed ++ [p])
          ⟨(merge_groups sys st.files aux).1, st.parsed ++ [p]⟩ := fun r hr => Or.inl hr
      have c2 := jt_loop_inv sys _ (InlinedSince sys (st.parsed ++ [p])) hrec
        (fun a each _ ha => inlinedSince_same sys _ (extends_retain a each) rfl ha) _ _ _ h2 c1
      have c3 := other_loop_inv _ (InlinedSince sys (st.parsed ++ [p])) hrec _ _ _ h3 c2
      have c4 := here_loop_inv _ _ (InlinedSince sys (st.parsed ++ [p])) hrec
        (fun a x ha => inlinedSince_same sys _ (extends_add_here a x) rfl ha) _ _ _ h4 c3
      intro r hr
      rcases c4 r hr with h1 | h1
      · rcases List.mem_append.1 h1 with h5 | h5
        · exact Or.inl h5
        · rw [List.mem_singleton.1 h5]
          refine Or.inr (fun m hm => ?_)
          rw [hread] at hm
          cases hm
          exact (parse_yaml_inlines sys (n + 1) p st st1 aux hread h).2
      · exact Or.inr h1

/-! ## The paths collect_files returns for what is merged -/

theorem dump_names_made (sys : Sys) (path : String) (rel : Bool) (f : String) (hf : f ≠ "") :
    ∀ (names all out : List String), f ∈ names →
      dump_names sys path rel names all = .ok out → ∃ p, make_path sys path f rel = .ok p := by
  intro names
  induction names with
  | nil => intro all out hin; simp at hin
  | cons x rest ih =>
    intro all out hin h
    by_cases hx : x.length > 0
    · simp only [dump_names, if_pos hx] at h
      cases hs : make_path sys path x rel with
      | error e => simp [hs] at h
      | ok item =>
        rcases List.mem_cons.1 hin with rfl | hin2
        · exact ⟨item, hs⟩
        · simp only [hs] at h
          exact ih _ out hin2 h
    · simp only [dump_names, if_neg hx] at h
      rcases List.mem_cons.1 hin with rfl | hin2
      · exact absurd ((str_length_pos _).2 hf) hx
      · exact ih _ out hin2 h

theorem dump_filelist_made (sys : Sys) (origin : Origin) (rel : Bool) (g : FileList)
    (f : String) (hf : f ≠ "") (hfg : f ∈ g.Get) :
    ∀ (fl : List FileList) (all out : List String), g ∈ fl →
      dump_filelist sys origin rel fl all = .ok out →
      ∃ p, make_path sys (origin_path sys origin g.From) f rel = .ok p := by
  intro fl
  induction fl with
  | nil => intro all out hin; simp at hin
  | cons x rest ih =>
    intro all out hin h
    simp only [dump_filelist] at h
    cases hd : dump_names sys (origin_path sys origin x.From) rel x.Get all with
    | error e => simp [hd] at h
    | ok all1 =>
      simp only [hd] at h
      rcases List.mem_cons.1 hin with rfl | hin2
      · exact dump_names_made sys _ rel f hf _ all all1 hfg hd
      · exact ih _ out hin2 h

/-- What collect_files returns is the flattened path set of the aggregate. -/
theorem collect_files_mem (sys : Sys) (files : JTFiles) (rel : Bool) (l : List String)
    (h : collect_files sys files rel = .ok l) (p : String) :
    p ∈ l ↔ IsFlatPath sys files rel p := by
  unfold collect_files at h
  cases hg : gather_files sys files rel with
  | error e => simp [hg] at h
  | ok all =>
    simp only [hg, Except.ok.injEq] at h
    subst h
    rw [mem_sort_uniq, gather_files_mem sys files rel all hg p]

/-- When collect_files returns, it has made a path for every non-empty file
name the aggregate holds, and returns it. -/
theorem collect_files_holds (sys : Sys) (files : JTFiles) (rel : Bool) (l : List String)
    (h : collect_files sys files rel = .ok l) (origin : Origin) (k f : String)
    (hh : Holds (groups_of origin files) k f) (hf : f ≠ "") :
    ∃ p, make_path sys (origin_path sys origin k) f rel = .ok p ∧ p ∈ l := by
  obtain ⟨d, hd, hk, hfd⟩ := hh
  have hmade : ∃ p, make_path sys (origin_path sys origin d.From) f rel = .ok p := by
    have h0 := h
    unfold collect_files gather_files at h0
    cases h1 : dump_filelist sys .GAME rel files.Game [] with
    | error e => simp [h1] at h0
    | ok a1 =>
      simp only [h1] at h0
      cases h2 : dump_filelist sys .FRAME rel files.JTFrame a1 with
      | error e => simp [h2] at h0
      | ok a2 =>
        simp only [h2] at h0
        cases h3 : dump_jtmodules sys rel files.Modules.JT a2 with
        | error e => simp [h3] at h0
        | ok a3 =>
          simp only [h3] at h0
          cases h4 : dump_filelist sys .MODULE rel files.Modules.Other a3 with
          | error e => simp [h4] at h0
          | ok a4 =>
            cases origin with
            | GAME => exact dump_filelist_made sys .GAME rel d f hf hfd _ _ _ hd h1
            | FRAME => exact dump_filelist_made sys .FRAME rel d f hf hfd _ _ _ hd h2
            | MODULE => exact dump_filelist_made sys .MODULE rel d f hf hfd _ _ _ hd h4
            | JTMODULE => simp [groups_of] at hd
  obtain ⟨p, hp⟩ := hmade
  refine ⟨p, by rw [← hk]; exact hp, ?_⟩
  rw [collect_files_mem sys files rel l h p]
  cases origin with
  | GAME => exact Or.inl ⟨d, hd, f, hfd, hf, hp⟩
  | FRAME => exact Or.inr (Or.inl ⟨d, hd, f, hfd, hf, hp⟩)
  | MODULE => exact Or.inr (Or.inr (Or.inr (Or.inl ⟨d, hd, f, hfd, hf, hp⟩)))
  | JTMODULE => simp [groups_of] at hd

/-- When collect_files returns, it returns the expanded entries of every
manifest whose contents are merged in the aggregate. -/
theorem inlined_expanded (sys : Sys) (r : String) (m : JTFiles) (s : State) (rel : Bool)
    (l : List String) (hi : Inlined sys r m s) (h : collect_files sys s.files rel = .ok l) :
    Expanded sys rel r m s.parsed l := by
  obtain ⟨i1, i2, i3, _, _⟩ := hi
  have hhere : ∀ x ∈ s.files.Here, here_path sys rel x ∈ l := by
    intro x hx
    rw [collect_files_mem sys s.files rel l h]
    exact Or.inr (Or.inr (Or.inr (Or.inr ⟨x, hx, rfl⟩)))
  refine ⟨?_, ?_, ?_⟩
  · intro o g hg hgate n hn hs hne
    exact collect_files_holds sys s.files rel l h o g.From (TrimSpace n)
      (i1 o g hg hgate n hn hs) hne
  · intro e he hs
    exact hhere _ (i2 e he hs)
  · intro e he hs
    rcases i3 e he hs with h1 | h1
    · exact Or.inl h1
    · exact Or.inr (hhere _ h1)

/-- When collect_files returns, it has made the synthesized path of every
retained module reference with a name, and returns it. -/
theorem collect_files_retained (sys : Sys) (files : JTFiles) (rel : Bool) (l : List String)
    (h : collect_files sys files rel = .ok l) (each : JTModule)
    (hin : each ∈ files.Modules.JT) (hn : each.Name ≠ "") :
    ∃ p, synth_path sys each rel = .ok p ∧ p ∈ l := by
  have hmade : ∃ p, synth_path sys each rel = .ok p := by
    have h0 := h
    unfold collect_files gather_files at h0
    cases h1 : dump_filelist sys .GAME rel files.Game [] with
    | error e => simp [h1] at h0
    | ok a1 =>
      simp only [h1] at h0
      cases h2 : dump_filelist sys .FRAME rel files.JTFrame a1 with
      | error e => simp [h2] at h0
      | ok a2 =>
        simp only [h2] at h0
        cases h3 : dump_jtmodules sys rel files.Modules.JT a2 with
        | error e => simp [h3] at h0
        | ok a3 => exact dump_jtmodules_made sys rel each hn _ a2 a3 hin h3
  obtain ⟨p, hp⟩ := hmade
  refine ⟨p, hp, ?_⟩
  rw [collect_files_mem sys files rel l h p]
  exact Or.inr (Or.inr (Or.inl ⟨each, hin, hn, hp⟩))

/-- From one module reference with a name dump_jtmodules derives exactly one
path, the synthesized path. -/
theorem dump_jtmodules_single (sys : Sys) (rel : Bool) (each : JTModule) (p : String)
    (hn : each.Name ≠ "") (hp : synth_path sys each rel = .ok p) :
    dump_jtmodules sys rel [each] [] = .ok [p] := by
  have hl : each.Name.length > 0 := (str_length_pos _).2 hn
  unfold synth_path at hp
  simp only [dump_jtmodules, if_pos hl, hp, List.nil_append]

/-- When no reference of a given name has been retained since the list `old`,
the flattened path set has no path synthesized from such a reference. -/
theorem flat_path_but (sys : Sys) (files : JTFiles) (rel : Bool) (name : String)
    (old : List JTModule)
    (hcl : ∀ r ∈ files.Modules.JT, r.Name = name → r ∈ old) (p : String) :
    IsFlatPath sys files rel p ↔ IsFlatPathBut sys files rel name old p := by
  unfold IsFlatPath IsFlatPathBut
  constructor
  · rintro (h | h | ⟨m, hm, hn, hs⟩ | h | h)
    · exact Or.inl h
    · exact Or.inr (Or.inl h)
    · refine Or.inr (Or.inr (Or.inl ⟨m, hm, ?_, hn, hs⟩))
      by_cases hname : m.Name = name
      · exact Or.inr (hcl m hm hname)
      · exact Or.inl hname
    · exact Or.inr (Or.inr (Or.inr (Or.inl h)))
    · exact Or.inr (Or.inr (Or.inr (Or.inr h)))
  · rintro (h | h | ⟨m, hm, _, hn, hs⟩ | h | h)
    · exact Or.inl h
    · exact Or.inr (Or.inl h)
    · exact Or.inr (Or.inr (Or.inl ⟨m, hm, hn, hs⟩))
    · exact Or.inr (Or.inr (Or.inr (Or.inl h)))
    · exact Or.inr (Or.inr (Or.inr (Or.inr h)))

/-! ## The claims of the specification -/

/-- C1 (visit-once on cycles), evaluated on the code: when two module manifests
name each other under "modules.jt", or two manifests name each other under
"here", parse_yaml started with an empty visited list never returns: whatever
the recursion budget, the call ends by exhausting it.  The loop over
"modules.jt" never consults is_parsed, and the loop over "here" consults it
on the entry as written and not on the joined path that is recorded. -/
theorem visit_once_cycle_diverges :
    (∀ fuel, parse_yaml sysJTCycle fuel "/m/foo/hdl/foo.yaml" State.init = .error .outOfFuel) ∧
    (∀ fuel, parse_yaml sysHereCycle fuel "/x/a.yaml" State.init = .error .outOfFuel) :=
  ⟨fun fuel => (jt_cycle_diverges fuel State.init).1,
   fun fuel => (here_cycle_diverges fuel State.init (by simp [State.init])).1⟩

/-- C2 (no path loaded twice), evaluated on the code: a core naming the
modules foo and bar, where bar names foo again, loads the manifest of foo
twice; its path stands twice in `parsed` and its file is merged twice. -/
theorem module_manifest_loaded_twice :
    parse_yaml sysDiamond 3 "/c/g/hdl/game.yaml" State.init =
      .ok ⟨⟨[⟨"g", ["", "", "f.v", "", "", "f.v"], ""⟩], [], ⟨[], []⟩, []⟩,
        ["/c/g/hdl/game.yaml", "/m/foo/hdl/foo.yaml", "/m/bar/hdl/bar.yaml",
         "/m/foo/hdl/foo.yaml"]⟩ := by
  decide

/-- C3, as stated, fails: two groups with key foo and the names a.v and b.v
leave one group whose file list is not the concatenation [a.v, b.v]: each
merged group brings two empty strings first. -/
theorem merge_by_key_not_plain_concat :
    (append_filelist sysBare (append_filelist sysBare [] [⟨"foo", ["a.v"], ""⟩] [] .GAME).1
        [⟨"foo", ["b.v"], ""⟩] [] .GAME).1 = [⟨"foo", ["", "", "a.v", "", "", "b.v"], ""⟩] ∧
    (append_filelist sysBare (append_filelist sysBare [] [⟨"foo", ["a.v"], ""⟩] [] .GAME).1
        [⟨"foo", ["b.v"], ""⟩] [] .GAME).1 ≠ [⟨"foo", ["a.v", "b.v"], ""⟩] := by
  decide

/-- C3, amended (merge-by-key): two groups that are not gated, have the same
key, a key no group of the destination has, and no name ending in .yaml,
passed to append_filelist one after the other (or in one call), leave the
destination followed by exactly one group with that key; apart from
empty-string entries, the file list of that group is the trimmed names of the
first group followed by those of the second, in order; nothing is queued. -/
theorem merge_by_key (sys : Sys) (origin : Origin) (dest : List FileList)
    (other : List String) (g1 g2 : FileList)
    (h1 : ¬ gated sys g1) (h2 : ¬ gated sys g2) (hk : g1.From = g2.From)
    (hfresh : ∀ d ∈ dest, d.From ≠ g1.From)
    (hplain : ∀ n ∈ g1.Get ++ g2.Get, HasSuffix (TrimSpace n) ".yaml" = false) :
    ∃ g : FileList,
      append_filelist sys (append_filelist sys dest [g1] other origin).1 [g2]
        (append_filelist sys dest [g1] other origin).2 origin = (dest ++ [g], other) ∧
      append_filelist sys dest [g1, g2] other origin = (dest ++ [g], other) ∧
      g.From = g1.From ∧
      g.Get.filter (fun n => n ≠ "") =
        ((g1.Get ++ g2.Get).map TrimSpace).filter (fun n => n ≠ "") := by
  have hp1 : (g1.Get.map TrimSpace).filter (fun n => HasSuffix n ".yaml" = false) =
      g1.Get.map TrimSpace := by
    rw [List.filter_eq_self]
    intro n hn
    obtain ⟨m, hm, rfl⟩ := List.mem_map.1 hn
    simpa using hplain m (List.mem_append_left _ hm)
  have hp2 : (g2.Get.map TrimSpace).filter (fun n => HasSuffix n ".yaml" = false) =
      g2.Get.map TrimSpace := by
    rw [List.filter_eq_self]
    intro n hn
    obtain ⟨m, hm, rfl⟩ := List.mem_map.1 hn
    simpa using hplain m (List.mem_append_right _ hm)
  have hq1 : (g1.Get.map TrimSpace).filter (fun n => HasSuffix n ".yaml" = true) = [] := by
    rw [List.filter_eq_nil_iff]
    intro n hn
    obtain ⟨m, hm, rfl⟩ := List.mem_map.1 hn
    simpa using hplain m (List.mem_append_left _ hm)
  have hq2 : (g2.Get.map TrimSpace).filter (fun n => HasSuffix n ".yaml" = true) = [] := by
    rw [List.filter_eq_nil_iff]
    intro n hn
    obtain ⟨m, hm, rfl⟩ := List.mem_map.1 hn
    simpa using hplain m (List.mem_append_right _ hm)
  have e : append_filelist sys dest [g1, g2] other origin =
      (dest ++ [⟨g1.From, (["", ""] ++ g1.Get.map TrimSpace) ++
        (["", ""] ++ g2.Get.map TrimSpace), ""⟩], other) := by
    rw [append_filelist_cons, append_filelist_cons, append_filelist_nil,
      append_group_ungated sys origin _ g1 h1, hp1, hq1]
    simp only [List.map_nil, List.append_nil]
    rw [merge_group_fresh ⟨g1.From, ["", ""] ++ g1.Get.map TrimSpace, ""⟩ dest hfresh,
      append_group_ungated sys origin _ g2 h2, hp2, hq2]
    simp only [List.map_nil, List.append_nil]
    rw [merge_group_last ⟨g2.From, ["", ""] ++ g2.Get.map TrimSpace, ""⟩ dest
      ⟨g1.From, ["", ""] ++ g1.Get.map TrimSpace, ""⟩ hk (fun d hd => hk ▸ hfresh d hd)]
  refine ⟨_, ?_, e, rfl, ?_⟩
  · rw [← e]; rfl
  · simp [List.filter_append]

/-- C3 at a concrete input: the keys foo under GAME with the names a.v and
b.v. -/
theorem merge_by_key_witness :
    ∃ g : FileList,
      append_filelist sysBare (append_filelist sysBare [] [⟨"foo", ["a.v"], ""⟩] [] .GAME).1
        [⟨"foo", ["b.v"], ""⟩]
        (append_filelist sysBare [] [⟨"foo", ["a.v"], ""⟩] [] .GAME).2 .GAME = ([] ++ [g], []) ∧
      append_filelist sysBare [] [⟨"foo", ["a.v"], ""⟩, ⟨"foo", ["b.v"], ""⟩] [] .GAME =
        ([] ++ [g], []) ∧
      g.From = "foo" ∧
      g.Get.filter (fun n => n ≠ "") =
        ((["a.v"] ++ ["b.v"]).map TrimSpace).filter (fun n => n ≠ "") :=
  merge_by_key sysBare .GAME [] [] ⟨"foo", ["a.v"], ""⟩ ⟨"foo", ["b.v"], ""⟩
    (by decide) (by decide) rfl (by simp) (by decide)

/-- C4 (key uniqueness): append_filelist keeps a destination list free of
repeated keys free of repeated keys, for every source list, environment and
origin; hence every successful call of parse_yaml keeps the three origin
categories of the aggregate free of repeated keys, and an aggregate built from
the empty one has at most one group per key in each category. -/
theorem key_uniqueness :
    (∀ (sys : Sys) (dest src : List FileList) (other : List String) (origin : Origin),
      KeysUnique dest → KeysUnique (append_filelist sys dest src other origin).1) ∧
    (∀ (sys : Sys) (fuel : Nat) (filename : String) (st st1 : State),
      parse_yaml sys fuel filename st = .ok st1 →
      KeysUnique st.files.Game ∧ KeysUnique st.files.JTFrame ∧
        KeysUnique st.files.Modules.Other →
      KeysUnique st1.files.Game ∧ KeysUnique st1.files.JTFrame ∧
        KeysUnique st1.files.Modules.Other) ∧
    (∀ (sys : Sys) (fuel : Nat) (filename : String) (st1 : State),
      parse_yaml sys fuel filename State.init = .ok st1 →
      KeysUnique st1.files.Game ∧ KeysUnique st1.files.JTFrame ∧
        KeysUnique st1.files.Modules.Other) := by
  have hgen : ∀ (sys : Sys) (fuel : Nat) (filename : String) (st st1 : State),
      parse_yaml sys fuel filename st = .ok st1 →
      KeysUnique st.files.Game ∧ KeysUnique st.files.JTFrame ∧
        KeysUnique st.files.Modules.Other →
      KeysUnique st1.files.Game ∧ KeysUnique st1.files.JTFrame ∧
        KeysUnique st1.files.Modules.Other := by
    intro sys
    exact parse_yaml_inv sys
      (fun st => KeysUnique st.files.Game ∧ KeysUnique st.files.JTFrame ∧
        KeysUnique st.files.Modules.Other)
      (fun st aux _ _ h => merge_groups_unique sys st.files aux h)
      (fun _ _ _ h => h) (fun _ _ h => h)
  refine ⟨fun sys dest src other origin h => append_filelist_unique sys src dest other origin h,
    hgen, ?_⟩
  intro sys fuel filename st1 h
  exact hgen sys fuel filename State.init st1 h
    ⟨List.nodup_nil, List.nodup_nil, List.nodup_nil⟩

/-- C4 at a concrete input: the aggregate of the core of sysDiamond, where the
group g is merged twice. -/
theorem key_uniqueness_witness :
    KeysUnique [(⟨"g", ["", "", "f.v", "", "", "f.v"], ""⟩ : FileList)] ∧
    KeysUnique ([] : List FileList) ∧ KeysUnique ([] : List FileList) :=
  key_uniqueness.2.2 sysDiamond 3 "/c/g/hdl/game.yaml"
    ⟨⟨[⟨"g", ["", "", "f.v", "", "", "f.v"], ""⟩], [], ⟨[], []⟩, []⟩,
      ["/c/g/hdl/game.yaml", "/m/foo/hdl/foo.yaml", "/m/bar/hdl/bar.yaml",
       "/m/foo/hdl/foo.yaml"]⟩ (by decide)

/-- C5, as stated, fails in two ways.  A module named by the empty string has
no manifest that can be opened, its reference is retained, and collect_files
returns no synthesized path for it.  And the module foo of sysSibling has a
manifest that exists and loads, its reference is not retained, and still
collect_files returns the path MODULES/foo/hdl/foo.yaml: it is synthesized
from the retained reference FOO, whose lower-cased name is foo. -/
theorem synthesized_path_exceptions :
    (sysNoName.canOpen (module_yaml sysNoName ⟨"", ""⟩) = false ∧
      parse_yaml sysNoName 1 "/c/g/hdl/game.yaml" State.init =
        .ok ⟨⟨[], [], ⟨[⟨"", ""⟩], []⟩, []⟩, ["/c/g/hdl/game.yaml"]⟩ ∧
      collect_files sysNoName ⟨[], [], ⟨[⟨"", ""⟩], []⟩, []⟩ false = .ok []) ∧
    (sysSibling.canOpen (module_yaml sysSibling ⟨"foo", ""⟩) = true ∧
      sysSibling.readYaml (module_yaml sysSibling ⟨"foo", ""⟩) =
        .manifest ⟨[⟨"g", ["f.v"], ""⟩], [], ⟨[], []⟩, []⟩ ∧
      sysSibling.canOpen (module_yaml sysSibling ⟨"FOO", ""⟩) = false ∧
      parse_yaml sysSibling 2 "/c/g/hdl/game.yaml" State.init =
        .ok ⟨⟨[⟨"g", ["", "", "f.v"], ""⟩], [], ⟨[⟨"FOO", ""⟩], []⟩, []⟩,
          ["/c/g/hdl/game.yaml", "/m/foo/hdl/foo.yaml"]⟩ ∧
      collect_files sysSibling ⟨[⟨"g", ["", "", "f.v"], ""⟩], [], ⟨[⟨"FOO", ""⟩], []⟩, []⟩
        false = .ok ["/c/g/hdl/f.v", "/m/foo/hdl/foo.yaml"]) := by
  decide

/-- C5, amended (module inlining): let `each` be an entry of "modules.jt" of a
manifest that parse_yaml parses successfully; collect_files then returns in
absolute mode.

If the manifest of the module can be opened and loads, it has been parsed and
its contents are merged in the aggregate (`Inlined`: the plain names of its
groups, its "here" entries, and the nested manifests and modules it names),
and so are the contents of every manifest parsed by the run, at any depth
(`InlinedSince`); the run retains no reference of that name; and whenever
collect_files returns, in either mode, it returns the expanded entries of the
module and of every manifest parsed by the run, and what it returns is the
flattened path set without any path synthesized from a reference of that name
retained by the run (`IsFlatPathBut`).

If the manifest cannot be opened, the reference is in the aggregate, retained
verbatim by a loop step that changes nothing else; when the name is not
empty, whenever collect_files returns, in either mode, dump_jtmodules derives
exactly one path from the reference, the synthesized
MODULES/lower(name)/hdl/lower(name).yaml, and collect_files returns it; when
the name is empty, dump_jtmodules derives no path from it. -/
theorem module_inlining (sys : Sys) (fuel : Nat) (filename : String) (st st1 : State)
    (aux : JTFiles) (each : JTModule)
    (hread : sys.readYaml filename = .manifest aux)
    (hin : each ∈ aux.Modules.JT)
    (hrun : parse_yaml sys (fuel + 1) filename st = .ok st1) :
    (∃ l, collect_files sys st1.files false = .ok l) ∧
    (∀ m, sys.canOpen (module_yaml sys each) = true →
        sys.readYaml (module_yaml sys each) = .manifest m →
        module_yaml sys each ∈ st1.parsed ∧
        Inlined sys (module_yaml sys each) m st1 ∧
        InlinedSince sys st.parsed st1 ∧
        (∀ r ∈ st1.files.Modules.JT, r.Name = each.Name → r ∈ st.files.Modules.JT) ∧
        ∀ rel l, collect_files sys st1.files rel = .ok l →
          Expanded sys rel (module_yaml sys each) m st1.parsed l ∧
          (∀ r ∈ st1.parsed, r ∈ st.parsed ∨
            ∀ m1, sys.readYaml r = .manifest m1 → Expanded sys rel r m1 st1.parsed l) ∧
          ∀ p, p ∈ l ↔ IsFlatPathBut sys st1.files rel each.Name st.files.Modules.JT p) ∧
    (sys.canOpen (module_yaml sys each) = false →
        each ∈ st1.files.Modules.JT ∧
        (∀ recur s, jt_loop sys recur [each] s = .ok (retain_module s each)) ∧
        (each.Name ≠ "" → ∀ rel l, collect_files sys st1.files rel = .ok l →
          ∃ p, synth_path sys each rel = .ok p ∧
            dump_jtmodules sys rel [each] [] = .ok [p] ∧ p ∈ l) ∧
        (each.Name = "" → ∀ rel all, dump_jtmodules sys rel [each] all = .ok all)) := by
  obtain ⟨s2, s3, h2, h3, h4⟩ := parse_yaml_manifest sys fuel filename st st1 aux hread hrun
  have hext := parse_yaml_extends sys fuel
  have e3 := other_loop_extends _ hext _ _ _ h3
  have e4 := here_loop_extends _ _ hext _ _ _ h4
  refine ⟨⟨_, collect_files_abs sys st1.files⟩, ?_, ?_⟩
  · intro m hopen hm
    have q2 : module_yaml sys each ∈ s2.parsed ∧ Inlined sys (module_yaml sys each) m s2 :=
      jt_loop_visits sys (parse_yaml sys fuel) each
        (fun s => module_yaml sys each ∈ s.parsed ∧ Inlined sys (module_yaml sys each) m s)
        hopen
        (fun s s1 hc => parse_yaml_inlines sys fuel _ s s1 m hm hc)
        (fun q s s1 hq hs => ⟨extends_parsed_mem (hext q s s1 hq) hs.1,
          inlined_mono sys _ m (hext q s s1 hq) hs.2⟩)
        (fun s r hs => ⟨extends_parsed_mem (extends_retain s r) hs.1,
          inlined_mono sys _ m (extends_retain s r) hs.2⟩)
        aux.Modules.JT _ s2 hin h2
    have q4 : Inlined sys (module_yaml sys each) m st1 :=
      inlined_mono sys _ m (extends_trans e3 e4) q2.2
    have hcl := parse_yaml_closure sys (fuel + 1) filename st st1 hrun
    have hopen2 : sys.canOpen (module_yaml sys ⟨each.Name, ""⟩) = true := by
      have e : module_yaml sys ⟨each.Name, ""⟩ = module_yaml sys each := rfl
      rw [e]; exact hopen
    have hkept : ∀ r ∈ st1.files.Modules.JT, r.Name = each.Name → r ∈ st.files.Modules.JT :=
      parse_yaml_retained_closed sys each.Name st hopen2 (fuel + 1) filename st st1 hrun
        (fun r hr _ => hr)
    refine ⟨extends_parsed_mem (extends_trans e3 e4) q2.1, q4, hcl, hkept, ?_⟩
    intro rel l hl
    refine ⟨inlined_expanded sys _ m st1 rel l q4 hl, ?_, ?_⟩
    · intro r hr
      rcases hcl r hr with h1 | h1
      · exact Or.inl h1
      · exact Or.inr (fun m1 hm1 => inlined_expanded sys r m1 st1 rel l (h1 m1 hm1) hl)
    · intro p
      rw [collect_files_mem sys st1.files rel l hl p]
      exact flat_path_but sys st1.files rel each.Name st.files.Modules.JT hkept p
  · intro hopen
    have hrec : ∀ p s s1, parse_yaml sys fuel p s = .ok s1 →
        each ∈ s.files.Modules.JT → each ∈ s1.files.Modules.JT :=
      parse_yaml_retained_mono sys each fuel
    have q2 : each ∈ s2.files.Modules.JT :=
      jt_loop_retains sys (parse_yaml sys fuel) each hopen hrec aux.Modules.JT _ s2 hin h2
    have q4 : each ∈ st1.files.Modules.JT := extends_retained_mem (extends_trans e3 e4) q2
    refine ⟨q4, ?_, ?_, ?_⟩
    · intro recur s
      have ho : ¬ sys.canOpen (module_yaml sys each) = true := by simp [hopen]
      simp only [jt_loop, if_neg ho]
    · intro hn rel l hl
      obtain ⟨p, hp, hpl⟩ := collect_files_retained sys st1.files rel l hl each q4 hn
      exact ⟨p, hp, dump_jtmodules_single sys rel each p hn hp, hpl⟩
    · intro hn rel all
      simp [dump_jtmodules, hn]

/-- C5 at a concrete input: the core of sysInline names the module foo, whose
manifest lists f.v and the nested manifest deep.yaml under the game key g, the
module sub and the "here" entry h.v, and the module bar, which has no
manifest.  The run ends in inlineState; collect_files returns the five paths
of f.v, deep.v, h.v and of the synthesized manifests of bar and sub, in both
modes. -/
theorem module_inlining_witness :
    (parse_yaml sysInline 3 "/c/g/hdl/game.yaml" State.init = .ok inlineState ∧
      collect_files sysInline inlineState.files false =
        .ok ["/c/g/hdl/deep.v", "/c/g/hdl/f.v", "/m/bar/hdl/bar.yaml", "/m/foo/hdl/h.v",
          "/m/sub/hdl/sub.yaml"] ∧
      collect_files sysInline inlineState.files true =
        .ok ["c/g/hdl/deep.v", "c/g/hdl/f.v", "m/bar/hdl/bar.yaml", "m/foo/hdl/h.v",
          "m/sub/hdl/sub.yaml"]) ∧
    (module_yaml sysInline ⟨"foo", ""⟩ ∈ inlineState.parsed ∧
      Inlined sysInline (module_yaml sysInline ⟨"foo", ""⟩) inlineFoo inlineState ∧
      InlinedSince sysInline State.init.parsed inlineState ∧
      (∀ r ∈ inlineState.files.Modules.JT, r.Name = "foo" →
        r ∈ State.init.files.Modules.JT) ∧
      ∀ rel l, collect_files sysInline inlineState.files rel = .ok l →
        Expanded sysInline rel (module_yaml sysInline ⟨"foo", ""⟩) inlineFoo
          inlineState.parsed l ∧
        (∀ r ∈ inlineState.parsed, r ∈ State.init.parsed ∨
          ∀ m1, sysInline.readYaml r = .manifest m1 →
            Expanded sysInline rel r m1 inlineState.parsed l) ∧
        ∀ p, p ∈ l ↔
          IsFlatPathBut sysInline inlineState.files rel "foo" State.init.files.Modules.JT p) ∧
    ((⟨"bar", ""⟩ : JTModule) ∈ inlineState.files.Modules.JT ∧
      (∀ recur s, jt_loop sysInline recur [⟨"bar", ""⟩] s = .ok (retain_module s ⟨"bar", ""⟩)) ∧
      ((⟨"bar", ""⟩ : JTModule).Name ≠ "" →
        ∀ rel l, collect_files sysInline inlineState.files rel = .ok l →
        ∃ p, synth_path sysInline ⟨"bar", ""⟩ rel = .ok p ∧
          dump_jtmodules sysInline rel [⟨"bar", ""⟩] [] = .ok [p] ∧ p ∈ l) ∧
      ((⟨"bar", ""⟩ : JTModule).Name = "" →
        ∀ rel all, dump_jtmodules sysInline rel [⟨"bar", ""⟩] all = .ok all)) :=
  ⟨by decide,
   (module_inlining sysInline 2 "/c/g/hdl/game.yaml" State.init inlineState
      (jtManifest ["foo", "bar"]) ⟨"foo", ""⟩ (by decide) (by decide) (by decide)).2.1
      inlineFoo (by decide) (by decide),
   (module_inlining sysInline 2 "/c/g/hdl/game.yaml" State.init inlineState
      (jtManifest ["foo", "bar"]) ⟨"bar", ""⟩ (by decide) (by decide) (by decide)).2.2
      (by decide)⟩

/-- C6 (conditional gate of a file group): a group whose `unless` variable is
set in the environment, with any value, is processed by append_filelist as if
it were not in the source list (no file added, no group created, nothing
queued); a group whose `unless` variable is not set is processed exactly as
the same group without `unless`.  The group may stand anywhere in the source
list. -/
theorem unless_gate (sys : Sys) (origin : Origin) (dest pre post : List FileList)
    (other : List String) (g : FileList) :
    ((LookupEnv sys g.Unless).isSome = true →
      append_filelist sys dest (pre ++ g :: post) other origin =
        append_filelist sys dest (pre ++ post) other origin) ∧
    (LookupEnv sys g.Unless = none →
      append_filelist sys dest (pre ++ g :: post) other origin =
        append_filelist sys dest (pre ++ { g with Unless := "" } :: post) other origin) := by
  constructor
  · intro h
    have hne : g.Unless ≠ "" := by
      intro h0
      rw [h0] at h
      simp [LookupEnv] at h
    have hg : gated sys g := ⟨hne, h⟩
    rw [append_filelist_append, append_filelist_append, append_filelist_cons,
      append_group_gated sys origin _ g hg]
  · intro h
    have hg : ¬ gated sys g := by
      intro hg
      have h3 := hg.2
      rw [h] at h3
      simp at h3
    have hg2 : ¬ gated sys { g with Unless := "" } := by
      intro hg2
      exact hg2.1 rfl
    rw [append_filelist_append, append_filelist_append, append_filelist_cons,
      append_filelist_cons, append_group_ungated sys origin _ g hg,
      append_group_ungated sys origin _ _ hg2]

/-- C6 at a concrete input: a group with a file and a nested manifest under
`unless: NOMOD`, where NOMOD is set (sysGatedModule) and where it is not
(sysBare). -/
theorem unless_gate_witness :
    append_filelist sysGatedModule [] ([] ++ ⟨"g", ["a.v", "n.yaml"], "NOMOD"⟩ :: []) []
        .GAME = append_filelist sysGatedModule [] ([] ++ []) [] .GAME ∧
    append_filelist sysBare [] ([] ++ ⟨"g", ["a.v", "n.yaml"], "NOMOD"⟩ :: []) [] .GAME =
      append_filelist sysBare [] ([] ++ ⟨"g", ["a.v", "n.yaml"], ""⟩ :: []) [] .GAME :=
  ⟨(unless_gate sysGatedModule .GAME [] [] [] [] ⟨"g", ["a.v", "n.yaml"], "NOMOD"⟩).1
      (by decide),
   (unless_gate sysBare .GAME [] [] [] [] ⟨"g", ["a.v", "n.yaml"], "NOMOD"⟩).2 (by decide)⟩

/-- C7 (conditional gate of a module reference), evaluated on the code: with
NOMOD set in the environment, the entries `bar` and `foo` of "modules.jt"
carrying `unless: NOMOD` are not skipped: bar, which has no manifest, is
retained in the aggregate, and the manifest of foo is parsed and merged. -/
theorem module_gate_ignored :
    LookupEnv sysGatedModule "NOMOD" = some "1" ∧
    parse_yaml sysGatedModule 2 "/c/g/hdl/game.yaml" State.init =
      .ok ⟨⟨[⟨"g", ["", "", "f.v"], ""⟩], [], ⟨[⟨"bar", "NOMOD"⟩], []⟩, []⟩,
        ["/c/g/hdl/game.yaml", "/m/foo/hdl/foo.yaml"]⟩ := by
  decide

/-- C8 (collect_files): every list collect_files returns is strictly
increasing in the order of Go strings (sorted, no string twice) and its
elements are exactly the flattened paths of the aggregate: the paths of the
non-empty file names of the groups, the synthesized paths of the retained
modules with a name, and the "here" entries.  In absolute-path mode
collect_files always returns, with the sorted and deduplicated flattened list;
the empty aggregate gives the empty list in both modes. -/
theorem collect_files_sorted_exact (sys : Sys) (files : JTFiles) (rel : Bool) :
    (∀ l, collect_files sys files rel = .ok l →
      l.Pairwise strLt ∧ ∀ p, p ∈ l ↔ IsFlatPath sys files rel p) ∧
    (∃ l, collect_files sys files false = .ok l ∧ l.Pairwise strLt ∧
      ∀ p, p ∈ l ↔ p ∈ flat_paths sys files) ∧
    collect_files sys JTFiles.empty rel = .ok [] := by
  refine ⟨?_, ?_, ?_⟩
  · intro l h
    unfold collect_files at h
    cases hg : gather_files sys files rel with
    | error e => simp [hg] at h
    | ok all =>
      simp only [hg, Except.ok.injEq] at h
      subst h
      exact ⟨sort_uniq_sorted all, fun p => by
        rw [mem_sort_uniq, gather_files_mem sys files rel all hg p]⟩
  · exact ⟨_, collect_files_abs sys files, sort_uniq_sorted _, mem_sort_uniq _⟩
  · cases rel <;> rfl

/-- C8 at a concrete input: the aggregate of the end-to-end scenario. -/
theorem collect_files_sorted_exact_witness :
    ["/cores/foo/hdl/x.sv", "/cores/foo/hdl/y.vhd", "/modules/bar/hdl/bar.yaml"].Pairwise
        strLt ∧
    ∀ p, p ∈ ["/cores/foo/hdl/x.sv", "/cores/foo/hdl/y.vhd", "/modules/bar/hdl/bar.yaml"] ↔
      IsFlatPath sysE2E e2eAggregate false p :=
  (collect_files_sorted_exact sysE2E e2eAggregate false).1
    ["/cores/foo/hdl/x.sv", "/cores/foo/hdl/y.vhd", "/modules/bar/hdl/bar.yaml"] (by decide)

/-- C9 (order independence and idempotence): two aggregates whose flattened
path lists have the same elements (so also when one list is a permutation of
the other, or repeats some paths more often) give the same result of
collect_files, and the sort-and-dedup step applied to a result of
collect_files returns it unchanged. -/
theorem collect_files_order_independent (sys1 sys2 : Sys) (files1 files2 : JTFiles)
    (rel1 rel2 : Bool) (all1 all2 : List String)
    (h1 : gather_files sys1 files1 rel1 = .ok all1)
    (h2 : gather_files sys2 files2 rel2 = .ok all2)
    (hsame : all1.Perm all2 ∨ ∀ p, p ∈ all1 ↔ p ∈ all2) :
    collect_files sys1 files1 rel1 = collect_files sys2 files2 rel2 ∧
    collect_files sys1 files1 rel1 = .ok (sort_uniq all1) ∧
    sort_uniq (sort_uniq all1) = sort_uniq all1 := by
  have hset : ∀ p, p ∈ all1 ↔ p ∈ all2 := by
    rcases hsame with h | h
    · exact fun p => h.mem_iff
    · exact h
  refine ⟨?_, ?_, sort_uniq_of_sorted (sort_uniq_sorted all1)⟩
  · simp only [collect_files, h1, h2]
    rw [sort_uniq_ext hset]
  · simp only [collect_files, h1]

/-- C9 at a concrete input: the "here" lists [b, a, b] and [a, b]. -/
theorem collect_files_order_independent_witness :
    collect_files sysBare (hereManifest ["b", "a", "b"]) false =
        collect_files sysBare (hereManifest ["a", "b"]) false ∧
    collect_files sysBare (hereManifest ["b", "a", "b"]) false =
        .ok (sort_uniq ["b", "a", "b"]) ∧
    sort_uniq (sort_uniq ["b", "a", "b"]) = sort_uniq ["b", "a", "b"] :=
  collect_files_order_independent sysBare sysBare (hereManifest ["b", "a", "b"])
    (hereManifest ["a", "b"]) false false ["b", "a", "b"] ["a", "b"] (by decide) (by decide)
    (Or.inr (fun p => by
      simp only [List.mem_cons, List.mem_singleton, List.not_mem_nil, or_false]; tauto))

/-- C10, as stated, fails: in the scenario with CORES=/cores and
MODULES=/modules, parse_yaml and collect_files succeed and give the three
paths in order, but dump_qip does not succeed: it writes the lines of x.sv and
y.vhd and then stops with the unsupported-extension error on the synthesized
path of bar, for which no line is written. -/
theorem end_to_end_aborts :
    parse_yaml sysE2E 1 "/cores/foo/hdl/game.yaml" State.init =
      .ok ⟨e2eAggregate, ["/cores/foo/hdl/game.yaml"]⟩ ∧
    collect_files sysE2E e2eAggregate false =
      .ok ["/cores/foo/hdl/x.sv", "/cores/foo/hdl/y.vhd", "/modules/bar/hdl/bar.yaml"] ∧
    dump_qip ["/cores/foo/hdl/x.sv", "/cores/foo/hdl/y.vhd", "/modules/bar/hdl/bar.yaml"] false =
      ⟨["set_global_assignment -name SYSTEMVERILOG_FILE /cores/foo/hdl/x.sv",
        "set_global_assignment -name VHDL_FILE /cores/foo/hdl/y.vhd"],
       some (.unsupported ".yaml" "/modules/bar/hdl/bar.yaml")⟩ := by
  decide

/-- C10, amended (end-to-end scenario): for the root manifest with the game
group foo of x.sv and y.vhd and the module bar, bar having no manifest file,
parse_yaml succeeds with the aggregate of the scenario, and collect_files
succeeds with exactly three paths in strictly increasing order: x.sv and y.vhd
under the game root of foo and the synthesized manifest path of bar.  On that
list dump_qip aborts with the unsupported-extension error for the extension
.yaml of the path of bar; it writes fewer than three lines, each of them the
SystemVerilog line of x.sv or the VHDL line of y.vhd. -/
theorem end_to_end_scenario (sys : Sys) (fuel : Nat) (root : String)
    (hroot : sys.readYaml root = .manifest e2eManifest)
    (hbar : sys.canOpen (module_yaml sys ⟨"bar", ""⟩) = false)
    (hlow : sys.toLower "bar" = "bar") :
    parse_yaml sys (fuel + 1) root State.init = .ok ⟨e2eAggregate, [root]⟩ ∧
    ∃ l, collect_files sys e2eAggregate false = .ok l ∧
      l.Pairwise strLt ∧ l.length = 3 ∧
      (∀ p, p ∈ l ↔ p = e2eGamePath sys "x.sv" ∨ p = e2eGamePath sys "y.vhd" ∨
        p = e2eBarPath sys) ∧
      (dump_qip l false).fatal = some (.unsupported ".yaml" (e2eBarPath sys)) ∧
      (dump_qip l false).lines.length < 3 ∧
      ∀ line ∈ (dump_qip l false).lines,
        line = qip_line "SYSTEMVERILOG_FILE" (e2eGamePath sys "x.sv") false ∨
        line = qip_line "VHDL_FILE" (e2eGamePath sys "y.vhd") false := by
  refine ⟨e2e_parse sys fuel root hroot hbar, _, collect_files_abs sys e2eAggregate, ?_⟩
  rw [e2e_flat_paths sys hlow]
  have hmem : ∀ p, p ∈ sort_uniq
      [e2eGamePath sys "x.sv", e2eGamePath sys "y.vhd", e2eBarPath sys] ↔
      p = e2eGamePath sys "x.sv" ∨ p = e2eGamePath sys "y.vhd" ∨ p = e2eBarPath sys := by
    intro p
    rw [mem_sort_uniq]
    simp
  have hsorted := sort_uniq_sorted
    [e2eGamePath sys "x.sv", e2eGamePath sys "y.vhd", e2eBarPath sys]
  have hlen : (sort_uniq
      [e2eGamePath sys "x.sv", e2eGamePath sys "y.vhd", e2eBarPath sys]).length = 3 := by
    haveI : IsIrrefl String strLt := ⟨strLt_irrefl⟩
    have n1 : (sort_uniq
        [e2eGamePath sys "x.sv", e2eGamePath sys "y.vhd", e2eBarPath sys]).Nodup :=
      List.Sorted.nodup hsorted
    have hperm := (List.perm_ext_iff_of_nodup n1 (e2e_paths_distinct sys)).2
      (fun p => mem_sort_uniq _ p)
    rw [hperm.length_eq]
    rfl
  have hd := dump_qip_e2e sys false _ (fun p hp => (hmem p).1 hp)
    ((hmem _).2 (Or.inr (Or.inr rfl)))
  refine ⟨hsorted, hlen, hmem, hd.1, ?_, hd.2⟩
  have hlt := dump_qip_lines_lt false _ (by rw [hd.1]; simp)
  rw [hlen] at hlt
  exact hlt

/-- C10 at a concrete input: the scenario with CORES=/cores and
MODULES=/modules. -/
theorem end_to_end_scenario_witness :
    parse_yaml sysE2E (0 + 1) "/cores/foo/hdl/game.yaml" State.init =
      .ok ⟨e2eAggregate, ["/cores/foo/hdl/game.yaml"]⟩ ∧
    ∃ l, collect_files sysE2E e2eAggregate false = .ok l ∧
      l.Pairwise strLt ∧ l.length = 3 ∧
      (∀ p, p ∈ l ↔ p = e2eGamePath sysE2E "x.sv" ∨ p = e2eGamePath sysE2E "y.vhd" ∨
        p = e2eBarPath sysE2E) ∧
      (dump_qip l false).fatal = some (.unsupported ".yaml" (e2eBarPath sysE2E)) ∧
      (dump_qip l false).lines.length < 3 ∧
      ∀ line ∈ (dump_qip l false).lines,
        line = qip_line "SYSTEMVERILOG_FILE" (e2eGamePath sysE2E "x.sv") false ∨
        line = qip_line "VHDL_FILE" (e2eGamePath sysE2E "y.vhd") false :=
  end_to_end_scenario sysE2E 0 "/cores/foo/hdl/game.yaml" (by decide) (by decide) (by decide)

/-- C11 (extension classification of dump_qip): on a list whose entries all
have one of the extensions .sv, .vhd, .v, .qip, dump_qip does not abort and
writes exactly one line per entry, in input order, the line of an entry being
the assignment line with the tag of its extension: SYSTEMVERILOG_FILE for
.sv, VHDL_FILE for .vhd, VERILOG_FILE for .v, QIP_FILE for .qip.  The
extension is the suffix from the last dot of the final element of the path.
The list a.sv, b.vhd, c.v, d.qip gives four lines tagged in that order. -/
theorem qip_one_line_per_entry (l : List String) (rel : Bool)
    (h : ∀ p ∈ l, Supported (Ext p)) :
    dump_qip l rel = ⟨l.map (fun p => qip_line (qip_tag (Ext p)) p rel), none⟩ ∧
    (dump_qip l rel).lines.length = l.length ∧
    (qip_tag ".sv" = "SYSTEMVERILOG_FILE" ∧ qip_tag ".vhd" = "VHDL_FILE" ∧
      qip_tag ".v" = "VERILOG_FILE" ∧ qip_tag ".qip" = "QIP_FILE") ∧
    (∀ q stem suf : List Char, Separator ∉ stem → Separator ∉ suf → '.' ∉ suf →
      Ext ⟨stem ++ '.' :: suf⟩ = ⟨'.' :: suf⟩ ∧
      Ext ⟨q ++ Separator :: (stem ++ '.' :: suf)⟩ = ⟨'.' :: suf⟩) ∧
    dump_qip ["a.sv", "b.vhd", "c.v", "d.qip"] false =
      ⟨["set_global_assignment -name SYSTEMVERILOG_FILE a.sv",
        "set_global_assignment -name VHDL_FILE b.vhd",
        "set_global_assignment -name VERILOG_FILE c.v",
        "set_global_assignment -name QIP_FILE d.qip"], none⟩ := by
  have e := dump_qip_supported rel l h
  refine ⟨e, by rw [e]; simp, by decide, ?_, by decide⟩
  intro q stem suf _ h2 h3
  refine ⟨ext_last_dot stem suf h2 h3, ?_⟩
  have e2 : q ++ Separator :: (stem ++ '.' :: suf) = (q ++ Separator :: stem) ++ '.' :: suf := by
    simp
  rw [e2]
  exact ext_last_dot _ suf h2 h3

/-- C11 at a concrete input: the list a.sv, b.vhd, c.v, d.qip in relative
mode. -/
theorem qip_one_line_per_entry_witness :
    (dump_qip ["a.sv", "b.vhd", "c.v", "d.qip"] true).lines.length =
      ["a.sv", "b.vhd", "c.v", "d.qip"].length :=
  (qip_one_line_per_entry ["a.sv", "b.vhd", "c.v", "d.qip"] true (by decide)).2.1

/-- C12 (simulation list): on a list whose entries all have one of the
extensions .sv, .vhd, .v, .qip, dump_sim does not abort and writes, one bare
path per line and verbatim, exactly the entries kept by the inclusion rule, in
input order: every .sv and .v entry, and every .vhd entry when SkipVHDL is
false; no .qip entry is written, and no .vhd entry when SkipVHDL is true. -/
theorem sim_list_subsequence (l : List String) (args : Args)
    (h : ∀ p ∈ l, Supported (Ext p)) :
    dump_sim l args =
      ⟨l.filter (fun p => decide (Ext p = ".sv") || decide (Ext p = ".v") ||
        (decide (Ext p = ".vhd") && !args.SkipVHDL)), none⟩ ∧
    (dump_sim l args).lines.Sublist l ∧
    (∀ p ∈ (dump_sim l args).lines, Ext p ≠ ".qip" ∧
      (args.SkipVHDL = true → Ext p ≠ ".vhd")) ∧
    (∀ p ∈ l, Ext p = ".sv" ∨ Ext p = ".v" ∨ (Ext p = ".vhd" ∧ args.SkipVHDL = false) →
      p ∈ (dump_sim l args).lines) := by
  have e : dump_sim l args =
      ⟨l.filter (fun p => decide (Ext p = ".sv") || decide (Ext p = ".v") ||
        (decide (Ext p = ".vhd") && !args.SkipVHDL)), none⟩ :=
    dump_sim_supported args l h
  have n1 : ¬ (".qip" : String) = ".sv" := by decide
  have n2 : ¬ (".qip" : String) = ".v" := by decide
  have n3 : ¬ (".qip" : String) = ".vhd" := by decide
  have n4 : ¬ (".vhd" : String) = ".sv" := by decide
  have n5 : ¬ (".vhd" : String) = ".v" := by decide
  refine ⟨e, ?_, ?_, ?_⟩
  · rw [e]; exact List.filter_sublist l
  · intro p hp
    rw [e] at hp
    have hk := (List.mem_filter.1 hp).2
    constructor
    · intro hq
      simp [hq, n1, n2, n3] at hk
    · intro hs hv
      simp [hv, hs, n4, n5] at hk
  · intro p hp hk
    rw [e]
    refine List.mem_filter.2 ⟨hp, ?_⟩
    rcases hk with hk | hk | ⟨hk, hs⟩
    · simp [hk]
    · simp [hk]
    · simp [hk, hs]

/-- C12 at a concrete input: the list a.sv, b.vhd, c.v, d.qip with VHDL
skipped gives a.sv and c.v. -/
theorem sim_list_subsequence_witness :
    dump_sim ["a.sv", "b.vhd", "c.v", "d.qip"] ⟨"g", false, true, "sim", ""⟩ =
      ⟨["a.sv", "c.v"], none⟩ := by
  have h := (sim_list_subsequence ["a.sv", "b.vhd", "c.v", "d.qip"]
    ⟨"g", false, true, "sim", ""⟩ (by decide)).1
  rw [h]
  decide

/-- C13 (unsupported extension): dump_qip aborts exactly when some entry of
the list has an extension other than .sv, .vhd, .v, .qip, and so does
dump_sim; both stop with the same error, whatever rel and SkipVHDL are, and
that error is the unsupported-extension error of an entry of the list.  A
list with a .qip entry, for which dump_sim writes nothing, followed by an
unsupported entry makes dump_sim abort all the same. -/
theorem emitters_reject_same (l : List String) (rel : Bool) (args : Args) :
    ((dump_qip l rel).fatal ≠ none ↔ ∃ p ∈ l, ¬ Supported (Ext p)) ∧
    ((dump_sim l args).fatal ≠ none ↔ ∃ p ∈ l, ¬ Supported (Ext p)) ∧
    (dump_qip l rel).fatal = (dump_sim l args).fatal ∧
    (∀ e, (dump_sim l args).fatal = some e →
      ∃ p ∈ l, ¬ Supported (Ext p) ∧ e = .unsupported (Ext p) p) ∧
    dump_sim ["d.qip", "notes.txt"] args =
      ⟨[], some (.unsupported ".txt" "notes.txt")⟩ := by
  have hq := dump_qip_fatal_iff rel l
  have hs := emitters_same_fatal rel args l
  refine ⟨hq.1, ?_, hs, ?_, ?_⟩
  · rw [← hs]; exact hq.1
  · intro e he
    rw [← hs] at he
    exact hq.2 e he
  · have e1 : sim_dump "d.qip" args = .ok false := by
      rw [sim_dump_supported "d.qip" args (by decide)]
      have : sim_keeps args.SkipVHDL "d.qip" = false := by
        cases args.SkipVHDL <;> decide
      rw [this]
    have e2 : sim_dump "notes.txt" args = .error (.unsupported (Ext "notes.txt") "notes.txt") :=
      sim_dump_unsupported "notes.txt" args (by decide)
    have e3 : Ext "notes.txt" = ".txt" := by decide
    simp [dump_sim, e1, e2, e3]

/-- C13 at a concrete input: a list with the unsupported entry notes.txt. -/
theorem emitters_reject_same_witness :
    (dump_qip ["a.v", "notes.txt"] true).fatal =
      (dump_sim ["a.v", "notes.txt"] ⟨"g", false, true, "sim", ""⟩).fatal :=
  (emitters_reject_same ["a.v", "notes.txt"] true ⟨"g", false, true, "sim", ""⟩).2.2.1

/-- C14, as stated, fails: when the manifest of the core is unreadable, the
first call of parse_yaml returns with `parsed` still empty, so the second
top-level call of main, on an unreadable jtframe.yaml, also returns without
error and leaves the state unchanged. -/
theorem second_unreadable_not_fatal :
    sysNoFiles.readYaml (Getenv sysNoFiles "JTFRAME" ++ "/hdl/jtframe.yaml") = .unreadable ∧
    parse_yaml sysNoFiles 1 (get_filename sysNoFiles argsG) State.init = .ok State.init ∧
    parse_yaml sysNoFiles 1 (Getenv sysNoFiles "JTFRAME" ++ "/hdl/jtframe.yaml") State.init =
      .ok State.init ∧
    main_parse sysNoFiles argsG 1 = .ok State.init := by
  decide

/-- C14, amended (unreadable manifest): parse_yaml on an unreadable path
returns without error, leaving the aggregate and `parsed` unchanged, exactly
when `parsed` is still empty, that is when no manifest has been read so far;
otherwise it is the fatal error "cannot open referenced file".  After a
successful call on a readable manifest `parsed` is not empty, so an
unreadable manifest of a module named under "modules.jt" makes the call
fail, and so does an unreadable jtframe.yaml in the second top-level call of
main when the manifest of the core was read; when the manifest of the core is
unreadable too, both top-level calls return and main goes on with the empty
aggregate. -/
theorem unreadable_manifest (sys : Sys) (fuel : Nat) (p : String) (st : State)
    (hread : sys.readYaml p = .unreadable) :
    (st.parsed = [] → parse_yaml sys (fuel + 1) p st = .ok st) ∧
    (st.parsed ≠ [] → parse_yaml sys (fuel + 1) p st = .error (.cannotOpen p)) ∧
    (∀ fuel0 q st0, sys.readYaml q ≠ .unreadable → parse_yaml sys fuel0 q st0 = .ok st →
      parse_yaml sys (fuel + 1) p st = .error (.cannotOpen p)) ∧
    (∀ q st0 st1 aux each, sys.readYaml q = .manifest aux → each ∈ aux.Modules.JT →
      module_yaml sys each = p → sys.canOpen p = true →
      parse_yaml sys (fuel + 1) q st0 ≠ .ok st1) ∧
    (∀ args, get_filename sys args = p →
      sys.readYaml (Getenv sys "JTFRAME" ++ "/hdl/jtframe.yaml") = .unreadable →
      main_parse sys args (fuel + 1) = .ok State.init) ∧
    (∀ args st1, Getenv sys "JTFRAME" ++ "/hdl/jtframe.yaml" = p →
      sys.readYaml (get_filename sys args) ≠ .unreadable →
      parse_yaml sys (fuel + 1) (get_filename sys args) State.init = .ok st1 →
      main_parse sys args (fuel + 1) = .error (.cannotOpen p)) := by
  have hu := parse_yaml_unreadable sys fuel p
  refine ⟨?_, ?_, ?_, ?_, ?_, ?_⟩
  · intro h
    rw [hu st hread, if_pos h]
  · intro h
    rw [hu st hread, if_neg h]
  · intro fuel0 q st0 hq hrun
    rw [hu st hread, if_neg (parse_yaml_read_nonempty sys fuel0 q st0 st hq hrun)]
  · intro q st0 st1 aux each hq hin hp hopen hrun
    obtain ⟨s2, _, h2, _, _⟩ := parse_yaml_manifest sys fuel q st0 st1 aux hq hrun
    subst hp
    exact jt_loop_unreadable sys fuel each hopen hread aux.Modules.JT _ s2 hin (by simp) h2
  · intro args hp hj
    have e1 : parse_yaml sys (fuel + 1) (get_filename sys args) State.init = .ok State.init := by
      rw [hp, hu State.init hread]; rfl
    have e2 : parse_yaml sys (fuel + 1) (Getenv sys "JTFRAME" ++ "/hdl/jtframe.yaml")
        State.init = .ok State.init := by
      rw [parse_yaml_unreadable sys fuel _ State.init hj]; rfl
    simp only [main_parse, e1, e2]
  · intro args st1 hp hg hrun
    have hne := parse_yaml_read_nonempty sys (fuel + 1) _ State.init st1 hg hrun
    simp only [main_parse, hrun, hp]
    rw [hu st1 hread, if_neg hne]

/-- C14 at a concrete input: the manifest of the core g is read and
jtframe.yaml is unreadable: the second top-level call is fatal. -/
theorem unreadable_manifest_witness :
    main_parse sysNoFrame argsG (0 + 1) = .error (.cannotOpen "/f/hdl/jtframe.yaml") :=
  (unreadable_manifest sysNoFrame 0 "/f/hdl/jtframe.yaml"
    ⟨⟨[⟨"g", ["", "", "f.v"], ""⟩], [], ⟨[], []⟩, []⟩, ["/c/g/hdl/game.yaml"]⟩
    (by decide)).2.2.2.2.2 argsG
    ⟨⟨[⟨"g", ["", "", "f.v"], ""⟩], [], ⟨[], []⟩, []⟩, ["/c/g/hdl/game.yaml"]⟩
    (by decide) (by decide) (by decide)

/-- C15 (absolute paths of the groups): in absolute-path mode collect_files
always returns, and for every group with key k and every non-empty file name
f of that group its result holds the cleaned join of the root with f, the
root being CORES/k/hdl for a group of game, JTFRAME/hdl/k for a group of
jtframe and MODULES/k for a group of modules.other.  A group contributes one
path per non-empty name and none for an empty name. -/
theorem absolute_group_paths (sys : Sys) (files : JTFiles) :
    ∃ l, collect_files sys files false = .ok l ∧
      (∀ g ∈ files.Game, ∀ f ∈ g.Get, f ≠ "" →
        Clean (Join [Join [Getenv sys "CORES", g.From, "hdl"], f]) ∈ l) ∧
      (∀ g ∈ files.JTFrame, ∀ f ∈ g.Get, f ≠ "" →
        Clean (Join [Join [Getenv sys "JTFRAME", "hdl", g.From], f]) ∈ l) ∧
      (∀ g ∈ files.Modules.Other, ∀ f ∈ g.Get, f ≠ "" →
        Clean (Join [Join [Getenv sys "MODULES", g.From], f]) ∈ l) ∧
      (∀ (origin : Origin) (g : FileList) (all : List String),
        dump_filelist sys origin false [g] all =
          .ok (all ++ (g.Get.filter (fun f => f ≠ "")).map
            (fun f => Clean (Join [origin_path sys origin g.From, f])))) ∧
      (∀ (origin : Origin) (k u : String) (all : List String),
        dump_filelist sys origin false [⟨k, [""], u⟩] all = .ok all) := by
  refine ⟨_, collect_files_abs sys files, ?_, ?_, ?_, ?_, ?_⟩
  · intro g hg f hf hne
    rw [mem_sort_uniq]
    exact holds_flat_paths sys files .GAME g.From f ⟨g, hg, rfl, hf⟩ hne
  · intro g hg f hf hne
    rw [mem_sort_uniq]
    exact holds_flat_paths sys files .FRAME g.From f ⟨g, hg, rfl, hf⟩ hne
  · intro g hg f hf hne
    rw [mem_sort_uniq]
    exact holds_flat_paths sys files .MODULE g.From f ⟨g, hg, rfl, hf⟩ hne
  · intro origin g all
    rw [dump_filelist_abs]
    simp [group_paths]
  · intro origin k u all
    rw [dump_filelist_abs]
    simp [group_paths]

/-- C15 at a concrete input: the aggregate of the end-to-end scenario under
CORES=/cores. -/
theorem absolute_group_paths_witness :
    ∃ l, collect_files sysE2E e2eAggregate false = .ok l ∧
      "/cores/foo/hdl/x.sv" ∈ l ∧ "/cores/foo/hdl/y.vhd" ∈ l := by
  obtain ⟨l, hl, hg, _⟩ := absolute_group_paths sysE2E e2eAggregate
  refine ⟨l, hl, ?_, ?_⟩
  · have h := hg ⟨"foo", ["", "", "x.sv", "y.vhd"], ""⟩ (by decide) "x.sv" (by decide)
      (by decide)
    have e : Clean (Join [Join [Getenv sysE2E "CORES", "foo", "hdl"], "x.sv"]) =
        "/cores/foo/hdl/x.sv" := by decide
    rw [← e]; exact h
  · have h := hg ⟨"foo", ["", "", "x.sv", "y.vhd"], ""⟩ (by decide) "y.vhd" (by decide)
      (by decide)
    have e : Clean (Join [Join [Getenv sysE2E "CORES", "foo", "hdl"], "y.vhd"]) =
        "/cores/foo/hdl/y.vhd" := by decide
    rw [← e]; exact h

/-- C16, as stated, fails for modules.other: the nested manifest n.yaml of a
group with key k is queued at MODULES/n.yaml, without the key, and not at
MODULES/k/n.yaml. -/
theorem modules_other_yaml_not_per_key :
    append_filelist sysDiamond [] [⟨"k", ["n.yaml"], ""⟩] [] .MODULE =
      ([⟨"k", ["", ""], ""⟩], ["/m/n.yaml"]) ∧
    "/m/k/n.yaml" ∉ (append_filelist sysDiamond [] [⟨"k", ["n.yaml"], ""⟩] [] .MODULE).2 := by
  decide

/-- C16, amended (nested manifests of a group): for every group of the source
list that is not gated, with key k, and every entry e of its `get` list whose
trimmed name ends in .yaml, append_filelist queues the pending reference
CORES/k/hdl/e for game, JTFRAME/hdl/k/e for jtframe and MODULES/e, without
the key, for modules.other (e trimmed, the pieces concatenated as written);
the entry is not added to the file list of the group: the names the group
brings are two empty strings and its trimmed names not ending in .yaml, and a
destination without names ending in .yaml stays without them. -/
theorem nested_manifest_queued (sys : Sys) (origin : Origin) (dest src : List FileList)
    (other : List String) (g : FileList) (e : String)
    (hin : g ∈ src) (hg : ¬ gated sys g) (he : e ∈ g.Get)
    (hs : HasSuffix (TrimSpace e) ".yaml" = true) :
    (match origin with
      | .GAME => Getenv sys "CORES" ++ "/" ++ g.From ++ "/hdl/" ++ TrimSpace e
      | .FRAME => Getenv sys "JTFRAME" ++ "/hdl/" ++ g.From ++ "/" ++ TrimSpace e
      | _ => Getenv sys "MODULES" ++ "/" ++ TrimSpace e) ∈
      (append_filelist sys dest src other origin).2 ∧
    (append_group sys origin (dest, other) g).1 =
      merge_group ⟨g.From,
        ["", ""] ++ (g.Get.map TrimSpace).filter (fun n => HasSuffix n ".yaml" = false), ""⟩
        dest ∧
    TrimSpace e ∉ (g.Get.map TrimSpace).filter (fun n => HasSuffix n ".yaml" = false) ∧
    ((∀ d ∈ dest, ∀ n ∈ d.Get, HasSuffix n ".yaml" = false) →
      ∀ d ∈ (append_filelist sys dest src other origin).1, ∀ n ∈ d.Get,
        HasSuffix n ".yaml" = false) := by
  refine ⟨?_, ?_, ?_, append_filelist_no_yaml sys src dest other origin⟩
  · have h := append_filelist_queues sys src dest other origin g e hin hg he hs
    cases origin <;> exact h
  · rw [append_group_ungated sys origin (dest, other) g hg]
  · intro h
    have h2 := (List.mem_filter.1 h).2
    simp [hs] at h2

/-- C16 at a concrete input: the entry n.yaml of a group of game with key k
under CORES=/c. -/
theorem nested_manifest_queued_witness :
    "/c/k/hdl/n.yaml" ∈
      (append_filelist sysDiamond [] [⟨"k", [" n.yaml ", "a.v"], ""⟩] [] .GAME).2 := by
  have h := (nested_manifest_queued sysDiamond .GAME [] [⟨"k", [" n.yaml ", "a.v"], ""⟩] []
    ⟨"k", [" n.yaml ", "a.v"], ""⟩ " n.yaml " (by decide) (by decide) (by decide)
    (by decide)).1
  have e : Getenv sysDiamond "CORES" ++ "/" ++ "k" ++ "/hdl/" ++ TrimSpace " n.yaml " =
      "/c/k/hdl/n.yaml" := by decide
  rw [← e]; exact h

/-- C17, as stated, fails in its last part: the manifests /a/b/m.yaml and
/a/c/m.yaml stand in different directories and both list the "here" entry
../x.v, which does not end in .yaml; both entries give the same path
/a/x.v, which the aggregate then holds twice. -/
theorem here_same_path_two_dirs :
    Dir "/a/b/m.yaml" ≠ Dir "/a/c/m.yaml" ∧
    Join [Dir "/a/b/m.yaml", "../x.v"] = Join [Dir "/a/c/m.yaml", "../x.v"] ∧
    parse_yaml sysTwoDirs 2 "/a/b/m.yaml" State.init =
      .ok ⟨⟨[], [], ⟨[], []⟩, ["/a/x.v", "/a/x.v"]⟩, ["/a/b/m.yaml", "/a/c/m.yaml"]⟩ := by
  decide

/-- C17, amended ("here" entries): a successful call of parse_yaml on a
manifest at path p appends to the "here" list of the aggregate, after the
entries already there and in declaration order, the join of the directory of
p with every "here" entry that does not end in .yaml (entries of nested
manifests may stand between them); collect_files in absolute-path mode
returns each of these joined paths unchanged.  The same entry declared by two
manifests in different directories gives two different paths when the entry
is made of real path elements only (no empty, "." or ".." element). -/
theorem here_entries_joined (sys : Sys) (fuel : Nat) (p : String) (st st1 : State)
    (aux : JTFiles) (hread : sys.readYaml p = .manifest aux)
    (hrun : parse_yaml sys (fuel + 1) p st = .ok st1) :
    (∃ more, st1.files.Here = st.files.Here ++ more ∧
      ((aux.Here.filter (fun e => HasSuffix e ".yaml" = false)).map
        (fun e => Join [Dir p, e])).Sublist more) ∧
    (∀ (recur : String → State → Except Abort State) (dir e : String) (rest : List String)
        (s : State), HasSuffix e ".yaml" = false →
      here_loop recur dir (e :: rest) s = here_loop recur dir rest (add_here s (Join [dir, e])) ∧
      (add_here s (Join [dir, e])).files.Here = s.files.Here ++ [Join [dir, e]]) ∧
    (∃ l, collect_files sys st1.files false = .ok l ∧
      ∀ e ∈ aux.Here, HasSuffix e ".yaml" = false → Join [Dir p, e] ∈ l) ∧
    (∀ p2 e : String, (∀ w ∈ splitSep e.data, PlainElem w) → Dir p ≠ Dir p2 →
      Join [Dir p, e] ≠ Join [Dir p2, e]) := by
  obtain ⟨s2, s3, h2, h3, h4⟩ := parse_yaml_manifest sys fuel p st st1 aux hread hrun
  have hrec : ∀ L q s s1, parse_yaml sys fuel q s = .ok s1 →
      HereGrown st.files.Here L s → HereGrown st.files.Here L s1 :=
    fun L q s s1 => parse_yaml_hereGrown sys st.files.Here L fuel q s s1
  have g1 : HereGrown st.files.Here []
      (State.mk (merge_groups sys st.files aux).1 (st.parsed ++ [p])) :=
    ⟨[], by simp [merge_groups], List.Sublist.refl _⟩
  have g2 := jt_loop_inv sys _ (HereGrown st.files.Here []) (hrec []) (fun _ _ _ h => h)
    _ _ _ h2 g1
  have g3 := other_loop_inv _ (HereGrown st.files.Here []) (hrec []) _ _ _ h3 g2
  have g4 := here_loop_order _ (Dir p) st.files.Here hrec aux.Here [] s3 st1 g3 h4
  rw [List.nil_append] at g4
  refine ⟨g4, ?_, ?_, ?_⟩
  · intro recur dir e rest s he
    have hc : ¬ (HasSuffix e ".yaml" = true ∧ is_parsed s.parsed e = false) := by
      simp [he]
    exact ⟨by simp only [here_loop, if_neg hc], rfl⟩
  · refine ⟨_, collect_files_abs sys st1.files, ?_⟩
    intro e he hs
    rw [mem_sort_uniq]
    apply here_flat_paths
    obtain ⟨more, hm, hsub⟩ := g4
    rw [hm]
    apply List.mem_append_right
    apply hsub.subset
    exact List.mem_map.2 ⟨e, List.mem_filter.2 ⟨he, by simpa using hs⟩, rfl⟩
  · intro p2 e he hd hj
    exact hd (here_join_injective p p2 e he hj)

/-- C17 at a concrete input: the manifest /a/c/m.yaml of sysTwoDirs with its
"here" entry ../x.v. -/
theorem here_entries_joined_witness :
    ∃ l, collect_files sysTwoDirs (⟨[], [], ⟨[], []⟩, ["/a/x.v"]⟩ : JTFiles) false = .ok l ∧
      ∀ e ∈ (hereManifest ["../x.v"]).Here, HasSuffix e ".yaml" = false →
        Join [Dir "/a/c/m.yaml", e] ∈ l :=
  (here_entries_joined sysTwoDirs 0 "/a/c/m.yaml" State.init
    ⟨⟨[], [], ⟨[], []⟩, ["/a/x.v"]⟩, ["/a/c/m.yaml"]⟩ (hereManifest ["../x.v"])
    (by decide) (by decide)).2.2.1

/-- C18 (line syntax of dump_qip), evaluated on the code: in absolute-path
mode the line is `set_global_assignment -name <CATEGORY> <path>`, tag and path
separated by one space; in relative-path mode the wrapped expression follows
the tag with no space between them. -/
theorem qip_line_relative_no_space :
    (∀ t p, qip_line t p false = "set_global_assignment -name " ++ t ++ " " ++ p) ∧
    (∀ t p, qip_line t p true =
      "set_global_assignment -name " ++ t ++ "[file join $::quartus(qip_path) " ++ p ++ "]") ∧
    dump_qip ["a.v"] false = ⟨["set_global_assignment -name VERILOG_FILE a.v"], none⟩ ∧
    dump_qip ["a.v"] true =
      ⟨["set_global_assignment -name VERILOG_FILE[file join $::quartus(qip_path) a.v]"],
        none⟩ := by
  refine ⟨fun _ _ => rfl, fun _ _ => rfl, by decide, by decide⟩

/-- C19 (padded groups): every source group that is not gated is merged as
two empty strings followed by its trimmed names not ending in .yaml, so a
group of its key exists afterwards even when it has no plain name at all.
Starting from a destination without repeated keys, the non-empty names stored
under a key k afterwards are those stored before followed by the non-empty
trimmed plain names of the ungated source groups with key k, in merge order;
and the paths dump_filelist derives from the group of key k are exactly the
root of k joined with these names, in that order: the empty strings and the
names that trim to the empty string give no path. -/
theorem padded_groups (sys : Sys) (origin : Origin) (dest src : List FileList)
    (other : List String) (k : String) (hu : KeysUnique dest) :
    (∀ (acc : List FileList × List String) (g : FileList), ¬ gated sys g →
      (append_group sys origin acc g).1 =
        merge_group ⟨g.From,
          ["", ""] ++ (g.Get.map TrimSpace).filter (fun n => HasSuffix n ".yaml" = false), ""⟩
          acc.1) ∧
    (∀ g ∈ src, ¬ gated sys g →
      g.From ∈ (append_filelist sys dest src other origin).1.map (fun d => d.From)) ∧
    names_of (append_filelist sys dest src other origin).1 k =
      names_of dest k ++ plain_names sys src k ∧
    (∀ d ∈ (append_filelist sys dest src other origin).1, d.From = k →
      ∀ all, dump_filelist sys origin false [d] all =
        .ok (all ++ (names_of dest k ++ plain_names sys src k).map
          (fun f => Clean (Join [origin_path sys origin k, f])))) := by
  refine ⟨?_, ?_, append_filelist_names sys src dest other origin k hu, ?_⟩
  · intro acc g hg
    rw [append_group_ungated sys origin acc g hg]
  · intro g hg hgate
    exact append_filelist_key sys src dest other origin g hg hgate
  · intro d hd hk all
    have hu2 := append_filelist_unique sys src dest other origin hu
    have e := names_of_unique _ d hu2 hd
    rw [hk, append_filelist_names sys src dest other origin k hu] at e
    rw [dump_filelist_abs, e, ← hk]
    simp [group_paths]

/-- C19 at a concrete input: two source groups with key g, one of them with a
nested manifest only, merged into the empty destination. -/
theorem padded_groups_witness :
    names_of (append_filelist sysBare [] [⟨"g", ["n.yaml", " "], ""⟩, ⟨"g", [" a.v"], ""⟩] []
        .GAME).1 "g" =
      names_of [] "g" ++
        plain_names sysBare [⟨"g", ["n.yaml", " "], ""⟩, ⟨"g", [" a.v"], ""⟩] "g" :=
  (padded_groups sysBare .GAME [] [⟨"g", ["n.yaml", " "], ""⟩, ⟨"g", [" a.v"], ""⟩] [] "g"
    List.nodup_nil).2.2.1

/-- C20 (retained module references abort the emitters): for an aggregate
that retains a module reference with a non-empty name, collect_files in
absolute-path mode returns a list that holds the synthesized path
MODULES/lower(name)/hdl/lower(name).yaml, whose extension is .yaml, and both
dump_qip and dump_sim stop on that list with an unsupported-extension error.
In relative-path mode a returned list holds the result of filepath.Rel on a
path with extension .yaml, and the emitters stop in the same way when that
result keeps the extension.  A retained reference with an empty name
contributes no path. -/
theorem retained_module_aborts (sys : Sys) (files : JTFiles) (m : JTModule)
    (hm : m ∈ files.Modules.JT) (hn : m.Name ≠ "") :
    (∃ l p, collect_files sys files false = .ok l ∧ synth_path sys m false = .ok p ∧
      p = Clean (Join [Getenv sys "MODULES",
        Join [sys.toLower m.Name, "hdl", sys.toLower m.Name ++ ".yaml"]]) ∧
      p ∈ l ∧ Ext p = ".yaml" ∧
      (∀ rel, ∃ ext file, (dump_qip l rel).fatal = some (.unsupported ext file)) ∧
      (∀ args, ∃ ext file, (dump_sim l args).fatal = some (.unsupported ext file))) ∧
    (∀ l, collect_files sys files true = .ok l →
      ∃ q p, Ext q = ".yaml" ∧ sys.relCWD q = some p ∧ p ∈ l ∧
        (Ext p = ".yaml" →
          (∀ rel, ∃ ext file, (dump_qip l rel).fatal = some (.unsupported ext file)) ∧
          (∀ args, ∃ ext file, (dump_sim l args).fatal = some (.unsupported ext file)))) ∧
    (∀ (rel : Bool) (u : String) (all : List String),
      dump_jtmodules sys rel [⟨"", u⟩] all = .ok all) := by
  refine ⟨?_, ?_, ?_⟩
  · have hp : Clean (Join [Getenv sys "MODULES",
        Join [sys.toLower m.Name, "hdl", sys.toLower m.Name ++ ".yaml"]]) ∈
        sort_uniq (flat_paths sys files) := by
      rw [mem_sort_uniq]
      exact retained_flat_paths sys files m hm hn
    have he := ext_synth (Getenv sys "MODULES") (sys.toLower m.Name)
    have ha := yaml_entry_aborts _ _ hp he
    exact ⟨_, _, collect_files_abs sys files, rfl, rfl, hp, he, ha.1, ha.2⟩
  · intro l hl
    unfold collect_files at hl
    cases hg : gather_files sys files true with
    | error e => simp [hg] at hl
    | ok all =>
      simp only [hg, Except.ok.injEq] at hl
      subst hl
      have hmade : ∃ p, synth_path sys m true = .ok p := by
        unfold gather_files at hg
        cases h1 : dump_filelist sys .GAME true files.Game [] with
        | error e => simp [h1] at hg
        | ok a1 =>
          simp only [h1] at hg
          cases h2 : dump_filelist sys .FRAME true files.JTFrame a1 with
          | error e => simp [h2] at hg
          | ok a2 =>
            simp only [h2] at hg
            cases h3 : dump_jtmodules sys true files.Modules.JT a2 with
            | error e => simp [h3] at hg
            | ok a3 => exact dump_jtmodules_made sys true m hn _ a2 a3 hm h3
      obtain ⟨p, hp⟩ := hmade
      have hin : p ∈ sort_uniq all := by
        rw [mem_sort_uniq, gather_files_mem sys files true all hg p]
        exact Or.inr (Or.inr (Or.inl ⟨m, hm, hn, hp⟩))
      have hrel : sys.relCWD (Join [Getenv sys "MODULES",
          Join [sys.toLower m.Name, "hdl", sys.toLower m.Name ++ ".yaml"]]) = some p := by
        unfold synth_path make_path at hp
        simp only [if_true] at hp
        cases hr : sys.relCWD (Join [Getenv sys "MODULES",
            Join [sys.toLower m.Name, "hdl", sys.toLower m.Name ++ ".yaml"]]) with
        | none => simp [hr] at hp
        | some item =>
          simp only [hr, Except.ok.injEq] at hp
          rw [hp]
      exact ⟨_, p, ext_synth_join _ _, hrel, hin, fun he => yaml_entry_aborts _ p hin he⟩
  · intro rel u all
    simp [dump_jtmodules]

/-- C20 at a concrete input: the aggregate of the end-to-end scenario, which
retains the module bar. -/
theorem retained_module_aborts_witness :
    ∃ l p, collect_files sysE2E e2eAggregate false = .ok l ∧
      synth_path sysE2E ⟨"bar", ""⟩ false = .ok p ∧
      p = Clean (Join [Getenv sysE2E "MODULES",
        Join [sysE2E.toLower "bar", "hdl", sysE2E.toLower "bar" ++ ".yaml"]]) ∧
      p ∈ l ∧ Ext p = ".yaml" ∧
      (∀ rel, ∃ ext file, (dump_qip l rel).fatal = some (.unsupported ext file)) ∧
      (∀ args, ∃ ext file, (dump_sim l args).fatal = some (.unsupported ext file)) :=
  (retained_module_aborts sysE2E e2eAggregate ⟨"bar", ""⟩ (by decide) (by decide)).1

end Jtfiles
